import Mathlib

/-!
# A shallow embedding of the `binary` codec (package `binary`, Go)

The development follows `encode.go`, `decode.go` and `errors.go`.

* Bytes are `Fin 256`; a Go `[]byte` is a `List Byte` whose capacity equals its
  length, so slicing past the end panics.
* Go values (`interface{}` contents) are `GoVal`, Go types are `GoType`.
  `int` and `uint` are 64 bits wide.
* A function returning `([]byte, error)` returns `Res (List Byte)`; a run-time
  panic is the separate outcome `Res.panic`.
* `Decode(b, val)` returns `(int, error)` and writes through `val`; the outcome
  `Outcome.ret n err dst` records both results and the destination afterwards.
-/

namespace Binary

/-! ## Bytes and machine integers -/

abbrev Byte := Fin 256

/-- The conversion `byte(n)`: the low eight bits of `n`. -/
def byteOf (n : Nat) : Byte := ⟨n % 256, Nat.mod_lt n (by decide)⟩

/-- Conversion of a signed integer to the unsigned type of width `w`
(`uint8(x)`, `uint16(x)`, ...): the two's-complement bit pattern. -/
def toUnsigned (w : Nat) (x : Int) : Nat := (x % (2 : Int) ^ w).toNat

/-- Conversion of an unsigned bit pattern to the signed type of width `w`
(`int8(n)`, `int64(n)`, ...). -/
def toSigned (w : Nat) (n : Nat) : Int :=
  if n % 2 ^ w < 2 ^ (w - 1) then ((n % 2 ^ w : Nat) : Int)
  else ((n % 2 ^ w : Nat) : Int) - ((2 ^ w : Nat) : Int)

/-- Conversion between signed types (`int8(x)` for an `int64` value `x`). -/
def wrapInt (w : Nat) (x : Int) : Int := toSigned w (toUnsigned w x)

/-! ## `Type`: the wire tags (`encode.go`, lines 17-53) -/

/-- The constants of `type Type uint8`, in declaration order. -/
inductive Tag
  | Uint8 | Uint16 | Uint32 | Uint64 | Int8 | Int16 | Int32 | Int64 | Int | Uint
  | Float32 | Float64 | String | Bool | Duration | Rune | Timestamp | Bytes
  | Array | ArrayInt | ArrayUint | ArrayFloat | ArrayFloat32 | ArrayString | ArrayBool
  | Struct | StructField | StructValue | Map | MapKey | MapValue
  | ElementValue | ElementRef
  deriving DecidableEq, Repr

/-- The position of a constant in the `const` block (`iota`). -/
def Tag.iota : Tag → Nat
  | .Uint8 => 0 | .Uint16 => 1 | .Uint32 => 2 | .Uint64 => 3
  | .Int8 => 4 | .Int16 => 5 | .Int32 => 6 | .Int64 => 7 | .Int => 8 | .Uint => 9
  | .Float32 => 10 | .Float64 => 11 | .String => 12 | .Bool => 13 | .Duration => 14
  | .Rune => 15 | .Timestamp => 16 | .Bytes => 17 | .Array => 18 | .ArrayInt => 19
  | .ArrayUint => 20 | .ArrayFloat => 21 | .ArrayFloat32 => 22 | .ArrayString => 23
  | .ArrayBool => 24 | .Struct => 25 | .StructField => 26 | .StructValue => 27
  | .Map => 28 | .MapKey => 29 | .MapValue => 30 | .ElementValue => 31
  | .ElementRef => 32

/-- The value of a constant: `0xFF - iota`. -/
def Tag.toByte (t : Tag) : Byte := byteOf (0xFF - t.iota)

/-- The conversion `Type(b)` followed by a `switch` over the constants:
`none` is the `default` branch. -/
def Tag.ofByte (b : Byte) : Option Tag :=
  match 0xFF - b.val with
  | 0 => some .Uint8 | 1 => some .Uint16 | 2 => some .Uint32 | 3 => some .Uint64
  | 4 => some .Int8 | 5 => some .Int16 | 6 => some .Int32 | 7 => some .Int64
  | 8 => some .Int | 9 => some .Uint | 10 => some .Float32 | 11 => some .Float64
  | 12 => some .String | 13 => some .Bool | 14 => some .Duration | 15 => some .Rune
  | 16 => some .Timestamp | 17 => some .Bytes | 18 => some .Array
  | 19 => some .ArrayInt | 20 => some .ArrayUint | 21 => some .ArrayFloat
  | 22 => some .ArrayFloat32 | 23 => some .ArrayString | 24 => some .ArrayBool
  | 25 => some .Struct | 26 => some .StructField | 27 => some .StructValue
  | 28 => some .Map | 29 => some .MapKey | 30 => some .MapValue
  | 31 => some .ElementValue | 32 => some .ElementRef
  | _ => none

/-! ## `ByteOrder = binary.LittleEndian` -/

/-- The call `ByteOrder.PutUint16(b, v)`: the two bytes written. -/
def PutUint16 (v : Nat) : List Byte := [byteOf v, byteOf (v / 2 ^ 8)]

/-- The call `ByteOrder.PutUint32(b, v)`: the four bytes written. -/
def PutUint32 (v : Nat) : List Byte :=
  [byteOf v, byteOf (v / 2 ^ 8), byteOf (v / 2 ^ 16), byteOf (v / 2 ^ 24)]

/-- The call `ByteOrder.PutUint64(b, v)`: the eight bytes written. -/
def PutUint64 (v : Nat) : List Byte :=
  [byteOf v, byteOf (v / 2 ^ 8), byteOf (v / 2 ^ 16), byteOf (v / 2 ^ 24),
   byteOf (v / 2 ^ 32), byteOf (v / 2 ^ 40), byteOf (v / 2 ^ 48), byteOf (v / 2 ^ 56)]

/-- The call `ByteOrder.Uint16(b)`; `none` is the index-out-of-range panic on a short slice. -/
def Uint16 (b : List Byte) : Option Nat :=
  match b with
  | b0 :: b1 :: _ => some (b0.val + b1.val * 2 ^ 8)
  | _ => none

/-- The call `ByteOrder.Uint32(b)`; `none` is the index-out-of-range panic on a short slice. -/
def Uint32 (b : List Byte) : Option Nat :=
  match b with
  | b0 :: b1 :: b2 :: b3 :: _ =>
      some (b0.val + b1.val * 2 ^ 8 + b2.val * 2 ^ 16 + b3.val * 2 ^ 24)
  | _ => none

/-- The call `ByteOrder.Uint64(b)`; `none` is the index-out-of-range panic on a short slice. -/
def Uint64 (b : List Byte) : Option Nat :=
  match b with
  | b0 :: b1 :: b2 :: b3 :: b4 :: b5 :: b6 :: b7 :: _ =>
      some (b0.val + b1.val * 2 ^ 8 + b2.val * 2 ^ 16 + b3.val * 2 ^ 24
            + b4.val * 2 ^ 32 + b5.val * 2 ^ 40 + b6.val * 2 ^ 48 + b7.val * 2 ^ 56)
  | _ => none

/-- The slice expression `b[lo:]`; `none` is the bounds panic. -/
def sliceFrom (b : List Byte) (lo : Nat) : Option (List Byte) :=
  if lo ≤ b.length then some (b.drop lo) else none

/-- The slice expression `b[lo:hi]`; `none` is the bounds panic. -/
def slice (b : List Byte) (lo hi : Nat) : Option (List Byte) :=
  if lo ≤ hi ∧ hi ≤ b.length then some ((b.take hi).drop lo) else none

/-- The calls `bytes.IndexByte(b, 0)` and `bytes.Index(b, []byte{0})`: the position of the
first zero byte, `none` for the result `-1`. -/
def indexZero : List Byte → Option Nat
  | [] => none
  | c :: rest => if c = 0 then some 0 else (indexZero rest).map (· + 1)

/-! ## Values and types -/

/-- A `time.Time`, as the instant it denotes: Unix seconds and the nanoseconds
within that second (`0 ≤ nsec < 1e9`). Locations are not modelled: every
instant is read in UTC. -/
structure Time where
  sec : Int
  nsec : Int
  deriving DecidableEq, Repr

/-- The call `time.Unix(sec, nsec)`: `nsec` outside `[0, 1e9)` is carried into `sec`. -/
def Time.Unix (sec nsec : Int) : Time :=
  if nsec < 0 ∨ nsec ≥ 1000000000 then
    let n := nsec.tdiv 1000000000
    let sec := sec + n
    let nsec := nsec - n * 1000000000
    if nsec < 0 then ⟨sec - 1, nsec + 1000000000⟩ else ⟨sec, nsec⟩
  else ⟨sec, nsec⟩

/-- The call `t.UnixNano()`, computed in `int64`. -/
def Time.UnixNano (t : Time) : Int := wrapInt 64 (t.sec * 1000000000 + t.nsec)

/-- Go types that a destination, a struct field or a map can have. `other` is any
type not listed whose `reflect.Kind` is neither an integer, a float nor an
interface kind (a pointer, a channel, an array, a slice of another element
type). Embedded fields of a struct type are not modelled. -/
inductive GoType
  | uint8 | uint16 | uint32 | uint64 | int8 | int16 | int32 | int64 | int | uint
  | float32 | float64 | bool | string | time | duration
  | bytes
  | sliceInt | sliceUint | sliceFloat32 | sliceFloat64 | sliceBool | sliceString
  | sliceAny
  | iface
  | struct (fields : List (List Byte × GoType))
  | map (key elem : GoType)
  | other

/-- Go values, as an `interface{}` holds them: the constructor is the dynamic
type. Floats are their IEEE-754 bit patterns (`math.Float32bits`,
`math.Float64bits`), strings are their bytes. A struct is the list of its
fields in declaration order; a map is the list of its entries in the order
`MapRange` enumerates them, with distinct keys. `other` is a value of any
other type (a pointer, a value of a named scalar or slice type, a slice of an
unlisted element type, ...). -/
inductive GoVal
  | uint8 (x : Nat) | uint16 (x : Nat) | uint32 (x : Nat) | uint64 (x : Nat)
  | int8 (x : Int) | int16 (x : Int) | int32 (x : Int) | int64 (x : Int)
  | int (x : Int) | uint (x : Nat)
  | float32 (bits : Nat) | float64 (bits : Nat)
  | bool (b : Bool) | string (s : List Byte)
  | time (t : Time) | duration (d : Int)
  | bytes (x : List Byte)
  | sliceInt (xs : List Int) | sliceUint (xs : List Nat)
  | sliceFloat32 (xs : List Nat) | sliceFloat64 (xs : List Nat)
  | sliceBool (xs : List Bool) | sliceString (xs : List (List Byte))
  | sliceAny (xs : List GoVal)
  | struct (fields : List (List Byte × GoVal))
  | map (entries : List (GoVal × GoVal))
  | nilMap
  | nil
  | other

/-- The zero value of a type (`reflect.New(t).Elem()`). -/
def GoType.zero : GoType → GoVal
  | .uint8 => .uint8 0 | .uint16 => .uint16 0 | .uint32 => .uint32 0 | .uint64 => .uint64 0
  | .int8 => .int8 0 | .int16 => .int16 0 | .int32 => .int32 0 | .int64 => .int64 0
  | .int => .int 0 | .uint => .uint 0
  | .float32 => .float32 0 | .float64 => .float64 0
  | .bool => .bool false | .string => .string []
  | .time => .time ⟨-62135596800, 0⟩ | .duration => .duration 0
  | .bytes => .bytes []
  | .sliceInt => .sliceInt [] | .sliceUint => .sliceUint []
  | .sliceFloat32 => .sliceFloat32 [] | .sliceFloat64 => .sliceFloat64 []
  | .sliceBool => .sliceBool [] | .sliceString => .sliceString []
  | .sliceAny => .sliceAny []
  | .iface => .nil
  | .struct fields => .struct (zeroFields fields)
  | .map _ _ => .nilMap
  | .other => .other
where
  /-- The zero values of a field list. -/
  zeroFields : List (List Byte × GoType) → List (List Byte × GoVal)
    | [] => []
    | (name, t) :: rest => (name, t.zero) :: zeroFields rest

/-! ## Errors and results (`errors.go`) -/

/-- The error values of the package, the anonymous errors it creates with
`errors.New` and `fmt.Errorf`, and the two errors `binary.Read` returns on a
short input. -/
inductive Err
  | ErrBufTooSmall | ErrNonStringTailZero | ErrInvalidMapKey | ErrInvalidMapValue
  | ErrInvalidStructField | ErrInvalidStructValue | ErrMustScalarType
  | ErrInvalidElementType
  /-- The error `errors.New("invalid type")` of the encoder. -/
  | invalidType
  /-- The error `errors.New("invalid codec of decode")`. -/
  | invalidCodec
  /-- The error `errors.New("decode to value must can be set")`. -/
  | mustCanBeSet
  /-- The error `fmt.Errorf("missing struct field %s", key)`. -/
  | missingStructField (key : List Byte)
  /-- The error `io.EOF`. -/
  | EOF
  /-- The error `io.ErrUnexpectedEOF`. -/
  | ErrUnexpectedEOF
  deriving DecidableEq, Repr

/-- The result of a function returning `(T, error)`: a value with a nil error,
the zero `T` with an error, or a panic. -/
inductive Res (α : Type)
  | ok (a : α)
  | err (e : Err)
  | panic

/-! ## The encoder (`encode.go`) -/

/-- The method `enc.encode`: the scalar kinds. -/
def Encoder.encode (val : GoVal) : Res (List Byte) :=
  match val with
  | .uint8 x => .ok [Tag.Uint8.toByte, byteOf x]
  | .uint16 x => .ok (Tag.Uint16.toByte :: PutUint16 x)
  | .uint32 x => .ok (Tag.Uint32.toByte :: PutUint32 x)
  | .uint64 x => .ok (Tag.Uint64.toByte :: PutUint64 x)
  | .int8 x => .ok [Tag.Int8.toByte, byteOf (toUnsigned 8 x)]
  | .int16 x => .ok (Tag.Int16.toByte :: PutUint16 (toUnsigned 16 x))
  | .int32 x => .ok (Tag.Int32.toByte :: PutUint32 (toUnsigned 32 x))
  | .int64 x => .ok (Tag.Int64.toByte :: PutUint64 (toUnsigned 64 x))
  | .int x => .ok (Tag.Int.toByte :: PutUint64 (toUnsigned 64 x))
  | .uint x => .ok (Tag.Uint.toByte :: PutUint64 x)
  | .float32 bits => .ok (Tag.Float32.toByte :: PutUint32 bits)
  | .float64 bits => .ok (Tag.Float64.toByte :: PutUint64 bits)
  | .bool x => .ok [Tag.Bool.toByte, if x then 1 else 0]
  | .string x => .ok (Tag.String.toByte :: (x ++ [0]))
  | .time x => .ok (Tag.Timestamp.toByte :: PutUint64 (toUnsigned 64 x.UnixNano))
  | .duration x => .ok (Tag.Duration.toByte :: PutUint64 (toUnsigned 64 x))
  | _ => .err .invalidType

/-- The loop `for _, m := range x` of the slice cases of `Encode`: every
element goes through `enc.encode` and is appended to the buffer. -/
def Encoder.writeElems (buf : List Byte) : List GoVal → Res (List Byte)
  | [] => .ok buf
  | m :: rest =>
    match Encoder.encode m with
    | .ok mb => Encoder.writeElems (buf ++ mb) rest
    | .err e => .err e
    | .panic => .panic

/-- The rune `utf8.RuneError`. -/
def RuneError : Nat := 0xFFFD

/-- The tables `first` and `acceptRanges` of package `utf8`, for a first byte
that is not ASCII: the size of the encoding and the bounds of its second byte;
`none` is the entry `xx` of an invalid first byte. -/
def acceptRange (s0 : Nat) : Option (Nat × Nat × Nat) :=
  if s0 < 0xC2 then none
  else if s0 ≤ 0xDF then some (2, 0x80, 0xBF)
  else if s0 = 0xE0 then some (3, 0xA0, 0xBF)
  else if s0 = 0xED then some (3, 0x80, 0x9F)
  else if s0 ≤ 0xEF then some (3, 0x80, 0xBF)
  else if s0 = 0xF0 then some (4, 0x90, 0xBF)
  else if s0 ≤ 0xF3 then some (4, 0x80, 0xBF)
  else if s0 = 0xF4 then some (4, 0x80, 0x8F)
  else none

/-- The call `utf8.DecodeRuneInString(s)`: the first rune of `s` and the number
of bytes of its encoding; `(RuneError, 1)` when the encoding is not valid
UTF-8. The masks `s0&mask2`, `s0&mask3`, `s0&mask4` and `s&maskx` are the
remainders modulo 32, 16, 8 and 64. -/
def DecodeRuneInString (s : List Byte) : Nat × Nat :=
  match s with
  | [] => (RuneError, 0)
  | s0 :: rest =>
    if s0.val < 0x80 then (s0.val, 1)
    else
      match acceptRange s0.val with
      | none => (RuneError, 1)
      | some (sz, lo, hi) =>
        if rest.length + 1 < sz then (RuneError, 1)
        else
          match rest with
          | [] => (RuneError, 1)
          | s1 :: rest =>
            if s1.val < lo ∨ hi < s1.val then (RuneError, 1)
            else if sz ≤ 2 then (s0.val % 32 * 2 ^ 6 + s1.val % 64, 2)
            else
              match rest with
              | [] => (RuneError, 1)
              | s2 :: rest =>
                if s2.val < 0x80 ∨ 0xBF < s2.val then (RuneError, 1)
                else if sz ≤ 3 then
                  (s0.val % 16 * 2 ^ 12 + s1.val % 64 * 2 ^ 6 + s2.val % 64, 3)
                else
                  match rest with
                  | [] => (RuneError, 1)
                  | s3 :: _ =>
                    if s3.val < 0x80 ∨ 0xBF < s3.val then (RuneError, 1)
                    else
                      (s0.val % 8 * 2 ^ 18 + s1.val % 64 * 2 ^ 12 + s2.val % 64 * 2 ^ 6
                        + s3.val % 64, 4)

/-- The ranges `R16` of the table `unicode.Upper` (the upper-case letters,
category Lu, of Unicode 15.0.0), each as `(Lo, Hi, Stride)`. -/
def UpperR16 : List (Nat × Nat × Nat) :=
  [(0x0041, 0x005A, 1), (0x00C0, 0x00D6, 1), (0x00D8, 0x00DE, 1), (0x0100, 0x0136, 2),
  (0x0139, 0x0147, 2), (0x014A, 0x0178, 2), (0x0179, 0x017D, 2), (0x0181, 0x0182, 1),
  (0x0184, 0x0186, 2), (0x0187, 0x0189, 2), (0x018A, 0x018B, 1), (0x018E, 0x0191, 1),
  (0x0193, 0x0194, 1), (0x0196, 0x0198, 1), (0x019C, 0x019D, 1), (0x019F, 0x01A0, 1),
  (0x01A2, 0x01A6, 2), (0x01A7, 0x01A9, 2), (0x01AC, 0x01AE, 2), (0x01AF, 0x01B1, 2),
  (0x01B2, 0x01B3, 1), (0x01B5, 0x01B7, 2), (0x01B8, 0x01BC, 4), (0x01C4, 0x01CD, 3),
  (0x01CF, 0x01DB, 2), (0x01DE, 0x01EE, 2), (0x01F1, 0x01F4, 3), (0x01F6, 0x01F8, 1),
  (0x01FA, 0x0232, 2), (0x023A, 0x023B, 1), (0x023D, 0x023E, 1), (0x0241, 0x0243, 2),
  (0x0244, 0x0246, 1), (0x0248, 0x024E, 2), (0x0370, 0x0372, 2), (0x0376, 0x037F, 9),
  (0x0386, 0x0388, 2), (0x0389, 0x038A, 1), (0x038C, 0x038E, 2), (0x038F, 0x0391, 2),
  (0x0392, 0x03A1, 1), (0x03A3, 0x03AB, 1), (0x03CF, 0x03D2, 3), (0x03D3, 0x03D4, 1),
  (0x03D8, 0x03EE, 2), (0x03F4, 0x03F7, 3), (0x03F9, 0x03FA, 1), (0x03FD, 0x042F, 1),
  (0x0460, 0x0480, 2), (0x048A, 0x04C0, 2), (0x04C1, 0x04CD, 2), (0x04D0, 0x052E, 2),
  (0x0531, 0x0556, 1), (0x10A0, 0x10C5, 1), (0x10C7, 0x10CD, 6), (0x13A0, 0x13F5, 1),
  (0x1C90, 0x1CBA, 1), (0x1CBD, 0x1CBF, 1), (0x1E00, 0x1E94, 2), (0x1E9E, 0x1EFE, 2),
  (0x1F08, 0x1F0F, 1), (0x1F18, 0x1F1D, 1), (0x1F28, 0x1F2F, 1), (0x1F38, 0x1F3F, 1),
  (0x1F48, 0x1F4D, 1), (0x1F59, 0x1F5F, 2), (0x1F68, 0x1F6F, 1), (0x1FB8, 0x1FBB, 1),
  (0x1FC8, 0x1FCB, 1), (0x1FD8, 0x1FDB, 1), (0x1FE8, 0x1FEC, 1), (0x1FF8, 0x1FFB, 1),
  (0x2102, 0x2107, 5), (0x210B, 0x210D, 1), (0x2110, 0x2112, 1), (0x2115, 0x2119, 4),
  (0x211A, 0x211D, 1), (0x2124, 0x212A, 2), (0x212B, 0x212D, 1), (0x2130, 0x2133, 1),
  (0x213E, 0x213F, 1), (0x2145, 0x2183, 62), (0x2C00, 0x2C2F, 1), (0x2C60, 0x2C62, 2),
  (0x2C63, 0x2C64, 1), (0x2C67, 0x2C6D, 2), (0x2C6E, 0x2C70, 1), (0x2C72, 0x2C75, 3),
  (0x2C7E, 0x2C80, 1), (0x2C82, 0x2CE2, 2), (0x2CEB, 0x2CED, 2), (0x2CF2, 0xA640, 31054),
  (0xA642, 0xA66C, 2), (0xA680, 0xA69A, 2), (0xA722, 0xA72E, 2), (0xA732, 0xA76E, 2),
  (0xA779, 0xA77D, 2), (0xA77E, 0xA786, 2), (0xA78B, 0xA78D, 2), (0xA790, 0xA792, 2),
  (0xA796, 0xA7AA, 2), (0xA7AB, 0xA7AE, 1), (0xA7B0, 0xA7B4, 1), (0xA7B6, 0xA7C4, 2),
  (0xA7C5, 0xA7C7, 1), (0xA7C9, 0xA7D0, 7), (0xA7D6, 0xA7D8, 2), (0xA7F5, 0xFF21, 22316),
  (0xFF22, 0xFF3A, 1)]

/-- The ranges `R32` of the table `unicode.Upper`, each as `(Lo, Hi, Stride)`. -/
def UpperR32 : List (Nat × Nat × Nat) :=
  [(0x10400, 0x10427, 1), (0x104B0, 0x104D3, 1), (0x10570, 0x1057A, 1), (0x1057C, 0x1058A, 1),
  (0x1058C, 0x10592, 1), (0x10594, 0x10595, 1), (0x10C80, 0x10CB2, 1), (0x118A0, 0x118BF, 1),
  (0x16E40, 0x16E5F, 1), (0x1D400, 0x1D419, 1), (0x1D434, 0x1D44D, 1), (0x1D468, 0x1D481, 1),
  (0x1D49C, 0x1D49E, 2), (0x1D49F, 0x1D4A5, 3), (0x1D4A6, 0x1D4A9, 3), (0x1D4AA, 0x1D4AC, 1),
  (0x1D4AE, 0x1D4B5, 1), (0x1D4D0, 0x1D4E9, 1), (0x1D504, 0x1D505, 1), (0x1D507, 0x1D50A, 1),
  (0x1D50D, 0x1D514, 1), (0x1D516, 0x1D51C, 1), (0x1D538, 0x1D539, 1), (0x1D53B, 0x1D53E, 1),
  (0x1D540, 0x1D544, 1), (0x1D546, 0x1D54A, 4), (0x1D54B, 0x1D550, 1), (0x1D56C, 0x1D585, 1),
  (0x1D5A0, 0x1D5B9, 1), (0x1D5D4, 0x1D5ED, 1), (0x1D608, 0x1D621, 1), (0x1D63C, 0x1D655, 1),
  (0x1D670, 0x1D689, 1), (0x1D6A8, 0x1D6C0, 1), (0x1D6E2, 0x1D6FA, 1), (0x1D71C, 0x1D734, 1),
  (0x1D756, 0x1D76E, 1), (0x1D790, 0x1D7A8, 1), (0x1D7CA, 0x1E900, 4406), (0x1E901, 0x1E921, 1)]

/-- The test of `unicode.Is` on one range of a table. -/
def inRange (r : Nat) (p : Nat × Nat × Nat) : Bool :=
  decide (p.1 ≤ r ∧ r ≤ p.2.1 ∧ (r - p.1) % p.2.2 = 0)

/-- The call `unicode.IsUpper(r)`. For a rune of Latin-1 the test on the table
`properties` gives what the first three ranges of `R16` give. -/
def IsUpper (r : Nat) : Bool :=
  UpperR16.any (inRange r) || UpperR32.any (inRange r)

/-- Whether a field name is exported, which reflect records in the field when
the struct type is made (`IsExported` of the compiler): the first rune of the
name is an upper-case letter. -/
def exported (name : List Byte) : Bool :=
  match name with
  | c :: _ =>
    if c.val < 0x80 then decide (0x41 ≤ c.val ∧ c.val ≤ 0x5A)
    else IsUpper (DecodeRuneInString name).1
  | [] => false

/-- The loop over the fields in the `reflect.Struct` case of `Encode`.
`fv.Interface()` panics on an unexported field. -/
def Encoder.writeFields (buf : List Byte) : List (List Byte × GoVal) → Res (List Byte)
  | [] => .ok buf
  | (name, fv) :: rest =>
    let buf := buf ++ [Tag.StructField.toByte] ++ name ++ [0]
    if exported name then
      match Encoder.encode fv with
      | .ok fb => Encoder.writeFields (buf ++ [Tag.StructValue.toByte] ++ fb) rest
      | .err e => .err e
      | .panic => .panic
    else .panic

/-- The loop `for iter.Next()` in the `reflect.Map` case of `Encode`. -/
def Encoder.writeEntries (buf : List Byte) : List (GoVal × GoVal) → Res (List Byte)
  | [] => .ok buf
  | (mk, mv) :: rest =>
    let buf := buf ++ [Tag.MapKey.toByte]
    match Encoder.encode mk with
    | .ok kb =>
      let buf := buf ++ kb ++ [Tag.MapValue.toByte]
      match Encoder.encode mv with
      | .ok vb => Encoder.writeEntries (buf ++ vb) rest
      | .err e => .err e
      | .panic => .panic
    | .err e => .err e
    | .panic => .panic

/-- The method `enc.Encode`. -/
def Encoder.Encode (val : GoVal) : Res (List Byte) :=
  match val with
  | .uint8 _ | .uint16 _ | .uint32 _ | .uint64 _ | .int8 _ | .int16 _ | .int32 _
  | .int64 _ | .int _ | .uint _ | .float32 _ | .float64 _ | .bool _ | .string _
  | .time _ | .duration _ => Encoder.encode val
  | .bytes x => .ok (Tag.Bytes.toByte :: PutUint32 (x.length % 2 ^ 32) ++ x)
  | .sliceInt x =>
    Encoder.writeElems (Tag.ArrayInt.toByte :: PutUint16 (x.length % 2 ^ 16)) (x.map .int)
  | .sliceUint x =>
    Encoder.writeElems (Tag.ArrayUint.toByte :: PutUint16 (x.length % 2 ^ 16)) (x.map .uint)
  | .sliceFloat32 x =>
    Encoder.writeElems (Tag.ArrayFloat32.toByte :: PutUint16 (x.length % 2 ^ 16))
      (x.map .float32)
  | .sliceFloat64 x =>
    Encoder.writeElems (Tag.ArrayFloat.toByte :: PutUint16 (x.length % 2 ^ 16))
      (x.map .float64)
  | .sliceBool x =>
    Encoder.writeElems (Tag.ArrayBool.toByte :: PutUint16 (x.length % 2 ^ 16)) (x.map .bool)
  | .sliceString x =>
    Encoder.writeElems (Tag.ArrayString.toByte :: PutUint16 (x.length % 2 ^ 16))
      (x.map .string)
  | .sliceAny x =>
    Encoder.writeElems (Tag.Array.toByte :: PutUint16 (x.length % 2 ^ 16)) x
  | .struct fields =>
    Encoder.writeFields (Tag.Struct.toByte :: PutUint32 (fields.length % 2 ^ 32)) fields
  | .map entries =>
    Encoder.writeEntries (Tag.Map.toByte :: PutUint32 (entries.length % 2 ^ 32)) entries
  | .nilMap => .ok (Tag.Map.toByte :: PutUint32 0)
  | _ => .err .invalidType

/-- The package function `Encode`. -/
def Encode (val : GoVal) : Res (List Byte) := Encoder.Encode val

/-- The helper `concat(t, b)`. -/
def concat (t : Byte) (b : List Byte) : List Byte := t :: b

/-- The method `enc.EncodeIndex`. -/
def Encoder.EncodeIndex (_idx : Int) (val : GoVal) : Res (List Byte) :=
  match val with
  | .uint8 _ | .uint16 _ | .uint32 _ | .uint64 _ | .uint _
  | .int8 _ | .int16 _ | .int32 _ | .int64 _ | .int _
  | .string _ | .bool _ | .float32 _ | .float64 _
  | .duration _ | .time _ =>
    match Encoder.encode val with
    | .ok b => .ok (concat Tag.ElementValue.toByte b)
    | .err e => .err e
    | .panic => .panic
  | _ => .err .ErrMustScalarType

/-- The method `enc.EncodeRef`. -/
def Encoder.EncodeRef (_idx : Int) (refId : List Byte) : Res (List Byte) :=
  match Encoder.encode (.string refId) with
  | .ok b => .ok (concat Tag.ElementRef.toByte b)
  | .err e => .err e
  | .panic => .panic

/-- The package function `EncodeIndex`. -/
def EncodeIndex (idx : Int) (val : GoVal) : Res (List Byte) := Encoder.EncodeIndex idx val

/-- The package function `EncodeRef`. -/
def EncodeRef (idx : Int) (refId : List Byte) : Res (List Byte) := Encoder.EncodeRef idx refId

/-! ## The decoder (`decode.go`) -/

/-- The argument `val interface{}` of `Decode`: a pointer to a variable of type
`t` holding `cur`, a value of type `t` passed directly (not settable), or a nil
interface (also a nil pointer, which `reflect.Indirect` turns into the zero
`reflect.Value`). -/
inductive Dest
  | ptr (t : GoType) (cur : GoVal)
  | direct (t : GoType) (cur : GoVal)
  | nil

/-- What a call of `Decode` does: it returns `(n, err)` and leaves the
destination as `dst`, or it panics. -/
inductive Outcome
  | ret (n : Nat) (err : Option Err) (dst : Dest)
  | panic

/-- The call `v.SetUint(x)`: the destination must be of an unsigned integer kind, the
value is truncated to its width. `none` is the panic of `reflect`. -/
def SetUint (t : GoType) (x : Nat) : Option GoVal :=
  match t with
  | .uint8 => some (.uint8 (x % 2 ^ 8))
  | .uint16 => some (.uint16 (x % 2 ^ 16))
  | .uint32 => some (.uint32 (x % 2 ^ 32))
  | .uint64 => some (.uint64 x)
  | .uint => some (.uint x)
  | _ => none

/-- The call `v.SetInt(x)`: the destination must be of a signed integer kind
(`time.Duration` is one), the value is truncated to its width. -/
def SetInt (t : GoType) (x : Int) : Option GoVal :=
  match t with
  | .int8 => some (.int8 (wrapInt 8 x))
  | .int16 => some (.int16 (wrapInt 16 x))
  | .int32 => some (.int32 (wrapInt 32 x))
  | .int64 => some (.int64 x)
  | .int => some (.int x)
  | .duration => some (.duration x)
  | _ => none

/-- The identity of a type, as far as an assignment compares it: each scalar
and slice type is itself, all struct types, all map types and all other types
are taken together. -/
inductive TypeId
  | uint8 | uint16 | uint32 | uint64 | int8 | int16 | int32 | int64 | int | uint
  | float32 | float64 | bool | string | time | duration | bytes
  | sliceInt | sliceUint | sliceFloat32 | sliceFloat64 | sliceBool | sliceString
  | sliceAny | iface | struct | map | other
  deriving DecidableEq, Repr

/-- The identity of a type. -/
def GoType.id : GoType → TypeId
  | .uint8 => .uint8 | .uint16 => .uint16 | .uint32 => .uint32 | .uint64 => .uint64
  | .int8 => .int8 | .int16 => .int16 | .int32 => .int32 | .int64 => .int64
  | .int => .int | .uint => .uint | .float32 => .float32 | .float64 => .float64
  | .bool => .bool | .string => .string | .time => .time | .duration => .duration
  | .bytes => .bytes | .sliceInt => .sliceInt | .sliceUint => .sliceUint
  | .sliceFloat32 => .sliceFloat32 | .sliceFloat64 => .sliceFloat64
  | .sliceBool => .sliceBool | .sliceString => .sliceString | .sliceAny => .sliceAny
  | .iface => .iface | .struct _ => .struct | .map _ _ => .map | .other => .other

/-- The identity of the dynamic type of a value. -/
def GoVal.id : GoVal → TypeId
  | .uint8 _ => .uint8 | .uint16 _ => .uint16 | .uint32 _ => .uint32
  | .uint64 _ => .uint64 | .int8 _ => .int8 | .int16 _ => .int16 | .int32 _ => .int32
  | .int64 _ => .int64 | .int _ => .int | .uint _ => .uint | .float32 _ => .float32
  | .float64 _ => .float64 | .bool _ => .bool | .string _ => .string
  | .time _ => .time | .duration _ => .duration | .bytes _ => .bytes
  | .sliceInt _ => .sliceInt | .sliceUint _ => .sliceUint
  | .sliceFloat32 _ => .sliceFloat32 | .sliceFloat64 _ => .sliceFloat64
  | .sliceBool _ => .sliceBool | .sliceString _ => .sliceString
  | .sliceAny _ => .sliceAny | .struct _ => .struct | .map _ => .map
  | .nilMap => .map | .nil => .iface | .other => .other

/-- The call `v.Set(reflect.ValueOf(x))` on a settable `v` of type `t`, for a scalar or
a slice `x` (the decoder assigns nothing else): the type of `x` must be `t`, or
`t` is `interface{}`. `none` is the panic of `reflect`. -/
def SetValue (t : GoType) (x : GoVal) : Option GoVal :=
  match t with
  | .iface => some x
  | .struct _ | .map _ _ | .other => none
  | _ => if t.id = x.id then some x else none

/-- The method `dec.setVal`. The decoder calls it with a `uint64`, an `int64`,
an `int` or a `[]byte`; of the two float cases only the assignment that needs
no floating-point conversion is modelled. -/
def Decoder.setVal (t : GoType) (val : GoVal) : Option GoVal :=
  match t with
  | .iface => some val
  | _ =>
    match val with
    | .uint64 x => SetUint t x
    | .int64 x => SetInt t x
    | .int _ => SetValue t val
    | .float64 x => (match t with | .float64 => some (.float64 x) | _ => none)
    | .float32 x => (match t with | .float32 => some (.float32 x) | _ => none)
    | .bytes x => (match t with | .bytes => some (.bytes x) | _ => none)
    | _ => none

/-- The bytes `binary.Read` takes from the buffer for a value of `n` bytes
(`io.ReadFull`). -/
def binaryRead (buf : List Byte) (n : Nat) : Except Err (List Byte) :=
  if n ≤ buf.length then .ok (buf.take n)
  else if buf.length = 0 then .error .EOF
  else .error .ErrUnexpectedEOF

/-- The value stored and the count returned, or the panic of the store. -/
def stored (n : Nat) (r : Option GoVal) : Res (Nat × GoVal) :=
  match r with
  | some x => .ok (n, x)
  | none => .panic

/-- The method `dec.decodeVal(b, v)` for a settable `v` of type `t`: the count
returned and the value `v` holds afterwards. -/
def Decoder.decodeVal (b : List Byte) (t : GoType) : Res (Nat × GoVal) :=
  match b with
  | [] => .panic
  | b0 :: tl =>
    match Tag.ofByte b0 with
    | some .Uint8 =>
      if b.length < 2 then .err .ErrBufTooSmall
      else match tl with
        | b1 :: _ => stored 2 (Decoder.setVal t (.uint64 b1.val))
        | [] => .panic
    | some .Uint16 =>
      if b.length < 3 then .err .ErrBufTooSmall
      else match Uint16 tl with
        | some u => stored 3 (Decoder.setVal t (.uint64 u))
        | none => .panic
    | some .Uint32 =>
      if b.length < 5 then .err .ErrBufTooSmall
      else match Uint32 tl with
        | some u => stored 5 (Decoder.setVal t (.uint64 u))
        | none => .panic
    | some .Uint64 =>
      if b.length < 9 then .err .ErrBufTooSmall
      else match Uint64 tl with
        | some u => stored 9 (Decoder.setVal t (.uint64 u))
        | none => .panic
    | some .Int8 =>
      if b.length < 2 then .err .ErrBufTooSmall
      else match tl with
        | b1 :: _ => stored 2 (SetInt t b1.val)
        | [] => .panic
    | some .Int16 =>
      if b.length < 3 then .err .ErrBufTooSmall
      else match Uint16 tl with
        | some u => stored 3 (SetInt t u)
        | none => .panic
    | some .Int32 =>
      if b.length < 5 then .err .ErrBufTooSmall
      else match Uint32 tl with
        | some u => stored 5 (SetInt t u)
        | none => .panic
    | some .Int64 =>
      if b.length < 9 then .err .ErrBufTooSmall
      else match Uint64 tl with
        | some u => stored 9 (SetInt t (toSigned 64 u))
        | none => .panic
    | some .Int =>
      if b.length < 9 then .err .ErrBufTooSmall
      else match Uint64 tl with
        | some u => stored 9 (Decoder.setVal t (.int (toSigned 64 u)))
        | none => .panic
    | some .Uint =>
      if b.length < 9 then .err .ErrBufTooSmall
      else match Uint64 tl with
        | some u => stored 9 (Decoder.setVal t (.uint64 u))
        | none => .panic
    | some .Float32 =>
      if b.length < 5 then .err .ErrBufTooSmall
      else match binaryRead tl 4 with
        | .error e => .err e
        | .ok bs =>
          match Uint32 bs with
          | some u => stored 5 (SetValue t (.float32 u))
          | none => .panic
    | some .Float64 =>
      if b.length < 9 then .err .ErrBufTooSmall
      else match binaryRead tl 8 with
        | .error e => .err e
        | .ok bs =>
          match Uint64 bs with
          | some u => stored 9 (SetValue t (.float64 u))
          | none => .panic
    | some .Bool =>
      if b.length < 2 then .err .ErrBufTooSmall
      else match binaryRead tl 1 with
        | .error e => .err e
        | .ok bs =>
          match bs with
          | c :: _ => stored 2 (SetValue t (.bool (decide (c ≠ 0))))
          | [] => .panic
    | some .String =>
      match indexZero tl with
      | none => .err .ErrNonStringTailZero
      | some p =>
        match slice b 1 (p + 1) with
        | some s => stored (p + 2) (SetValue t (.string s))
        | none => .panic
    | some .Bytes =>
      match Uint32 tl with
      | none => .panic
      | some l =>
        match slice b 5 ((l + 5) % 2 ^ 32) with
        | some x => stored (l + 5) (Decoder.setVal t (.bytes x))
        | none => .panic
    | some .Timestamp =>
      match binaryRead tl 8 with
      | .error e => .err e
      | .ok bs =>
        match Uint64 bs with
        | some u =>
          let dt := toSigned 64 u
          stored 9 (SetValue t (.time (Time.Unix (dt.tdiv 1000000000) (dt.tmod 1000000000))))
        | none => .panic
    | some .Duration =>
      match binaryRead tl 8 with
      | .error e => .err e
      | .ok bs =>
        match Uint64 bs with
        | some u => stored 9 (Decoder.setVal t (.int64 (toSigned 64 u)))
        | none => .panic
    | _ => .err .invalidCodec

/-- The method `dec.decode`. -/
def Decoder.decode (b : List Byte) (val : Dest) : Outcome :=
  if b.length = 0 then .ret 0 (some .ErrBufTooSmall) val
  else
    match val with
    | .ptr t _ =>
      match Decoder.decodeVal b t with
      | .ok (n, x) => .ret n none (.ptr t x)
      | .err e => .ret 0 (some e) val
      | .panic => .panic
    | _ => .ret 0 (some .mustCanBeSet) val

/-- The element a `[]int` holds after `decode` wrote it. -/
def GoVal.asInt : GoVal → Int
  | .int x => x
  | _ => 0

/-- The element a `[]uint` holds after `decode` wrote it. -/
def GoVal.asUint : GoVal → Nat
  | .uint x => x
  | _ => 0

/-- The element a `[]float32` holds after `decode` wrote it. -/
def GoVal.asFloat32 : GoVal → Nat
  | .float32 x => x
  | _ => 0

/-- The element a `[]float64` holds after `decode` wrote it. -/
def GoVal.asFloat64 : GoVal → Nat
  | .float64 x => x
  | _ => 0

/-- The element a `[]string` holds after `decode` wrote it. -/
def GoVal.asString : GoVal → List Byte
  | .string x => x
  | _ => []

/-- The loop of the fixed-stride array cases of `Decode`
(`ArrayInt`, `ArrayUint`, `ArrayFloat32`, `ArrayFloat`):
`for i := 0; i < int(l); i++ { n, err := dec.decode(b[offset+i*stride:], &nv[i]); ... }`
with `offset = 3`. The arguments are the iterations left, `i`, `count` and the
elements written so far. -/
def Decoder.elemLoop (b : List Byte) (elem : GoType) (stride : Nat) :
    Nat → Nat → Nat → List GoVal → Res (Nat × List GoVal)
  | 0, _, count, nv => .ok (count, nv)
  | k + 1, i, count, nv =>
    match sliceFrom b (3 + i * stride) with
    | none => .panic
    | some sl =>
      match Decoder.decode sl (.ptr elem elem.zero) with
      | .ret n none (.ptr _ x) => Decoder.elemLoop b elem stride k (i + 1) (count + n) (nv ++ [x])
      | .ret _ (some e) _ => .err e
      | _ => .panic

/-- The loop of the `ArrayString` case of `Decode`: the offset moves past the
next zero byte after each element. The arguments are the iterations left,
`offset`, `count` and the elements written so far. -/
def Decoder.stringLoop (b : List Byte) :
    Nat → Nat → Nat → List GoVal → Res (Nat × List GoVal)
  | 0, _, count, nv => .ok (count, nv)
  | k + 1, offset, count, nv =>
    match sliceFrom b offset with
    | none => .panic
    | some sl =>
      match Decoder.decode sl (.ptr .string (.string [])) with
      | .ret n none (.ptr _ x) =>
        let step := match indexZero sl with
          | some p => p + 1
          | none => 0
        Decoder.stringLoop b k (offset + step) (count + n) (nv ++ [x])
      | .ret _ (some e) _ => .err e
      | _ => .panic

/-- The statement `v.Set(reflect.ValueOf(nv))` that ends an array case, and the
return of `count`. -/
def Decoder.setResult (val : Dest) (count : Nat) (nv : GoVal) : Outcome :=
  match val with
  | .ptr t _ =>
    match SetValue t nv with
    | some x => .ret count none (.ptr t x)
    | none => .panic
  | _ => .panic

/-- The run of an array case of `Decode`: the loop, then the assignment. -/
def Decoder.arrayResult (val : Dest) (r : Res (Nat × List GoVal))
    (mk : List GoVal → GoVal) : Outcome :=
  match r with
  | .ok (count, nv) => Decoder.setResult val count (mk nv)
  | .err e => .ret 0 (some e) val
  | .panic => .panic

/-- What the loops of the `Map` and `Struct` cases leave: the count and the
aggregate after the last iteration, or the error and the aggregate as the
failing iteration found it. -/
inductive LoopRes
  | done (count : Nat) (cur : GoVal)
  | fail (e : Err) (cur : GoVal)
  | panic

/-- IEEE-754 equality of two floats of `w` bits with `m` mantissa bits, on the
bit patterns: a NaN equals nothing, the two zeros are equal. -/
def floatEq (w m : Nat) (a b : Nat) : Bool :=
  let isNaN := fun (x : Nat) => decide ((x % 2 ^ (w - 1)) / 2 ^ m = 2 ^ (w - 1 - m) - 1
    ∧ x % 2 ^ m ≠ 0)
  if isNaN a || isNaN b then false
  else if a % 2 ^ (w - 1) = 0 ∧ b % 2 ^ (w - 1) = 0 then true
  else decide (a = b)

/-- Equality of two map keys (`==` on the keys' dynamic values). The keys the
decoder inserts are scalars; a key of another type equals none of them. -/
def keyEq (a b : GoVal) : Bool :=
  match a, b with
  | .uint8 x, .uint8 y | .uint16 x, .uint16 y | .uint32 x, .uint32 y
  | .uint64 x, .uint64 y | .uint x, .uint y => decide (x = y)
  | .int8 x, .int8 y | .int16 x, .int16 y | .int32 x, .int32 y
  | .int64 x, .int64 y | .int x, .int y | .duration x, .duration y => decide (x = y)
  | .float32 x, .float32 y => floatEq 32 23 x y
  | .float64 x, .float64 y => floatEq 64 52 x y
  | .bool x, .bool y => decide (x = y)
  | .string x, .string y => decide (x = y)
  | .time x, .time y => decide (x = y)
  | _, _ => false

/-- The entries of a map after `m[key] = val`. -/
def insertEntry : List (GoVal × GoVal) → GoVal → GoVal → List (GoVal × GoVal)
  | [], key, val => [(key, val)]
  | (k, v) :: rest, key, val =>
    if keyEq k key then (key, val) :: rest else (k, v) :: insertEntry rest key val

/-- The call `v.SetMapIndex(key, val)`: `none` is the panic on a nil map. -/
def SetMapIndex (m : GoVal) (key val : GoVal) : Option GoVal :=
  match m with
  | .map entries => some (.map (insertEntry entries key val))
  | _ => none

/-- The loop of the `Map` case of `Decode`, on a map value of type `t`. The
arguments are the iterations left, `offset`, `count` and the map. -/
def Decoder.mapLoop (b : List Byte) (t : GoType) : Nat → Nat → Nat → GoVal → LoopRes
  | 0, _, count, m => .done count m
  | k + 1, offset, count, m =>
    match b[offset]? with
    | none => .panic
    | some c =>
      if c ≠ Tag.MapKey.toByte then .fail .ErrInvalidMapKey m
      else
        let offset := offset + 1
        match t with
        | .map kt et =>
          match sliceFrom b offset with
          | none => .panic
          | some sl =>
            match Decoder.decode sl (.ptr kt kt.zero) with
            | .ret n none (.ptr _ key) =>
              let offset := offset + n
              match b[offset]? with
              | none => .panic
              | some c =>
                if c ≠ Tag.MapValue.toByte then .fail .ErrInvalidMapKey m
                else
                  let offset := offset + 1
                  match sliceFrom b offset with
                  | none => .panic
                  | some sl =>
                    match Decoder.decodeVal sl et with
                    | .ok (n, x) =>
                      match SetMapIndex m key x with
                      | some m => Decoder.mapLoop b t k (offset + n) (count + n) m
                      | none => .panic
                    | .err e => .fail e m
                    | .panic => .panic
            | .ret _ (some e) _ => .fail e m
            | _ => .panic
        | _ => .panic

/-- The call `t.FieldByName(key)`: the type of the field of that name. -/
def FieldByName : List (List Byte × GoType) → List Byte → Option GoType
  | [], _ => none
  | (name, ft) :: rest, key => if name = key then some ft else FieldByName rest key

/-- The call `v.FieldByName(key).Set(val)` on the fields of an addressable struct:
`none` is the panic on a missing or unexported field. -/
def setField : List (List Byte × GoVal) → List Byte → GoVal →
    Option (List (List Byte × GoVal))
  | [], _, _ => none
  | (name, old) :: rest, key, val =>
    if name = key then (if exported name then some ((name, val) :: rest) else none)
    else (setField rest key val).map ((name, old) :: ·)

/-- The loop of the `Struct` case of `Decode`, on a struct value of type `t`;
`settable` says that the struct was reached through a pointer. The arguments are
the iterations left, `offset`, `count` and the struct. -/
def Decoder.structLoop (b : List Byte) (t : GoType) (settable : Bool) :
    Nat → Nat → Nat → GoVal → LoopRes
  | 0, _, count, v => .done count v
  | k + 1, offset, count, v =>
    match b[offset]? with
    | none => .panic
    | some c =>
      if c ≠ Tag.StructField.toByte then .fail .ErrInvalidStructField v
      else
        let offset := offset + 1
        match sliceFrom b offset with
        | none => .panic
        | some sl =>
          match indexZero sl with
          | none => .fail .ErrInvalidStructField v
          | some 0 => .fail .ErrInvalidStructField v
          | some idx =>
            match slice b offset (offset + idx) with
            | none => .panic
            | some key =>
              let offset := offset + (idx + 1)
              match b[offset]? with
              | none => .panic
              | some c =>
                if c ≠ Tag.StructValue.toByte then .fail .ErrInvalidStructValue v
                else
                  match t with
                  | .struct fields =>
                    match FieldByName fields key with
                    | none => .fail (.missingStructField key) v
                    | some ft =>
                      let offset := offset + 1
                      match sliceFrom b offset with
                      | none => .panic
                      | some sl =>
                        match Decoder.decodeVal sl ft with
                        | .ok (n, x) =>
                          match v, settable with
                          | .struct vals, true =>
                            match setField vals key x with
                            | some vals =>
                              Decoder.structLoop b t settable k (offset + n) (count + n)
                                (.struct vals)
                            | none => .panic
                          | _, _ => .panic
                        | .err e => .fail e v
                        | .panic => .panic
                  | _ => .panic

/-- The end of the `Map` and `Struct` cases: `return count, nil`, or the
`return 0, err` of the loop. -/
def Decoder.loopResult (r : LoopRes) (mk : GoVal → Dest) : Outcome :=
  match r with
  | .done count cur => .ret count none (mk cur)
  | .fail e cur => .ret 0 (some e) (mk cur)
  | .panic => .panic

/-- The method `dec.Decode`. -/
def Decoder.Decode (b : List Byte) (val : Dest) : Outcome :=
  match b with
  | [] => .ret 0 (some .ErrBufTooSmall) val
  | b0 :: tl =>
    match Tag.ofByte b0 with
    | some .Uint8 | some .Uint16 | some .Uint32 | some .Uint64 | some .Uint
    | some .Int8 | some .Int16 | some .Int32 | some .Int64 | some .Int | some .Bool
    | some .Float32 | some .Float64 | some .Timestamp | some .Duration
    | some .String | some .Bytes => Decoder.decode b val
    | some .ArrayInt =>
      match Uint16 tl with
      | none => .panic
      | some l =>
        Decoder.arrayResult val (Decoder.elemLoop b .int 9 l 0 3 [])
          (fun nv => .sliceInt (nv.map GoVal.asInt))
    | some .ArrayUint =>
      match Uint16 tl with
      | none => .panic
      | some l =>
        Decoder.arrayResult val (Decoder.elemLoop b .uint 9 l 0 3 [])
          (fun nv => .sliceUint (nv.map GoVal.asUint))
    | some .ArrayFloat32 =>
      match Uint16 tl with
      | none => .panic
      | some l =>
        Decoder.arrayResult val (Decoder.elemLoop b .float32 5 l 0 3 [])
          (fun nv => .sliceFloat32 (nv.map GoVal.asFloat32))
    | some .ArrayFloat =>
      match Uint16 tl with
      | none => .panic
      | some l =>
        Decoder.arrayResult val (Decoder.elemLoop b .float64 9 l 0 3 [])
          (fun nv => .sliceFloat64 (nv.map GoVal.asFloat64))
    | some .ArrayString =>
      match Uint16 tl with
      | none => .panic
      | some l =>
        Decoder.arrayResult val (Decoder.stringLoop b l 3 3 [])
          (fun nv => .sliceString (nv.map GoVal.asString))
    | some .Map =>
      match Uint32 tl with
      | none => .panic
      | some l =>
        match val with
        | .ptr t cur => Decoder.loopResult (Decoder.mapLoop b t l 5 5 cur) (.ptr t)
        | .direct t cur => Decoder.loopResult (Decoder.mapLoop b t l 5 5 cur) (.direct t)
        | .nil => .panic
    | some .Struct =>
      match Uint32 tl with
      | none => .panic
      | some l =>
        match val with
        | .ptr t cur =>
          Decoder.loopResult (Decoder.structLoop b t true l 5 5 cur) (.ptr t)
        | .direct t cur =>
          Decoder.loopResult (Decoder.structLoop b t false l 5 5 cur) (.direct t)
        | .nil => .panic
    | _ => .ret 0 (some .invalidCodec) val

/-- The package function `Decode`. -/
def Decode (b : List Byte) (val : Dest) : Outcome := Decoder.Decode b val

/-- What a call of `DecodeElement` does: it returns `(ref, err)` and leaves the
destination as `dst`, or it panics. -/
inductive ElementOutcome
  | ret (ref : Bool) (err : Option Err) (dst : Dest)
  | panic

/-- The method `dec.DecodeElement`. -/
def Decoder.DecodeElement (b : List Byte) (val : Dest) : ElementOutcome :=
  match b with
  | [] => .ret false (some .ErrBufTooSmall) val
  | b0 :: tl =>
    if b0 = Tag.ElementValue.toByte then
      match Decoder.decode tl val with
      | .ret _ (some e) dst => .ret false (some e) dst
      | .ret _ none dst => .ret false none dst
      | .panic => .panic
    else if b0 = Tag.ElementRef.toByte then
      match Decoder.decode tl val with
      | .ret _ (some e) dst => .ret true (some e) dst
      | .ret _ none dst => .ret true none dst
      | .panic => .panic
    else .ret false (some .ErrInvalidElementType) val

/-- The package function `DecodeElement`. -/
def DecodeElement (b : List Byte) (val : Dest) : ElementOutcome :=
  Decoder.DecodeElement b val

/-- The package function `DecodeTo`: the value the fresh `interface{}` holds
afterwards and the error, `none` for a panic. -/
def DecodeTo (b : List Byte) : Option (GoVal × Option Err) :=
  match Decode b (.ptr .iface .nil) with
  | .ret _ err (.ptr _ x) => some (x, err)
  | .ret _ err _ => some (.nil, err)
  | .panic => none

/-- The package function `DecodeElementTo`: the value, the reference flag and
the error, `none` for a panic. -/
def DecodeElementTo (b : List Byte) : Option (GoVal × Bool × Option Err) :=
  match Decoder.DecodeElement b (.ptr .iface .nil) with
  | .ret ref err (.ptr _ x) => some (x, ref, err)
  | .ret ref err _ => some (.nil, ref, err)
  | .panic => none


/-! ## Vocabulary of the statements -/

/-- The ten integer kinds of the codec. -/
inductive IntKind
  | uint8 | uint16 | uint32 | uint64 | uint | int8 | int16 | int32 | int64 | int
  deriving DecidableEq, Repr

/-- The Go type of an integer kind. -/
def IntKind.type : IntKind → GoType
  | .uint8 => .uint8 | .uint16 => .uint16 | .uint32 => .uint32 | .uint64 => .uint64
  | .uint => .uint | .int8 => .int8 | .int16 => .int16 | .int32 => .int32
  | .int64 => .int64 | .int => .int

/-- The value of an integer kind that holds the integer `x`. -/
def IntKind.val : IntKind → Int → GoVal
  | .uint8, x => .uint8 x.toNat | .uint16, x => .uint16 x.toNat
  | .uint32, x => .uint32 x.toNat | .uint64, x => .uint64 x.toNat
  | .uint, x => .uint x.toNat | .int8, x => .int8 x | .int16, x => .int16 x
  | .int32, x => .int32 x | .int64, x => .int64 x | .int, x => .int x

/-- The width in bytes of an integer kind; `int` and `uint` are 64 bits wide. -/
def IntKind.width : IntKind → Nat
  | .uint8 | .int8 => 1
  | .uint16 | .int16 => 2
  | .uint32 | .int32 => 4
  | .uint64 | .int64 | .uint | .int => 8

/-- Whether an integer kind is signed. -/
def IntKind.signed : IntKind → Bool
  | .int8 | .int16 | .int32 | .int64 | .int => true
  | _ => false

/-- The integers an integer kind represents. -/
def IntKind.holds (k : IntKind) (x : Int) : Prop :=
  if k.signed then -(2 : Int) ^ (8 * k.width - 1) ≤ x ∧ x < (2 : Int) ^ (8 * k.width - 1)
  else 0 ≤ x ∧ x < (2 : Int) ^ (8 * k.width)

instance (k : IntKind) (x : Int) : Decidable (k.holds x) := by
  unfold IntKind.holds; infer_instance

/-- The wire tag of an integer kind. -/
def IntKind.tag : IntKind → Tag
  | .uint8 => .Uint8 | .uint16 => .Uint16 | .uint32 => .Uint32 | .uint64 => .Uint64
  | .uint => .Uint | .int8 => .Int8 | .int16 => .Int16 | .int32 => .Int32
  | .int64 => .Int64 | .int => .Int

/-- The little-endian two's-complement bytes of the integer `x` in `w` bytes:
byte `i` is `(x mod 2^(8w)) / 2^(8i) mod 256`. -/
def twosComplementLE (w : Nat) (x : Int) : List Byte :=
  (List.range w).map (fun i => byteOf ((x % (2 : Int) ^ (8 * w)).toNat / 2 ^ (8 * i)))

/-- The relation `Holds t v`: `v` is a value of the scalar type `t`, within the range of
the type; a string holds no zero byte, a time is an instant whose nanosecond
count since the Unix epoch is an `int64`. -/
inductive Holds : GoType → GoVal → Prop
  | uint8 {x : Nat} (h : x < 2 ^ 8) : Holds .uint8 (.uint8 x)
  | uint16 {x : Nat} (h : x < 2 ^ 16) : Holds .uint16 (.uint16 x)
  | uint32 {x : Nat} (h : x < 2 ^ 32) : Holds .uint32 (.uint32 x)
  | uint64 {x : Nat} (h : x < 2 ^ 64) : Holds .uint64 (.uint64 x)
  | uint {x : Nat} (h : x < 2 ^ 64) : Holds .uint (.uint x)
  | int8 {x : Int} (lo : -2 ^ 7 ≤ x) (hi : x < 2 ^ 7) : Holds .int8 (.int8 x)
  | int16 {x : Int} (lo : -2 ^ 15 ≤ x) (hi : x < 2 ^ 15) : Holds .int16 (.int16 x)
  | int32 {x : Int} (lo : -2 ^ 31 ≤ x) (hi : x < 2 ^ 31) : Holds .int32 (.int32 x)
  | int64 {x : Int} (lo : -2 ^ 63 ≤ x) (hi : x < 2 ^ 63) : Holds .int64 (.int64 x)
  | int {x : Int} (lo : -2 ^ 63 ≤ x) (hi : x < 2 ^ 63) : Holds .int (.int x)
  | float32 {bits : Nat} (h : bits < 2 ^ 32) : Holds .float32 (.float32 bits)
  | float64 {bits : Nat} (h : bits < 2 ^ 64) : Holds .float64 (.float64 bits)
  | bool (b : Bool) : Holds .bool (.bool b)
  | string {s : List Byte} (h : (0 : Byte) ∉ s) : Holds .string (.string s)
  | duration {d : Int} (lo : -2 ^ 63 ≤ d) (hi : d < 2 ^ 63) : Holds .duration (.duration d)
  | time {t : Time} (h0 : 0 ≤ t.nsec) (h1 : t.nsec < 1000000000)
      (lo : -2 ^ 63 ≤ t.sec * 1000000000 + t.nsec)
      (hi : t.sec * 1000000000 + t.nsec < 2 ^ 63) : Holds .time (.time t)

/-- The homogeneous arrays of the round-trip statement: a `[]int`, a `[]uint`
or a `[]string` with fewer than 65536 elements, each element within the range
of its type (a string holds no zero byte), together with its slice type. -/
inductive HomArray : GoType → GoVal → Prop
  | ints (a : List Int) (hlen : a.length < 65536)
      (h : ∀ x ∈ a, -2 ^ 63 ≤ x ∧ x < 2 ^ 63) : HomArray .sliceInt (.sliceInt a)
  | uints (a : List Nat) (hlen : a.length < 65536)
      (h : ∀ x ∈ a, x < 2 ^ 64) : HomArray .sliceUint (.sliceUint a)
  | strings (a : List (List Byte)) (hlen : a.length < 65536)
      (h : ∀ s ∈ a, (0 : Byte) ∉ s) : HomArray .sliceString (.sliceString a)

/-- The tag and the elements of a homogeneous array of kind `[]int`, `[]uint`,
`[]bool` or `[]string`. -/
def arrayParts : GoVal → Option (Tag × List GoVal)
  | .sliceInt a => some (.ArrayInt, a.map .int)
  | .sliceUint a => some (.ArrayUint, a.map .uint)
  | .sliceBool a => some (.ArrayBool, a.map .bool)
  | .sliceString a => some (.ArrayString, a.map .string)
  | _ => none

/-- The bytes `enc.encode(v)` returns; no bytes when it returns an error. -/
def encBytes (v : GoVal) : List Byte :=
  match Encoder.encode v with
  | .ok e => e
  | _ => []

/-- A record: its fields in declaration order, each with its name, its declared
type and its value. -/
abbrev Record := List (List Byte × GoType × GoVal)

/-- The struct type of a record. -/
def Record.type (r : Record) : GoType := .struct (r.map (fun f => (f.1, f.2.1)))

/-- The struct value of a record. -/
def Record.value (r : Record) : GoVal := .struct (r.map (fun f => (f.1, f.2.2)))

/-- A field of integer, bool or string kind with a value of that kind (a
string holds no zero byte). -/
inductive ScalarField : GoType → GoVal → Prop
  | int (k : IntKind) (x : Int) (h : k.holds x) : ScalarField k.type (k.val x)
  | bool (b : Bool) : ScalarField .bool (.bool b)
  | string (s : List Byte) (h : (0 : Byte) ∉ s) : ScalarField .string (.string s)

/-- A record shape as Go declares it, with fields of integer, bool or string
kind: fewer than `2^32` fields, field names that are distinct, not empty and
free of zero bytes, and in every field a value of the field's kind. -/
structure Record.WellFormed (r : Record) : Prop where
  count : r.length < 2 ^ 32
  names : (r.map (fun f => f.1)).Nodup
  ident : ∀ f ∈ r, f.1 ≠ [] ∧ (0 : Byte) ∉ f.1
  kinds : ∀ f ∈ r, ScalarField f.2.1 f.2.2

/-- The bytes of one field in a `Struct` payload. -/
def fieldBytes (name : List Byte) (v : GoVal) : List Byte :=
  Tag.StructField.toByte :: (name ++ 0 :: Tag.StructValue.toByte :: encBytes v)

/-- The bytes of one entry in a `Map` payload. -/
def entryBytes (k v : GoVal) : List Byte :=
  Tag.MapKey.toByte :: (encBytes k ++ Tag.MapValue.toByte :: encBytes v)

/-- The maps of the round-trip statement, as the list of entries in the order
`Encode` enumerates them: the keys are distinct strings without a zero byte,
every value is a string without a zero byte or an `int`. -/
structure StringMap (m : List (GoVal × GoVal)) : Prop where
  keys : ∀ e ∈ m, Holds .string e.1
  distinct : (m.map (fun e => e.1)).Nodup
  values : ∀ e ∈ m, Holds .string e.2 ∨ Holds .int e.2

/-- The eight letters `a`..`p` that spell the number `i` in base 16, lowest
digit first. -/
def hexKey (i : Nat) : List Byte :=
  [byteOf (0x61 + i % 16), byteOf (0x61 + i / 16 % 16), byteOf (0x61 + i / 16 ^ 2 % 16),
   byteOf (0x61 + i / 16 ^ 3 % 16), byteOf (0x61 + i / 16 ^ 4 % 16),
   byteOf (0x61 + i / 16 ^ 5 % 16), byteOf (0x61 + i / 16 ^ 6 % 16),
   byteOf (0x61 + i / 16 ^ 7 % 16)]

/-- A map of `2^32` entries: the key of entry `i` is the string `hexKey i`,
every value is `int(0)`. -/
def bigMap : List (GoVal × GoVal) :=
  (List.range (2 ^ 32)).map (fun i => (GoVal.string (hexKey i), GoVal.int 0))

/-- The types of the integer, float and bool scalars. -/
def numericType : GoType → Bool
  | .uint8 | .uint16 | .uint32 | .uint64 | .uint
  | .int8 | .int16 | .int32 | .int64 | .int
  | .float32 | .float64 | .bool => true
  | _ => false

/-- The scalar values: an integer, a float, a bool, a string, a timestamp or a
duration. -/
def GoVal.isScalar : GoVal → Bool
  | .uint8 _ | .uint16 _ | .uint32 _ | .uint64 _ | .uint _
  | .int8 _ | .int16 _ | .int32 _ | .int64 _ | .int _
  | .float32 _ | .float64 _ | .bool _ | .string _ | .time _ | .duration _ => true
  | _ => false

/-- The values whose kind the encoder names: a scalar, a byte blob, a slice of
one of the listed element types, a struct or a map. -/
def GoVal.supported : GoVal → Bool
  | .uint8 _ | .uint16 _ | .uint32 _ | .uint64 _ | .uint _
  | .int8 _ | .int16 _ | .int32 _ | .int64 _ | .int _
  | .float32 _ | .float64 _ | .bool _ | .string _ | .time _ | .duration _
  | .bytes _
  | .sliceInt _ | .sliceUint _ | .sliceFloat32 _ | .sliceFloat64 _ | .sliceBool _
  | .sliceString _ | .sliceAny _
  | .struct _ | .map _ | .nilMap => true
  | .nil | .other => false
/-- A struct value with scalar fields, as Go declares it: fewer than `2^32`
fields, field names that are not empty and free of zero bytes, and in every
field a scalar of the field's declared type. -/
structure Record.Scalars (r : Record) : Prop where
  count : r.length < 2 ^ 32
  ident : ∀ f ∈ r, f.1 ≠ [] ∧ (0 : Byte) ∉ f.1
  kinds : ∀ f ∈ r, Holds f.2.1 f.2.2

/-! ## Lemmas on bytes and machine integers -/

@[simp] theorem Tag.ofByte_toByte (t : Tag) : Tag.ofByte t.toByte = some t := by
  cases t <;> rfl

theorem byteOf_val (n : Nat) : (byteOf n).val = n % 256 := rfl

theorem Uint16_PutUint16 (x : Nat) (rest : List Byte) :
    Uint16 (PutUint16 x ++ rest) = some (x % 2 ^ 16) := by
  simp only [PutUint16, Uint16, List.cons_append, List.nil_append, byteOf_val, Option.some.injEq]
  omega

theorem Uint32_PutUint32 (x : Nat) (rest : List Byte) :
    Uint32 (PutUint32 x ++ rest) = some (x % 2 ^ 32) := by
  simp only [PutUint32, Uint32, List.cons_append, List.nil_append, byteOf_val, Option.some.injEq]
  omega

theorem Uint64_PutUint64 (x : Nat) (rest : List Byte) :
    Uint64 (PutUint64 x ++ rest) = some (x % 2 ^ 64) := by
  simp only [PutUint64, Uint64, List.cons_append, List.nil_append, byteOf_val, Option.some.injEq]
  omega

@[simp] theorem PutUint16_length (x : Nat) : (PutUint16 x).length = 2 := rfl
@[simp] theorem PutUint32_length (x : Nat) : (PutUint32 x).length = 4 := rfl
@[simp] theorem PutUint64_length (x : Nat) : (PutUint64 x).length = 8 := rfl

theorem toSigned_toUnsigned (w : Nat) (x : Int) (hw : 0 < w)
    (h1 : -(2 : Int) ^ (w - 1) ≤ x) (h2 : x < (2 : Int) ^ (w - 1)) :
    toSigned w (toUnsigned w x) = x := by
  obtain ⟨v, rfl⟩ : ∃ v, w = v + 1 := ⟨w - 1, by omega⟩
  simp only [Nat.add_sub_cancel] at h1 h2
  unfold toSigned toUnsigned
  have hp : (0 : Int) < 2 ^ v := by positivity
  have e1 : (2 : Int) ^ (v + 1) = 2 * 2 ^ v := by ring
  have e2 : (2 : Nat) ^ (v + 1) = 2 * 2 ^ v := by ring
  have hnn : 0 ≤ x % (2 : Int) ^ (v + 1) := Int.emod_nonneg _ (by positivity)
  have hlt : x % (2 : Int) ^ (v + 1) < 2 ^ (v + 1) := Int.emod_lt_of_pos _ (by positivity)
  have hcast : (((x % (2 : Int) ^ (v + 1)).toNat : Nat) : Int) = x % (2 : Int) ^ (v + 1) :=
    Int.toNat_of_nonneg hnn
  have hmod : (x % (2 : Int) ^ (v + 1)).toNat % 2 ^ (v + 1) = (x % (2 : Int) ^ (v + 1)).toNat := by
    apply Nat.mod_eq_of_lt
    zify
    rw [hcast]; exact_mod_cast hlt
  rw [hmod]
  simp only [Nat.add_sub_cancel]
  by_cases hx : 0 ≤ x
  · have : x % (2 : Int) ^ (v + 1) = x := Int.emod_eq_of_lt hx (by rw [e1]; omega)
    rw [if_pos, hcast, this]
    zify; rw [hcast, this]; exact h2
  · have : x % (2 : Int) ^ (v + 1) = x + 2 ^ (v + 1) := by
      rw [← Int.add_emod_self]
      exact Int.emod_eq_of_lt (by rw [e1]; omega) (by rw [e1]; omega)
    rw [if_neg, hcast, this]
    · push_cast; ring
    · zify; rw [hcast, this, e1]; omega

theorem toUnsigned_lt (w : Nat) (x : Int) : toUnsigned w x < 2 ^ w := by
  unfold toUnsigned
  have hlt : x % (2 : Int) ^ w < 2 ^ w := Int.emod_lt_of_pos _ (by positivity)
  have hnn : 0 ≤ x % (2 : Int) ^ w := Int.emod_nonneg _ (by positivity)
  zify
  rw [Int.toNat_of_nonneg hnn]
  exact_mod_cast hlt

theorem indexZero_append (s rest : List Byte) (h : (0 : Byte) ∉ s) :
    indexZero (s ++ 0 :: rest) = some s.length := by
  induction s with
  | nil => simp [indexZero]
  | cons c s ih =>
    have hc : c ≠ 0 := fun e => h (e ▸ List.mem_cons_self _ _)
    have hs : (0 : Byte) ∉ s := fun e => h (List.mem_cons_of_mem _ e)
    simp [indexZero, hc, ih hs]

theorem tdiv_tmod_Unix (sec nsec : Int) (h0 : 0 ≤ nsec) (h1 : nsec < 1000000000) :
    Time.Unix ((sec * 1000000000 + nsec).tdiv 1000000000)
      ((sec * 1000000000 + nsec).tmod 1000000000) = ⟨sec, nsec⟩ := by
  have key := Int.tmod_add_tdiv (sec * 1000000000 + nsec) 1000000000
  by_cases hn : 0 ≤ sec * 1000000000 + nsec
  · have hd : (sec * 1000000000 + nsec).tdiv 1000000000 = (sec * 1000000000 + nsec) / 1000000000 :=
      Int.tdiv_eq_ediv hn (by norm_num)
    have hq : (sec * 1000000000 + nsec).tdiv 1000000000 = sec := by rw [hd]; omega
    have hr : (sec * 1000000000 + nsec).tmod 1000000000 = nsec := by rw [hq] at key; omega
    rw [hq, hr]
    unfold Time.Unix
    rw [if_neg (by omega)]
  · have hneg : (-(-(sec * 1000000000 + nsec))).tdiv 1000000000
        = -((-(sec * 1000000000 + nsec)).tdiv 1000000000) := Int.neg_tdiv _ _
    rw [neg_neg] at hneg
    have hd : (-(sec * 1000000000 + nsec)).tdiv 1000000000
        = (-(sec * 1000000000 + nsec)) / 1000000000 :=
      Int.tdiv_eq_ediv (by omega) (by norm_num)
    rw [hd] at hneg
    generalize (sec * 1000000000 + nsec).tdiv 1000000000 = q at *
    generalize (sec * 1000000000 + nsec).tmod 1000000000 = r at *
    unfold Time.Unix
    by_cases hr : r = 0
    · subst hr
      rw [if_neg (by omega)]
      have : q = sec := by omega
      have : nsec = 0 := by omega
      simp [*]
    · have hrneg : r < 0 := by omega
      have hrlo : -1000000000 < r := by omega
      have htd : r.tdiv 1000000000 = 0 := by
        have h2 : (-(-r)).tdiv 1000000000 = -((-r).tdiv 1000000000) := Int.neg_tdiv _ _
        rw [neg_neg] at h2
        rw [h2, Int.tdiv_eq_ediv (by omega) (by norm_num)]
        omega
      rw [if_pos (Or.inl hrneg)]
      simp only [htd]
      rw [if_pos (by omega)]
      have : q - 1 = sec := by omega
      have : r + 1000000000 = nsec := by omega
      simp; omega

/-! ## One scalar through `decodeVal` -/

theorem slice_string (c : Byte) (s rest : List Byte) :
    slice (c :: (s ++ 0 :: rest)) 1 (s.length + 1) = some s := by
  unfold slice
  rw [if_pos (by simp +arith)]
  simp

theorem toSigned_mod (w n : Nat) : toSigned w (n % 2 ^ w) = toSigned w n := by
  unfold toSigned
  simp only [Nat.mod_mod]

theorem wrapInt_natCast (w n : Nat) : wrapInt w (n : Int) = toSigned w n := by
  unfold wrapInt toUnsigned
  have : ((n : Int) % (2 : Int) ^ w).toNat = n % 2 ^ w := by
    have : ((n : Int) % (2 : Int) ^ w) = ((n % 2 ^ w : Nat) : Int) := by push_cast; rfl
    rw [this, Int.toNat_natCast]
  rw [this, toSigned_mod]

theorem decodeVal_Uint8 (c : Byte) (rest : List Byte) (t : GoType) :
    Decoder.decodeVal (Tag.Uint8.toByte :: c :: rest) t
      = stored 2 (Decoder.setVal t (.uint64 c.val)) := by
  simp +arith [Decoder.decodeVal]

theorem decodeVal_Uint16 (x : Nat) (rest : List Byte) (t : GoType) :
    Decoder.decodeVal (Tag.Uint16.toByte :: (PutUint16 x ++ rest)) t
      = stored 3 (Decoder.setVal t (.uint64 (x % 2 ^ 16))) := by
  simp +arith [Decoder.decodeVal, Uint16_PutUint16]

theorem decodeVal_Uint32 (x : Nat) (rest : List Byte) (t : GoType) :
    Decoder.decodeVal (Tag.Uint32.toByte :: (PutUint32 x ++ rest)) t
      = stored 5 (Decoder.setVal t (.uint64 (x % 2 ^ 32))) := by
  simp +arith [Decoder.decodeVal, Uint32_PutUint32]

theorem decodeVal_Uint64 (x : Nat) (rest : List Byte) (t : GoType) :
    Decoder.decodeVal (Tag.Uint64.toByte :: (PutUint64 x ++ rest)) t
      = stored 9 (Decoder.setVal t (.uint64 (x % 2 ^ 64))) := by
  simp +arith [Decoder.decodeVal, Uint64_PutUint64]

theorem decodeVal_Uint (x : Nat) (rest : List Byte) (t : GoType) :
    Decoder.decodeVal (Tag.Uint.toByte :: (PutUint64 x ++ rest)) t
      = stored 9 (Decoder.setVal t (.uint64 (x % 2 ^ 64))) := by
  simp +arith [Decoder.decodeVal, Uint64_PutUint64]

theorem decodeVal_Int8 (c : Byte) (rest : List Byte) (t : GoType) :
    Decoder.decodeVal (Tag.Int8.toByte :: c :: rest) t
      = stored 2 (SetInt t ((c.val : Nat) : Int)) := by
  simp +arith [Decoder.decodeVal]

theorem decodeVal_Int16 (x : Nat) (rest : List Byte) (t : GoType) :
    Decoder.decodeVal (Tag.Int16.toByte :: (PutUint16 x ++ rest)) t
      = stored 3 (SetInt t ((x % 2 ^ 16 : Nat) : Int)) := by
  simp +arith [Decoder.decodeVal, Uint16_PutUint16]

theorem decodeVal_Int32 (x : Nat) (rest : List Byte) (t : GoType) :
    Decoder.decodeVal (Tag.Int32.toByte :: (PutUint32 x ++ rest)) t
      = stored 5 (SetInt t ((x % 2 ^ 32 : Nat) : Int)) := by
  simp +arith [Decoder.decodeVal, Uint32_PutUint32]

theorem decodeVal_Int64 (x : Nat) (rest : List Byte) (t : GoType) :
    Decoder.decodeVal (Tag.Int64.toByte :: (PutUint64 x ++ rest)) t
      = stored 9 (SetInt t (toSigned 64 x)) := by
  have e : toSigned 64 (x % 18446744073709551616) = toSigned 64 x := toSigned_mod 64 x
  simp +arith [Decoder.decodeVal, Uint64_PutUint64, e]

theorem decodeVal_Int (x : Nat) (rest : List Byte) (t : GoType) :
    Decoder.decodeVal (Tag.Int.toByte :: (PutUint64 x ++ rest)) t
      = stored 9 (Decoder.setVal t (.int (toSigned 64 x))) := by
  have e : toSigned 64 (x % 18446744073709551616) = toSigned 64 x := toSigned_mod 64 x
  simp +arith [Decoder.decodeVal, Uint64_PutUint64, e]

theorem take_PutUint32 (x : Nat) (rest : List Byte) :
    (PutUint32 x ++ rest).take 4 = PutUint32 x := by
  simp [PutUint32]

theorem take_PutUint64 (x : Nat) (rest : List Byte) :
    (PutUint64 x ++ rest).take 8 = PutUint64 x := by
  simp [PutUint64]

theorem decodeVal_Float32 (x : Nat) (rest : List Byte) (t : GoType) :
    Decoder.decodeVal (Tag.Float32.toByte :: (PutUint32 x ++ rest)) t
      = stored 5 (SetValue t (.float32 (x % 2 ^ 32))) := by
  have h := Uint32_PutUint32 x []
  rw [List.append_nil] at h
  simp +arith [Decoder.decodeVal, binaryRead, take_PutUint32, h]

theorem decodeVal_Float64 (x : Nat) (rest : List Byte) (t : GoType) :
    Decoder.decodeVal (Tag.Float64.toByte :: (PutUint64 x ++ rest)) t
      = stored 9 (SetValue t (.float64 (x % 2 ^ 64))) := by
  have h := Uint64_PutUint64 x []
  rw [List.append_nil] at h
  simp +arith [Decoder.decodeVal, binaryRead, take_PutUint64, h]

theorem decodeVal_Bool (x : Bool) (rest : List Byte) (t : GoType) :
    Decoder.decodeVal (Tag.Bool.toByte :: (if x then (1 : Byte) else 0) :: rest) t
      = stored 2 (SetValue t (.bool x)) := by
  cases x <;> simp +arith [Decoder.decodeVal, binaryRead]

theorem decodeVal_String (s rest : List Byte) (t : GoType) (h : (0 : Byte) ∉ s) :
    Decoder.decodeVal (Tag.String.toByte :: (s ++ 0 :: rest)) t
      = stored (s.length + 2) (SetValue t (.string s)) := by
  simp [Decoder.decodeVal, indexZero_append s rest h, slice_string]

theorem decodeVal_Timestamp (x : Nat) (rest : List Byte) (t : GoType) :
    Decoder.decodeVal (Tag.Timestamp.toByte :: (PutUint64 x ++ rest)) t
      = stored 9 (SetValue t (.time (Time.Unix ((toSigned 64 x).tdiv 1000000000)
          ((toSigned 64 x).tmod 1000000000)))) := by
  have h := Uint64_PutUint64 x []
  rw [List.append_nil] at h
  have e : toSigned 64 (x % 18446744073709551616) = toSigned 64 x := toSigned_mod 64 x
  simp +arith [Decoder.decodeVal, binaryRead, take_PutUint64, h, e]

theorem decodeVal_Duration (x : Nat) (rest : List Byte) (t : GoType) :
    Decoder.decodeVal (Tag.Duration.toByte :: (PutUint64 x ++ rest)) t
      = stored 9 (Decoder.setVal t (.int64 (toSigned 64 x))) := by
  have h := Uint64_PutUint64 x []
  rw [List.append_nil] at h
  have e : toSigned 64 (x % 18446744073709551616) = toSigned 64 x := toSigned_mod 64 x
  simp +arith [Decoder.decodeVal, binaryRead, take_PutUint64, h, e]


theorem decodeVal_encode {t : GoType} {v : GoVal} (h : Holds t v) (rest : List Byte) :
    ∃ enc, Encoder.encode v = .ok enc ∧
      Decoder.decodeVal (enc ++ rest) t = .ok (enc.length, v) := by
  cases h with
  | uint8 h =>
    refine ⟨_, rfl, ?_⟩
    simp only [List.cons_append, List.nil_append, decodeVal_Uint8, byteOf_val]
    simp [Decoder.setVal, SetUint, stored]; omega
  | uint16 h =>
    refine ⟨_, rfl, ?_⟩
    simp only [List.cons_append, decodeVal_Uint16]
    simp [Decoder.setVal, SetUint, stored]; omega
  | uint32 h =>
    refine ⟨_, rfl, ?_⟩
    simp only [List.cons_append, decodeVal_Uint32]
    simp [Decoder.setVal, SetUint, stored]; omega
  | uint64 h =>
    refine ⟨_, rfl, ?_⟩
    simp only [List.cons_append, decodeVal_Uint64]
    simp [Decoder.setVal, SetUint, stored]; omega
  | uint h =>
    refine ⟨_, rfl, ?_⟩
    simp only [List.cons_append, decodeVal_Uint]
    simp [Decoder.setVal, SetUint, stored]; omega
  | @int8 x lo hi =>
    refine ⟨_, rfl, ?_⟩
    have e := toSigned_toUnsigned 8 x (by norm_num) (by simpa using lo) (by simpa using hi)
    simp only [List.cons_append, List.nil_append, decodeVal_Int8, byteOf_val, SetInt,
      wrapInt_natCast, stored]
    rw [show (256 : Nat) = 2 ^ 8 from rfl, toSigned_mod, e]; rfl
  | @int16 x lo hi =>
    refine ⟨_, rfl, ?_⟩
    have e := toSigned_toUnsigned 16 x (by norm_num) (by simpa using lo) (by simpa using hi)
    simp only [List.cons_append, decodeVal_Int16, SetInt, wrapInt_natCast, stored,
      toSigned_mod, e]
    rfl
  | @int32 x lo hi =>
    refine ⟨_, rfl, ?_⟩
    have e := toSigned_toUnsigned 32 x (by norm_num) (by simpa using lo) (by simpa using hi)
    simp only [List.cons_append, decodeVal_Int32, SetInt, wrapInt_natCast, stored,
      toSigned_mod, e]
    rfl
  | @int64 x lo hi =>
    refine ⟨_, rfl, ?_⟩
    have e := toSigned_toUnsigned 64 x (by norm_num) (by simpa using lo) (by simpa using hi)
    simp only [List.cons_append, decodeVal_Int64, SetInt, stored, e]
    rfl
  | @int x lo hi =>
    refine ⟨_, rfl, ?_⟩
    have e := toSigned_toUnsigned 64 x (by norm_num) (by simpa using lo) (by simpa using hi)
    simp only [List.cons_append, decodeVal_Int, Decoder.setVal, SetValue, GoType.id, GoVal.id, stored, e]
    rfl
  | float32 h =>
    refine ⟨_, rfl, ?_⟩
    simp only [List.cons_append, decodeVal_Float32]
    simp [SetValue, GoType.id, GoVal.id, stored]; omega
  | float64 h =>
    refine ⟨_, rfl, ?_⟩
    simp only [List.cons_append, decodeVal_Float64]
    simp [SetValue, GoType.id, GoVal.id, stored]; omega
  | bool b =>
    refine ⟨_, rfl, ?_⟩
    simp only [List.cons_append, List.nil_append, decodeVal_Bool]
    simp [SetValue, GoType.id, GoVal.id, stored]
  | string h =>
    refine ⟨_, rfl, ?_⟩
    simp only [List.cons_append, List.append_assoc, List.nil_append, decodeVal_String _ _ _ h]
    simp [SetValue, GoType.id, GoVal.id, stored]
  | @duration d lo hi =>
    refine ⟨_, rfl, ?_⟩
    have e := toSigned_toUnsigned 64 d (by norm_num) (by simpa using lo) (by simpa using hi)
    simp only [List.cons_append, decodeVal_Duration, Decoder.setVal, SetInt, stored, e]
    rfl
  | @time tm h0 h1 lo hi =>
    refine ⟨_, rfl, ?_⟩
    have e := toSigned_toUnsigned 64 (tm.sec * 1000000000 + tm.nsec) (by norm_num)
      (by simpa using lo) (by simpa using hi)
    simp only [List.cons_append, decodeVal_Timestamp, Time.UnixNano, wrapInt,
      toSigned_mod, e, tdiv_tmod_Unix _ _ h0 h1, SetValue, GoType.id, GoVal.id, stored]
    rfl

theorem decode_encode {t : GoType} {v : GoVal} (h : Holds t v) (rest : List Byte)
    (cur : GoVal) :
    ∃ enc, Encoder.encode v = .ok enc ∧
      Decoder.decode (enc ++ rest) (.ptr t cur) = .ret enc.length none (.ptr t v) := by
  obtain ⟨enc, he, hd⟩ := decodeVal_encode h rest
  refine ⟨enc, he, ?_⟩
  have hne : (enc ++ rest).length ≠ 0 := by
    intro h0
    rw [List.length_eq_zero] at h0
    rw [h0] at hd
    simp [Decoder.decodeVal] at hd
  unfold Decoder.decode
  rw [if_neg hne]
  simp only [hd]

/-- The scalar tags: the first case of the `switch` in `Decode`. -/
theorem Decode_scalar (tg : Tag) (tl : List Byte) (val : Dest)
    (h : tg ∈ [Tag.Uint8, .Uint16, .Uint32, .Uint64, .Uint, .Int8, .Int16, .Int32, .Int64,
      .Int, .Bool, .Float32, .Float64, .Timestamp, .Duration, .String, .Bytes]) :
    Decoder.Decode (tg.toByte :: tl) val = Decoder.decode (tg.toByte :: tl) val := by
  simp only [List.mem_cons, List.mem_singleton, List.not_mem_nil, or_false] at h
  rcases h with h | h | h | h | h | h | h | h | h | h | h | h | h | h | h | h | h <;>
    subst h <;> simp [Decoder.Decode]

theorem encode_head {t : GoType} {v : GoVal} (h : Holds t v) :
    ∃ tg tl, Encoder.encode v = .ok (Tag.toByte tg :: tl) ∧
      tg ∈ [Tag.Uint8, .Uint16, .Uint32, .Uint64, .Uint, .Int8, .Int16, .Int32, .Int64,
        .Int, .Bool, .Float32, .Float64, .Timestamp, .Duration, .String, .Bytes] := by
  cases h <;> exact ⟨_, _, rfl, by simp⟩

theorem Encode_eq_encode {t : GoType} {v : GoVal} (h : Holds t v) :
    Encoder.Encode v = Encoder.encode v := by
  cases h <;> rfl

theorem Res.ok_inj {α : Type} {a b : α} (h : Res.ok a = Res.ok b) : a = b := by
  injection h

theorem Decode_encode {t : GoType} {v : GoVal} (h : Holds t v) (rest : List Byte)
    (cur : GoVal) :
    ∃ enc, Encode v = .ok enc ∧
      Decode (enc ++ rest) (.ptr t cur) = .ret enc.length none (.ptr t v) := by
  obtain ⟨enc, he, hd⟩ := decode_encode h rest cur
  obtain ⟨tg, tl, he', htg⟩ := encode_head h
  refine ⟨enc, by rw [Encode, Encode_eq_encode h, he], ?_⟩
  have : enc = tg.toByte :: tl := Res.ok_inj (he.symm.trans he')
  subst this
  rw [Decode, List.cons_append, Decode_scalar tg _ _ htg, ← List.cons_append]
  exact hd


/-! ## Scalar round trips -/

theorem IntKind.holds_val (k : IntKind) (x : Int) (hx : k.holds x) : Holds k.type (k.val x) := by
  cases k <;> simp [IntKind.holds, IntKind.signed, IntKind.width] at hx <;>
    simp only [IntKind.type, IntKind.val]
  · exact Holds.uint8 (by omega)
  · exact Holds.uint16 (by omega)
  · exact Holds.uint32 (by omega)
  · exact Holds.uint64 (by omega)
  · exact Holds.uint (by omega)
  · exact Holds.int8 (by omega) (by omega)
  · exact Holds.int16 (by omega) (by omega)
  · exact Holds.int32 (by omega) (by omega)
  · exact Holds.int64 (by omega) (by omega)
  · exact Holds.int (by omega) (by omega)

theorem IntKind.encode_length (k : IntKind) (x : Int) (enc : List Byte)
    (h : Encoder.encode (k.val x) = .ok enc) : enc.length = k.width + 1 := by
  cases k <;> simp [IntKind.val, Encoder.encode] at h <;> subst h <;> rfl

/-- C1. Integer round trip: for each of the ten integer kinds `k`, every integer
`x` the kind represents (negative ones included) and every byte sequence
`rest`, `Encode` succeeds on the value, and `Decode` of the encoding followed
by `rest` into a destination of kind `k` succeeds, leaves the destination
holding `x`, and returns the length of the encoding, which is the width of the
kind plus one: 2, 3, 5 or 9, and 9 for `int` and `uint`. -/
theorem int_round_trip (k : IntKind) (x : Int) (hx : k.holds x) (rest : List Byte)
    (cur : GoVal) :
    ∃ enc, Encode (k.val x) = .ok enc ∧
      Decode (enc ++ rest) (.ptr k.type cur) = .ret enc.length none (.ptr k.type (k.val x)) ∧
      enc.length = k.width + 1 ∧
      (enc.length = 2 ∨ enc.length = 3 ∨ enc.length = 5 ∨ enc.length = 9) ∧
      (k = .int ∨ k = .uint → enc.length = 9) := by
  obtain ⟨enc, he, hd⟩ := Decode_encode (k.holds_val x hx) rest cur
  have hl : enc.length = k.width + 1 := by
    apply IntKind.encode_length k x
    rw [← Encode_eq_encode (k.holds_val x hx)]
    exact he
  refine ⟨enc, he, hd, hl, ?_, ?_⟩
  · rw [hl]; cases k <;> simp [IntKind.width]
  · rintro (h | h) <;> subst h <;> rw [hl] <;> rfl

/-- The round trip of `int8(-1)`, before three more bytes. -/
theorem int_round_trip_witness :
    ∃ enc, Encode (.int8 (-1)) = .ok enc ∧
      Decode (enc ++ [1, 2, 3]) (.ptr .int8 (.int8 0)) = .ret enc.length none (.ptr .int8 (.int8 (-1))) ∧
      enc.length = 2 ∧
      (enc.length = 2 ∨ enc.length = 3 ∨ enc.length = 5 ∨ enc.length = 9) ∧
      (IntKind.int8 = .int ∨ IntKind.int8 = .uint → enc.length = 9) :=
  int_round_trip .int8 (-1) (by decide) [1, 2, 3] (.int8 0)

/-- C2. String round trip: for every string `s` without a zero byte (the empty
string included) and every byte sequence `rest`, `Encode` succeeds on `s`, and
`Decode` of the encoding followed by `rest` into a string destination
succeeds, leaves the destination equal to `s` and returns `len(s) + 2`. -/
theorem string_round_trip (s : List Byte) (hs : (0 : Byte) ∉ s) (rest : List Byte)
    (cur : GoVal) :
    ∃ enc, Encode (.string s) = .ok enc ∧
      Decode (enc ++ rest) (.ptr .string cur)
        = .ret (s.length + 2) none (.ptr .string (.string s)) := by
  obtain ⟨enc, he, hd⟩ := Decode_encode (Holds.string hs) rest cur
  refine ⟨enc, he, ?_⟩
  have : enc.length = s.length + 2 := by
    simp [Encode, Encoder.Encode, Encoder.encode] at he
    subst he
    simp
  rw [hd, this]

/-- The string "hi" takes four bytes. -/
theorem string_round_trip_witness :
    ∃ enc, Encode (.string [0x68, 0x69]) = .ok enc ∧
      Decode (enc ++ [0xFF, 0x01]) (.ptr .string (.string []))
        = .ret 4 none (.ptr .string (.string [0x68, 0x69])) :=
  string_round_trip [0x68, 0x69] (by decide) [0xFF, 0x01] (.string [])


/-! ## Timestamps -/

theorem Time.Unix_zero (n : Int) :
    0 ≤ (Time.Unix 0 n).nsec ∧ (Time.Unix 0 n).nsec < 1000000000 ∧
      (Time.Unix 0 n).sec * 1000000000 + (Time.Unix 0 n).nsec = n := by
  have key := Int.tmod_add_tdiv n 1000000000
  unfold Time.Unix
  by_cases hn : 0 ≤ n
  · have hd : n.tdiv 1000000000 = n / 1000000000 := Int.tdiv_eq_ediv hn (by norm_num)
    by_cases h1 : n < 1000000000
    · rw [if_neg (by omega)]
      simp only
      omega
    · rw [if_pos (by omega)]
      simp only [hd]
      rw [if_neg (by omega)]
      simp only
      omega
  · have hneg : (-(-n)).tdiv 1000000000 = -((-n).tdiv 1000000000) := Int.neg_tdiv _ _
    rw [neg_neg] at hneg
    have hd : (-n).tdiv 1000000000 = (-n) / 1000000000 :=
      Int.tdiv_eq_ediv (by omega) (by norm_num)
    rw [hd] at hneg
    rw [if_pos (by omega)]
    simp only [hneg]
    split <;> simp only <;> omega

/-- C10. Timestamp round trip: for every signed 64-bit nanosecond count `n`
(negative counts included), `Encode` of the instant `n` nanoseconds from the
Unix epoch yields nine bytes, and `Decode` of them (followed by any `rest`)
into a time destination succeeds, returns 9 and leaves that instant, which is
`time.Unix(n / 1e9, n % 1e9)` with Go's truncated division; the seconds and
the remainder the decoder computes satisfy `seconds * 1e9 + remainder = n`. -/
theorem timestamp_round_trip (n : Int) (lo : -2 ^ 63 ≤ n) (hi : n < 2 ^ 63)
    (rest : List Byte) (cur : GoVal) :
    ∃ enc, Encode (.time (Time.Unix 0 n)) = .ok enc ∧ enc.length = 9 ∧
      Decode (enc ++ rest) (.ptr .time cur)
        = .ret 9 none (.ptr .time (.time (Time.Unix 0 n))) ∧
      Time.Unix (n.tdiv 1000000000) (n.tmod 1000000000) = Time.Unix 0 n ∧
      n.tdiv 1000000000 * 1000000000 + n.tmod 1000000000 = n := by
  obtain ⟨h0, h1, hn⟩ := Time.Unix_zero n
  have hh : Holds .time (.time (Time.Unix 0 n)) :=
    Holds.time h0 h1 (by rw [hn]; exact lo) (by rw [hn]; exact hi)
  obtain ⟨enc, he, hd⟩ := Decode_encode hh rest cur
  have hl : enc.length = 9 := by
    simp [Encode, Encoder.Encode, Encoder.encode] at he
    subst he
    simp
  refine ⟨enc, he, hl, by rw [hd, hl], ?_, ?_⟩
  · have := tdiv_tmod_Unix (Time.Unix 0 n).sec (Time.Unix 0 n).nsec h0 h1
    rw [hn] at this
    exact this
  · have := Int.tmod_add_tdiv n 1000000000
    omega

/-- The instant one and a half seconds before the epoch. -/
theorem timestamp_round_trip_witness :
    ∃ enc, Encode (.time (Time.Unix 0 (-1500000000))) = .ok enc ∧ enc.length = 9 ∧
      Decode (enc ++ []) (.ptr .time (.time ⟨0, 0⟩))
        = .ret 9 none (.ptr .time (.time (Time.Unix 0 (-1500000000)))) ∧
      Time.Unix ((-1500000000 : Int).tdiv 1000000000) ((-1500000000 : Int).tmod 1000000000)
        = Time.Unix 0 (-1500000000) ∧
      (-1500000000 : Int).tdiv 1000000000 * 1000000000 + (-1500000000 : Int).tmod 1000000000
        = -1500000000 :=
  timestamp_round_trip (-1500000000) (by decide) (by decide) [] (.time ⟨0, 0⟩)

/-! ## Wire layout of the scalars -/

theorem twosComplementLE_one (x : Int) :
    twosComplementLE 1 x = [byteOf (toUnsigned 8 x)] := by
  simp [twosComplementLE, toUnsigned, List.range_succ]

theorem twosComplementLE_two (x : Int) :
    twosComplementLE 2 x = PutUint16 (toUnsigned 16 x) := by
  simp [twosComplementLE, toUnsigned, PutUint16, List.range_succ]

theorem twosComplementLE_four (x : Int) :
    twosComplementLE 4 x = PutUint32 (toUnsigned 32 x) := by
  simp [twosComplementLE, toUnsigned, PutUint32, List.range_succ]

theorem twosComplementLE_eight (x : Int) :
    twosComplementLE 8 x = PutUint64 (toUnsigned 64 x) := by
  simp [twosComplementLE, toUnsigned, PutUint64, List.range_succ]

theorem toUnsigned_of_nonneg (w : Nat) (x : Int) (h0 : 0 ≤ x) (h1 : x < 2 ^ w) :
    toUnsigned w x = x.toNat := by
  unfold toUnsigned
  rw [Int.emod_eq_of_lt h0 h1]

/-- C8. Scalar wire layout: for every integer kind `k` and every integer `x` it
represents, `Encode` yields exactly the tag byte of `k` followed by the
little-endian two's-complement bytes of `x` in the width of `k` (1, 2, 4 or 8
bytes, 8 for `int` and `uint`); the tag bytes are `Uint8 = 0xFF`, `Uint16 =
0xFE`, `Uint32 = 0xFD`, `Uint64 = 0xFC`, `Int8 = 0xFB`, `Int16 = 0xFA`, `Int32
= 0xF9`, `Int64 = 0xF8`, `Int = 0xF7`, `Uint = 0xF6`; a bool encodes as `[0xF2,
1]` or `[0xF2, 0]`; and `Encode(uint8(1)) = [0xFF, 0x01]`. -/
theorem scalar_wire_layout (k : IntKind) (x : Int) (hx : k.holds x) :
    Encode (k.val x) = .ok (k.tag.toByte :: twosComplementLE k.width x) ∧
      (twosComplementLE k.width x).length = k.width ∧
      k.tag.toByte = (match k with
        | .uint8 => 0xFF | .uint16 => 0xFE | .uint32 => 0xFD | .uint64 => 0xFC
        | .int8 => 0xFB | .int16 => 0xFA | .int32 => 0xF9 | .int64 => 0xF8
        | .int => 0xF7 | .uint => 0xF6) ∧
      (∀ b : Bool, Encode (.bool b) = .ok [0xF2, if b then 1 else 0]) ∧
      Encode (.uint8 1) = .ok [0xFF, 0x01] := by
  refine ⟨?_, by simp [twosComplementLE], by cases k <;> rfl, fun b => by cases b <;> rfl, rfl⟩
  cases k <;> simp [IntKind.holds, IntKind.signed, IntKind.width] at hx <;>
    simp only [IntKind.val, IntKind.tag, IntKind.width, Encode, Encoder.Encode, Encoder.encode,
      twosComplementLE_one, twosComplementLE_two, twosComplementLE_four,
      twosComplementLE_eight]
  · rw [toUnsigned_of_nonneg 8 x hx.1 (by omega)]
  · rw [toUnsigned_of_nonneg 16 x hx.1 (by omega)]
  · rw [toUnsigned_of_nonneg 32 x hx.1 (by omega)]
  · rw [toUnsigned_of_nonneg 64 x hx.1 (by omega)]
  · rw [toUnsigned_of_nonneg 64 x hx.1 (by omega)]

/-- The layout of `int16(-2)`: the tag `0xFA`, then `0xFE 0xFF`. -/
theorem scalar_wire_layout_witness :
    Encode (.int16 (-2)) = .ok (0xFA :: twosComplementLE 2 (-2)) ∧
      (twosComplementLE 2 (-2)).length = 2 ∧
      Tag.Int16.toByte = 0xFA ∧
      (∀ b : Bool, Encode (.bool b) = .ok [0xF2, if b then 1 else 0]) ∧
      Encode (.uint8 1) = .ok [0xFF, 0x01] :=
  scalar_wire_layout .int16 (-2) (by decide)


/-! ## Arrays -/

theorem writeElems_ok (vs : List GoVal) (encs : List (List Byte))
    (H : List.Forall₂ (fun v e => Encoder.encode v = .ok e) vs encs) (buf : List Byte) :
    Encoder.writeElems buf vs = .ok (buf ++ encs.flatten) := by
  induction H generalizing buf with
  | nil => simp [Encoder.writeElems]
  | cons h _ ih =>
    simp only [Encoder.writeElems, h, ih, List.flatten_cons, List.append_assoc]

theorem sliceFrom_append (pre tl : List Byte) :
    sliceFrom (pre ++ tl) pre.length = some tl := by
  simp [sliceFrom]

theorem sliceFrom_append_of_eq (pre tl : List Byte) (n : Nat) (h : pre.length = n) :
    sliceFrom (pre ++ tl) n = some tl := by
  subst h; exact sliceFrom_append pre tl

/-- The fixed-stride loop reads back a run of encoded elements. -/
theorem elemLoop_ok (elem : GoType) (stride : Nat) (vs : List GoVal)
    (encs : List (List Byte))
    (H : List.Forall₂
      (fun v e => Encoder.encode v = .ok e ∧ Holds elem v ∧ e.length = stride) vs encs)
    (pre rest : List Byte) (i count : Nat) (nv : List GoVal)
    (hpre : pre.length = 3 + i * stride) :
    Decoder.elemLoop (pre ++ (encs.flatten ++ rest)) elem stride vs.length i count nv
      = .ok (count + stride * vs.length, nv ++ vs) := by
  induction H generalizing pre i count nv with
  | nil => simp [Decoder.elemLoop]
  | @cons v e vs encs h _ ih =>
    obtain ⟨he, hh, hl⟩ := h
    obtain ⟨e', he', hd⟩ := decode_encode hh (encs.flatten ++ rest) elem.zero
    have : e' = e := Res.ok_inj (he'.symm.trans he)
    subst this
    simp only [List.length_cons, Decoder.elemLoop, List.flatten_cons, List.append_assoc]
    rw [sliceFrom_append_of_eq pre _ _ hpre]
    simp only [hd]
    have hpre' : (pre ++ e').length = 3 + (i + 1) * stride := by
      rw [List.length_append, hpre, hl]; ring
    have := ih (pre ++ e') (i + 1) (count + e'.length) (nv ++ [v]) hpre'
    rw [List.append_assoc] at this
    rw [this, hl]
    simp only [List.append_assoc, List.singleton_append]
    congr 2
    ring

theorem indexZero_tagged (s rest : List Byte) (h : (0 : Byte) ∉ s) :
    indexZero (Tag.String.toByte :: (s ++ 0 :: rest)) = some (s.length + 1) := by
  have : Tag.String.toByte ≠ 0 := by decide
  simp [indexZero, this, indexZero_append s rest h]

/-- The loop of the `ArrayString` case reads back a run of encoded strings. -/
theorem stringLoop_ok (a : List (List Byte)) (h : ∀ s ∈ a, (0 : Byte) ∉ s)
    (pre rest : List Byte) (count : Nat) (nv : List GoVal) :
    Decoder.stringLoop
        (pre ++ ((a.map (fun s => Tag.String.toByte :: (s ++ [0]))).flatten ++ rest))
        a.length pre.length count nv
      = .ok (count + ((a.map (fun s => Tag.String.toByte :: (s ++ [0]))).flatten).length,
          nv ++ a.map .string) := by
  induction a generalizing pre count nv with
  | nil => simp [Decoder.stringLoop]
  | cons s a ih =>
    have hs : (0 : Byte) ∉ s := h s (List.mem_cons_self _ _)
    have ha : ∀ s ∈ a, (0 : Byte) ∉ s := fun s m => h s (List.mem_cons_of_mem _ m)
    obtain ⟨e, he, hd⟩ := decode_encode (Holds.string hs)
      ((a.map (fun s => Tag.String.toByte :: (s ++ [0]))).flatten ++ rest) (.string [])
    simp only [Encoder.encode, Res.ok.injEq] at he
    subst he
    simp only [List.length_cons, List.map_cons, List.flatten_cons, Decoder.stringLoop,
      List.append_assoc]
    rw [sliceFrom_append]
    simp only [List.cons_append, List.append_assoc, List.nil_append, List.length_cons,
      List.length_append, List.length_nil] at hd
    simp only [List.cons_append, List.append_assoc, List.nil_append, hd,
      indexZero_tagged s _ hs]
    have := ih ha (pre ++ Tag.String.toByte :: (s ++ [0])) (count + (s.length + (0 + 1) + 1))
      (nv ++ [.string s])
    simp only [List.append_assoc, List.cons_append, List.nil_append, List.length_append,
      List.length_cons, List.length_nil] at this
    rw [show pre.length + (s.length + 1 + 1) = pre.length + (s.length + (0 + 1) + 1) by ring]
    rw [this]
    simp only [List.length_append, List.length_cons, List.length_nil, List.append_assoc,
      List.singleton_append]
    congr 2
    ring


theorem forall₂_map_map {α : Type} (P : GoVal → List Byte → Prop) (f : α → GoVal)
    (g : α → List Byte) (a : List α) (h : ∀ x ∈ a, P (f x) (g x)) :
    List.Forall₂ P (a.map f) (a.map g) := by
  induction a with
  | nil => exact List.Forall₂.nil
  | cons x a ih =>
    exact List.Forall₂.cons (h x (List.mem_cons_self _ _))
      (ih (fun y m => h y (List.mem_cons_of_mem _ m)))

theorem flatten_length_of_stride (P : GoVal → List Byte → Prop) (stride : Nat)
    (vs : List GoVal) (encs : List (List Byte)) (H : List.Forall₂ P vs encs)
    (hP : ∀ v e, P v e → e.length = stride) :
    encs.flatten.length = stride * vs.length := by
  induction H with
  | nil => simp
  | cons h _ ih =>
    simp only [List.flatten_cons, List.length_append, List.length_cons, ih, hP _ _ h]
    ring

theorem map_asInt (a : List Int) : (a.map GoVal.int).map GoVal.asInt = a := by
  induction a with
  | nil => rfl
  | cons x a ih => simp_all [GoVal.asInt]

theorem map_asUint (a : List Nat) : (a.map GoVal.uint).map GoVal.asUint = a := by
  induction a with
  | nil => rfl
  | cons x a ih => simp_all [GoVal.asUint]

theorem map_asString (a : List (List Byte)) :
    (a.map GoVal.string).map GoVal.asString = a := by
  induction a with
  | nil => rfl
  | cons x a ih => simp_all [GoVal.asString]

/-- A fixed-stride array case of `Decode` on what the encoder writes. -/
theorem Decode_fixed_array (elem : GoType) (stride : Nat) (vs : List GoVal)
    (encs : List (List Byte))
    (H : List.Forall₂
      (fun v e => Encoder.encode v = .ok e ∧ Holds elem v ∧ e.length = stride) vs encs)
    (hlen : vs.length < 65536) (tg : Tag) (rest : List Byte) :
    Uint16 (PutUint16 (vs.length % 2 ^ 16) ++ (encs.flatten ++ rest)) = some vs.length ∧
    Decoder.elemLoop (tg.toByte :: (PutUint16 (vs.length % 2 ^ 16) ++ (encs.flatten ++ rest)))
        elem stride vs.length 0 3 []
      = .ok ((tg.toByte :: PutUint16 (vs.length % 2 ^ 16) ++ encs.flatten).length, vs) := by
  constructor
  · rw [Uint16_PutUint16]
    congr 1
    omega
  · have := elemLoop_ok elem stride vs encs H (tg.toByte :: PutUint16 (vs.length % 2 ^ 16))
      rest 0 3 [] (by simp)
    simp only [List.cons_append, List.nil_append] at this
    rw [this]
    have hl := flatten_length_of_stride _ stride vs encs H (fun _ _ h => h.2.2)
    simp only [List.length_cons, List.length_append, PutUint16_length, hl, List.nil_append,
      Res.ok.injEq, Prod.mk.injEq, and_true]

/-- C4. Homogeneous-array round trip: for every `[]int`, every `[]uint` and
every `[]string` (strings without a zero byte) `a` with fewer than 65536
elements, and every byte sequence `rest`, `Encode` succeeds on `a`, and `Decode`
of the encoding followed by `rest` into a destination of the same slice type
succeeds, leaves the destination equal to `a` and returns the length of the
encoding. -/
theorem array_round_trip (t : GoType) (v : GoVal) (h : HomArray t v) (rest : List Byte)
    (cur : GoVal) :
    ∃ enc, Encode v = .ok enc ∧
      Decode (enc ++ rest) (.ptr t cur) = .ret enc.length none (.ptr t v) := by
  cases h with
  | ints a hlen h =>
    have H : List.Forall₂
        (fun v e => Encoder.encode v = .ok e ∧ Holds .int v ∧ e.length = 9)
        (a.map .int) (a.map (fun x => Tag.Int.toByte :: PutUint64 (toUnsigned 64 x))) :=
      forall₂_map_map _ _ _ a (fun x m => ⟨rfl, Holds.int (h x m).1 (h x m).2, rfl⟩)
    have hw := writeElems_ok _ _ (H.imp (fun _ _ h => h.1))
      (Tag.ArrayInt.toByte :: PutUint16 (a.length % 2 ^ 16))
    refine ⟨_, hw, ?_⟩
    obtain ⟨h1, h2⟩ := Decode_fixed_array .int 9 _ _ H (by simpa using hlen) .ArrayInt rest
    simp only [List.length_map] at h1 h2
    simp only [Decode, Decoder.Decode, List.cons_append, List.append_assoc,
      Tag.ofByte_toByte, h1, h2, Decoder.arrayResult, Decoder.setResult, SetValue,
      GoType.id, GoVal.id, map_asInt, if_true]
  | uints a hlen h =>
    have H : List.Forall₂
        (fun v e => Encoder.encode v = .ok e ∧ Holds .uint v ∧ e.length = 9)
        (a.map .uint) (a.map (fun x => Tag.Uint.toByte :: PutUint64 x)) :=
      forall₂_map_map _ _ _ a (fun x m => ⟨rfl, Holds.uint (h x m), rfl⟩)
    have hw := writeElems_ok _ _ (H.imp (fun _ _ h => h.1))
      (Tag.ArrayUint.toByte :: PutUint16 (a.length % 2 ^ 16))
    refine ⟨_, hw, ?_⟩
    obtain ⟨h1, h2⟩ := Decode_fixed_array .uint 9 _ _ H (by simpa using hlen) .ArrayUint rest
    simp only [List.length_map] at h1 h2
    simp only [Decode, Decoder.Decode, List.cons_append, List.append_assoc,
      Tag.ofByte_toByte, h1, h2, Decoder.arrayResult, Decoder.setResult, SetValue,
      GoType.id, GoVal.id, map_asUint, if_true]
  | strings a hlen h =>
    have H : List.Forall₂ (fun v e => Encoder.encode v = .ok e)
        (a.map .string) (a.map (fun s => Tag.String.toByte :: (s ++ [0]))) :=
      forall₂_map_map _ _ _ a (fun x _ => rfl)
    have hw := writeElems_ok _ _ H (Tag.ArrayString.toByte :: PutUint16 (a.length % 2 ^ 16))
    refine ⟨_, hw, ?_⟩
    have h1 : Uint16 (PutUint16 (a.length % 2 ^ 16)
        ++ ((a.map (fun s => Tag.String.toByte :: (s ++ [0]))).flatten ++ rest))
        = some a.length := by
      rw [Uint16_PutUint16]; congr 1; omega
    have h2 := stringLoop_ok a h (Tag.ArrayString.toByte :: PutUint16 (a.length % 2 ^ 16))
      rest 3 []
    simp only [List.cons_append, List.length_cons, PutUint16_length, List.nil_append] at h2
    simp only [Decode, Decoder.Decode, List.cons_append, List.append_assoc,
      Tag.ofByte_toByte, h1, h2, Decoder.arrayResult, Decoder.setResult, SetValue,
      GoType.id, GoVal.id, map_asString, if_true, List.length_cons, List.length_append,
      PutUint16_length]
    congr 1
    omega

/-- The round trip of `[]string{"a", ""}` before one more byte. -/
theorem array_round_trip_witness :
    ∃ enc, Encode (.sliceString [[0x61], []]) = .ok enc ∧
      Decode (enc ++ [7]) (.ptr .sliceString (.sliceString []))
        = .ret enc.length none (.ptr .sliceString (.sliceString [[0x61], []])) :=
  array_round_trip .sliceString (.sliceString [[0x61], []])
    (HomArray.strings _ (by decide) (by decide)) [7] (.sliceString [])


theorem PutUint16_small (n : Nat) (h : n < 65536) :
    PutUint16 (n % 2 ^ 16) = [byteOf n, byteOf (n / 256)] := by
  rw [Nat.mod_eq_of_lt (by simpa using h)]
  rfl

theorem Encode_scalar_elem {α : Type} (f : α → GoVal) (g : α → List Byte) (a : List α)
    (h : ∀ x, Encoder.encode (f x) = .ok (g x) ∧ Encode (f x) = .ok (g x)) :
    List.Forall₂ (fun v e => Encoder.encode v = .ok e ∧ Encode v = .ok e)
      (a.map f) (a.map g) :=
  forall₂_map_map _ f g a (fun x _ => h x)

/-- C9. Array wire layout: for every array `v` of kind `[]int`, `[]uint`,
`[]bool` or `[]string` with fewer than 65536 elements, `Encode(v)` is the tag
of the array kind, then the element count as two little-endian bytes, then
the concatenation, in order, of `Encode` of every element (each with its own
scalar tag). Hence the encoding of a `[]int` has `3 + 9 * len` bytes, and
`Encode([]int{1, 2})` has 21 bytes. -/
theorem array_wire_layout (v : GoVal) (tg : Tag) (es : List GoVal)
    (hv : arrayParts v = some (tg, es)) (hlen : es.length < 65536) :
    ∃ encs : List (List Byte),
      List.Forall₂ (fun e enc => Encode e = .ok enc) es encs ∧
      Encode v = .ok (tg.toByte :: byteOf es.length :: byteOf (es.length / 256)
        :: encs.flatten) ∧
      (tg = .ArrayInt → (tg.toByte :: byteOf es.length :: byteOf (es.length / 256)
        :: encs.flatten).length = 3 + 9 * es.length) ∧
      ∃ enc, Encode (.sliceInt [1, 2]) = .ok enc ∧ enc.length = 21 := by
  have key : ∀ {α : Type} (f : α → GoVal) (g : α → List Byte) (a : List α),
      (∀ x, Encoder.encode (f x) = .ok (g x) ∧ Encode (f x) = .ok (g x)) →
      (a.map f).length < 65536 →
      ∃ encs : List (List Byte),
        List.Forall₂ (fun e enc => Encode e = .ok enc) (a.map f) encs ∧
        Encoder.writeElems (tg.toByte :: PutUint16 (a.length % 2 ^ 16)) (a.map f)
          = .ok (tg.toByte :: byteOf (a.map f).length :: byteOf ((a.map f).length / 256)
              :: encs.flatten) ∧
        ((∀ x, (g x).length = 9) → encs.flatten.length = 9 * (a.map f).length) := by
    intro α f g a h hl
    have H := Encode_scalar_elem f g a h
    refine ⟨a.map g, H.imp (fun _ _ h => h.2), ?_, ?_⟩
    · rw [writeElems_ok _ _ (H.imp (fun _ _ h => h.1))]
      rw [List.length_map] at hl ⊢
      rw [PutUint16_small _ hl]
      rfl
    · intro hg
      exact flatten_length_of_stride (fun v e => e.length = 9) 9 _ _
        (forall₂_map_map _ f g a (fun x _ => hg x)) (fun _ _ h => h)
  have last : ∃ enc, Encode (.sliceInt [1, 2]) = .ok enc ∧ enc.length = 21 := ⟨_, rfl, rfl⟩
  cases v <;> simp only [arrayParts, Option.some.injEq, Prod.mk.injEq, reduceCtorEq] at hv
  case sliceInt a =>
    obtain ⟨rfl, rfl⟩ := hv
    obtain ⟨encs, h1, h2, h3⟩ := key GoVal.int
      (fun x => Tag.Int.toByte :: PutUint64 (toUnsigned 64 x)) a (fun _ => ⟨rfl, rfl⟩) hlen
    refine ⟨encs, h1, h2, fun _ => ?_, last⟩
    simp only [List.length_cons, h3 (fun _ => rfl)]
    omega
  case sliceUint a =>
    obtain ⟨rfl, rfl⟩ := hv
    obtain ⟨encs, h1, h2, _⟩ := key GoVal.uint
      (fun x => Tag.Uint.toByte :: PutUint64 x) a (fun _ => ⟨rfl, rfl⟩) hlen
    exact ⟨encs, h1, h2, fun h => (by cases h), last⟩
  case sliceBool a =>
    obtain ⟨rfl, rfl⟩ := hv
    obtain ⟨encs, h1, h2, _⟩ := key GoVal.bool
      (fun x => [Tag.Bool.toByte, if x then 1 else 0]) a (fun _ => ⟨rfl, rfl⟩) hlen
    exact ⟨encs, h1, h2, fun h => (by cases h), last⟩
  case sliceString a =>
    obtain ⟨rfl, rfl⟩ := hv
    obtain ⟨encs, h1, h2, _⟩ := key GoVal.string
      (fun x => Tag.String.toByte :: (x ++ [0])) a (fun _ => ⟨rfl, rfl⟩) hlen
    exact ⟨encs, h1, h2, fun h => (by cases h), last⟩

/-- The layout of `[]bool{true, false}`. -/
theorem array_wire_layout_witness :
    ∃ encs : List (List Byte),
      List.Forall₂ (fun e enc => Encode e = .ok enc) [.bool true, .bool false] encs ∧
      Encode (.sliceBool [true, false]) = .ok (Tag.ArrayBool.toByte :: byteOf 2
        :: byteOf (2 / 256) :: encs.flatten) ∧
      (Tag.ArrayBool = .ArrayInt → (Tag.ArrayBool.toByte :: byteOf 2 :: byteOf (2 / 256)
        :: encs.flatten).length = 3 + 9 * 2) ∧
      ∃ enc, Encode (.sliceInt [1, 2]) = .ok enc ∧ enc.length = 21 :=
  array_wire_layout (.sliceBool [true, false]) .ArrayBool [.bool true, .bool false] rfl
    (by decide)


/-! ## Byte blobs -/

theorem slice_blob (hdr x rest : List Byte) (n : Nat) (hn : hdr.length = n) :
    slice (hdr ++ (x ++ rest)) n (n + x.length) = some x := by
  subst hn
  unfold slice
  rw [if_pos (by simp +arith)]
  rw [← List.append_assoc, ← List.length_append, List.take_left, List.drop_left]

theorem decodeVal_Bytes (x rest : List Byte) (t : GoType) (h : x.length + 5 < 2 ^ 32) :
    Decoder.decodeVal (Tag.Bytes.toByte :: (PutUint32 (x.length % 2 ^ 32) ++ (x ++ rest))) t
      = stored (x.length + 5) (Decoder.setVal t (.bytes x)) := by
  have e1 : x.length % 2 ^ 32 % 2 ^ 32 = x.length := by omega
  have e2 : (x.length + 5) % 2 ^ 32 = 5 + x.length := by omega
  have hs := slice_blob (Tag.Bytes.toByte :: PutUint32 (x.length % 2 ^ 32)) x rest 5 rfl
  simp only [List.cons_append] at hs
  simp only [Decoder.decodeVal, Tag.ofByte_toByte, Uint32_PutUint32, e1, e2, hs]

/-- The byte-blob round trip below the point where `l+5` overflows `uint32`:
for `len(x) + 5 < 2^32`, `Decode(Encode(x) ++ rest)` stores `x` and returns
`len(x) + 5`. -/
theorem bytes_round_trip_below (x rest : List Byte) (h : x.length + 5 < 2 ^ 32)
    (cur : GoVal) :
    ∃ enc, Encode (.bytes x) = .ok enc ∧
      Decode (enc ++ rest) (.ptr .bytes cur)
        = .ret (x.length + 5) none (.ptr .bytes (.bytes x)) := by
  refine ⟨_, rfl, ?_⟩
  have hd := decodeVal_Bytes x rest .bytes h
  simp only [Decode, Decoder.Decode, List.cons_append, List.append_assoc, Tag.ofByte_toByte,
    Decoder.decode, List.length_cons, hd, Decoder.setVal, stored]
  simp

/-- In the window `2^32 - 5 ≤ len(x) < 2^32` the bound `l+5`, computed in
`uint32`, wraps below 5 and the slice expression `b[5:l+5]` panics. -/
theorem decodeVal_Bytes_wrap (x rest : List Byte) (t : GoType)
    (h1 : 2 ^ 32 ≤ x.length + 5) (h2 : x.length < 2 ^ 32) :
    Decoder.decodeVal (Tag.Bytes.toByte :: (PutUint32 (x.length % 2 ^ 32) ++ (x ++ rest))) t
      = .panic := by
  have e1 : x.length % 2 ^ 32 % 2 ^ 32 = x.length := by omega
  have e2 : (x.length + 5) % 2 ^ 32 < 5 := by omega
  have hs : slice (Tag.Bytes.toByte :: (PutUint32 (x.length % 2 ^ 32) ++ (x ++ rest))) 5
      ((x.length + 5) % 2 ^ 32) = none := by
    unfold slice
    rw [if_neg (by omega)]
  simp only [Decoder.decodeVal, Tag.ofByte_toByte, Uint32_PutUint32, e1, hs]

theorem Decode_Bytes_wrap (x : List Byte) (cur : GoVal)
    (h1 : 2 ^ 32 ≤ x.length + 5) (h2 : x.length < 2 ^ 32) :
    Decode (Tag.Bytes.toByte :: (PutUint32 (x.length % 2 ^ 32) ++ x)) (.ptr .bytes cur)
      = .panic := by
  have hd := decodeVal_Bytes_wrap x [] .bytes h1 h2
  rw [List.append_nil] at hd
  simp only [Decode, Decoder.Decode, List.cons_append, Tag.ofByte_toByte,
    Decoder.decode, List.length_cons, hd]
  simp

/-- C3, at the failing input. A byte blob of `2^32 - 5` zero bytes is shorter
than `2^32`; `Encode` writes its length `0xFFFFFFFB`, and `Decode` of the
encoding into a byte-blob destination panics instead of returning the blob. -/
theorem bytes_round_trip_panics :
    (List.replicate 4294967291 (0 : Byte)).length < 2 ^ 32 ∧
    ∃ enc, Encode (.bytes (List.replicate 4294967291 0)) = .ok enc ∧
      Decode enc (.ptr .bytes (.bytes [])) = .panic := by
  have hl : (List.replicate 4294967291 (0 : Byte)).length = 4294967291 :=
    List.length_replicate _ _
  exact ⟨by rw [hl]; norm_num, _, rfl,
    Decode_Bytes_wrap _ _ (by rw [hl]; norm_num) (by rw [hl]; norm_num)⟩


/-! ## Structs -/

theorem encBytes_spec {t : GoType} {v : GoVal} (h : Holds t v) :
    Encoder.encode v = .ok (encBytes v) := by
  obtain ⟨e, he, _⟩ := decodeVal_encode h []
  simp only [encBytes, he]

theorem decodeVal_encBytes {t : GoType} {v : GoVal} (h : Holds t v) (rest : List Byte) :
    Decoder.decodeVal (encBytes v ++ rest) t = .ok ((encBytes v).length, v) := by
  obtain ⟨e, he, hd⟩ := decodeVal_encode h rest
  have : encBytes v = e := by simp only [encBytes, he]
  rw [this]; exact hd

theorem ScalarField.holds {t : GoType} {v : GoVal} (h : ScalarField t v) : Holds t v := by
  cases h with
  | int k x h => exact k.holds_val x h
  | bool b => exact Holds.bool b
  | string s h => exact Holds.string h

theorem writeFields_ok (fs : List (List Byte × GoVal))
    (h : ∀ f ∈ fs, exported f.1 = true ∧ Encoder.encode f.2 = .ok (encBytes f.2))
    (buf : List Byte) :
    Encoder.writeFields buf fs
      = .ok (buf ++ (fs.map (fun f => fieldBytes f.1 f.2)).flatten) := by
  induction fs generalizing buf with
  | nil => simp [Encoder.writeFields]
  | cons f fs ih =>
    obtain ⟨name, v⟩ := f
    obtain ⟨h1, h2⟩ := h (name, v) (List.mem_cons_self _ _)
    simp only at h1 h2
    simp only [Encoder.writeFields, h1, h2, if_true,
      ih (fun g m => h g (List.mem_cons_of_mem _ m)), List.map_cons, List.flatten_cons,
      fieldBytes, List.append_assoc, List.cons_append, List.nil_append]

theorem getElem?_at (pre : List Byte) (c : Byte) (tl : List Byte) (n : Nat)
    (h : pre.length = n) : (pre ++ c :: tl)[n]? = some c := by
  subst h
  rw [List.getElem?_append_right (Nat.le_refl _), Nat.sub_self]
  simp

theorem setField_at (done : List (List Byte × GoVal)) (name : List Byte) (old v : GoVal)
    (more : List (List Byte × GoVal)) (hex : exported name = true)
    (hn : ∀ g ∈ done, g.1 ≠ name) :
    setField (done ++ (name, old) :: more) name v = some (done ++ (name, v) :: more) := by
  induction done with
  | nil => simp [setField, hex]
  | cons g done ih =>
    obtain ⟨gn, gv⟩ := g
    have hg : gn ≠ name := hn (gn, gv) (List.mem_cons_self _ _)
    rw [List.cons_append]
    simp only [setField, hg, if_false,
      ih (fun g m => hn g (List.mem_cons_of_mem _ m)), Option.map_some', List.cons_append]

theorem FieldByName_at (pre : List (List Byte × GoType)) (name : List Byte) (ft : GoType)
    (post : List (List Byte × GoType)) (hn : ∀ g ∈ pre, g.1 ≠ name) :
    FieldByName (pre ++ (name, ft) :: post) name = some ft := by
  induction pre with
  | nil => simp [FieldByName]
  | cons g pre ih =>
    obtain ⟨gn, gt⟩ := g
    have hg : gn ≠ name := hn (gn, gt) (List.mem_cons_self _ _)
    rw [List.cons_append]
    simp only [FieldByName, hg, if_false,
      ih (fun g m => hn g (List.mem_cons_of_mem _ m))]

/-- One iteration of the loop of the `Struct` case on the bytes of one field. -/
theorem structLoop_step (pre tl : List Byte) (fields : List (List Byte × GoType))
    (name : List Byte) (ft : GoType) (v : GoVal) (vals vals' : List (List Byte × GoVal))
    (k count : Nat) (hne : name ≠ []) (hz : (0 : Byte) ∉ name)
    (hft : FieldByName fields name = some ft) (hv : Holds ft v)
    (hset : setField vals name v = some vals') :
    Decoder.structLoop (pre ++ (fieldBytes name v ++ tl)) (.struct fields) true (k + 1)
        pre.length count (.struct vals)
      = Decoder.structLoop (pre ++ (fieldBytes name v ++ tl)) (.struct fields) true k
        ((pre ++ fieldBytes name v).length) (count + (encBytes v).length)
        (.struct vals') := by
  obtain ⟨c, name', rfl⟩ : ∃ c name', name = c :: name' := by
    cases name with
    | nil => exact absurd rfl hne
    | cons c n => exact ⟨c, n, rfl⟩
  have a1 : (pre ++ (fieldBytes (c :: name') v ++ tl))[pre.length]?
      = some Tag.StructField.toByte := by
    simp only [fieldBytes, List.cons_append]
    exact getElem?_at _ _ _ _ rfl
  have a2 : sliceFrom (pre ++ (fieldBytes (c :: name') v ++ tl)) (pre.length + 1)
      = some ((c :: name') ++ 0 :: (Tag.StructValue.toByte :: (encBytes v ++ tl))) := by
    have := sliceFrom_append_of_eq (pre ++ [Tag.StructField.toByte])
      ((c :: name') ++ 0 :: (Tag.StructValue.toByte :: (encBytes v ++ tl)))
      (pre.length + 1) (by simp)
    simpa [fieldBytes] using this
  have a3 : indexZero ((c :: name') ++ 0 :: (Tag.StructValue.toByte :: (encBytes v ++ tl)))
      = some (name'.length + 1) := by
    rw [indexZero_append _ _ hz]; rfl
  have a4 : slice (pre ++ (fieldBytes (c :: name') v ++ tl)) (pre.length + 1)
      (pre.length + 1 + (name'.length + 1)) = some (c :: name') := by
    have := slice_blob (pre ++ [Tag.StructField.toByte]) (c :: name')
      (0 :: (Tag.StructValue.toByte :: (encBytes v ++ tl))) (pre.length + 1) (by simp)
    simpa [fieldBytes] using this
  have a5 : (pre ++ (fieldBytes (c :: name') v ++ tl))[pre.length + 1
      + (name'.length + 1 + 1)]? = some Tag.StructValue.toByte := by
    have := getElem?_at (pre ++ Tag.StructField.toByte :: ((c :: name') ++ [0]))
      Tag.StructValue.toByte (encBytes v ++ tl) (pre.length + 1 + (name'.length + 1 + 1))
      (by simp +arith)
    simpa [fieldBytes] using this
  have a6 : sliceFrom (pre ++ (fieldBytes (c :: name') v ++ tl))
      (pre.length + 1 + (name'.length + 1 + 1) + 1) = some (encBytes v ++ tl) := by
    have := sliceFrom_append_of_eq
      (pre ++ Tag.StructField.toByte :: ((c :: name') ++ [0, Tag.StructValue.toByte]))
      (encBytes v ++ tl) (pre.length + 1 + (name'.length + 1 + 1) + 1) (by simp +arith)
    simpa [fieldBytes] using this
  have a7 := decodeVal_encBytes hv tl
  have a8 : (pre ++ fieldBytes (c :: name') v).length
      = pre.length + 1 + (name'.length + 1 + 1) + 1 + (encBytes v).length := by
    simp +arith [fieldBytes]
  rw [Decoder.structLoop]
  simp only [a1, ne_eq, not_true_eq_false, if_false, a2, a3, a4, a5, hft, a6, a7, hset, a8]


/-- The loop of the `Struct` case reads back the fields the encoder wrote, in
order, into a struct whose remaining fields are still zero; the count grows by
the length of each encoded value only. -/
theorem structLoop_ok (fields : List (List Byte × GoType)) (fs : Record)
    (hfs : ∀ f ∈ fs, f.1 ≠ [] ∧ (0 : Byte) ∉ f.1 ∧ exported f.1 = true ∧ Holds f.2.1 f.2.2
      ∧ FieldByName fields f.1 = some f.2.1)
    (hnd : (fs.map (fun f => f.1)).Nodup)
    (pre rest : List Byte) (count : Nat) (done : List (List Byte × GoVal))
    (hdis : ∀ g ∈ done, ∀ f ∈ fs, g.1 ≠ f.1) :
    Decoder.structLoop (pre ++ ((fs.map (fun f => fieldBytes f.1 f.2.2)).flatten ++ rest))
        (.struct fields) true fs.length pre.length count
        (.struct (done ++ fs.map (fun f => (f.1, f.2.1.zero))))
      = .done (count + (fs.map (fun f => (encBytes f.2.2).length)).sum)
          (.struct (done ++ fs.map (fun f => (f.1, f.2.2)))) := by
  induction fs generalizing pre count done with
  | nil => simp [Decoder.structLoop]
  | cons f fs ih =>
    obtain ⟨name, ft, v⟩ := f
    obtain ⟨hne, hz, hex, hv, hft⟩ := hfs (name, ft, v) (List.mem_cons_self _ _)
    simp only at hne hz hex hv hft
    have hfs' : ∀ f ∈ fs, f.1 ≠ [] ∧ (0 : Byte) ∉ f.1 ∧ exported f.1 = true
        ∧ Holds f.2.1 f.2.2 ∧ FieldByName fields f.1 = some f.2.1 :=
      fun f m => hfs f (List.mem_cons_of_mem _ m)
    rw [List.map_cons, List.nodup_cons] at hnd
    have hset := setField_at done name ft.zero v (fs.map (fun f => (f.1, f.2.1.zero))) hex
      (fun g m => hdis g m (name, ft, v) (List.mem_cons_self _ _))
    have hdis' : ∀ g ∈ done ++ [(name, v)], ∀ f ∈ fs, g.1 ≠ f.1 := by
      intro g m f mf
      rw [List.mem_append, List.mem_singleton] at m
      rcases m with m | rfl
      · exact hdis g m f (List.mem_cons_of_mem _ mf)
      · intro e
        exact hnd.1 (List.mem_map.mpr ⟨f, mf, e.symm⟩)
    have step := structLoop_step pre
      ((fs.map (fun f => fieldBytes f.1 f.2.2)).flatten ++ rest) fields name ft v _ _
      fs.length count hne hz hft hv hset
    have rec := ih hfs' hnd.2 (pre ++ fieldBytes name v) (count + (encBytes v).length)
      (done ++ [(name, v)]) hdis'
    simp only [List.map_cons, List.flatten_cons, List.length_cons, List.append_assoc,
      List.sum_cons, List.singleton_append] at step rec ⊢
    rw [step, rec, Nat.add_assoc]

theorem zeroFields_map (r : Record) :
    GoType.zero.zeroFields (r.map (fun f => (f.1, f.2.1)))
      = r.map (fun f => (f.1, f.2.1.zero)) := by
  induction r with
  | nil => rfl
  | cons f r ih => simp only [List.map_cons, GoType.zero.zeroFields, ih]

theorem FieldByName_of_mem (r : Record) (hnd : (r.map (fun f => f.1)).Nodup)
    (f : List Byte × GoType × GoVal) (hf : f ∈ r) :
    FieldByName (r.map (fun f => (f.1, f.2.1))) f.1 = some f.2.1 := by
  induction r with
  | nil => cases hf
  | cons g r ih =>
    rw [List.map_cons, List.nodup_cons] at hnd
    rw [List.map_cons, FieldByName]
    rcases List.mem_cons.mp hf with rfl | hf'
    · simp
    · have : g.1 ≠ f.1 := fun e => hnd.1 (e ▸ List.mem_map.mpr ⟨f, hf', rfl⟩)
      simp only [this, if_false]
      exact ih hnd.2 hf'

theorem Uint32_count (n : Nat) (h : n < 2 ^ 32) (rest : List Byte) :
    Uint32 (PutUint32 (n % 2 ^ 32) ++ rest) = some n := by
  rw [Uint32_PutUint32]
  congr 1
  omega

/-- The run of `Decode` on an encoded record with exported scalar fields: the destination
receives the record, and the count returned is 5 plus the lengths of the
encoded values. -/
theorem Decode_struct (r : Record) (hwf : r.WellFormed)
    (hexp : ∀ f ∈ r, exported f.1 = true) :
    Encode r.value
        = .ok (Tag.Struct.toByte :: (PutUint32 (r.length % 2 ^ 32)
            ++ (r.map (fun f => fieldBytes f.1 f.2.2)).flatten)) ∧
      Decode (Tag.Struct.toByte :: (PutUint32 (r.length % 2 ^ 32)
            ++ (r.map (fun f => fieldBytes f.1 f.2.2)).flatten)) (.ptr r.type r.type.zero)
        = .ret (5 + (r.map (fun f => (encBytes f.2.2).length)).sum) none
            (.ptr r.type r.value) := by
  constructor
  · have := writeFields_ok (r.map (fun f => (f.1, f.2.2)))
      (by
        intro f hf
        obtain ⟨g, hg, rfl⟩ := List.mem_map.mp hf
        exact ⟨hexp g hg, encBytes_spec (hwf.kinds g hg).holds⟩)
      (Tag.Struct.toByte :: PutUint32 (r.length % 2 ^ 32))
    simp only [List.map_map, Function.comp_def, List.length_map, List.cons_append] at this
    simp only [Encode, Encoder.Encode, Record.value, List.length_map, this]
  · have hl := structLoop_ok (r.map (fun f => (f.1, f.2.1))) r
      (fun f hf => ⟨(hwf.ident f hf).1, (hwf.ident f hf).2, hexp f hf,
        (hwf.kinds f hf).holds, FieldByName_of_mem r hwf.names f hf⟩)
      hwf.names (Tag.Struct.toByte :: PutUint32 (r.length % 2 ^ 32)) [] 5 []
      (fun g m => by cases m)
    simp only [List.append_nil, List.nil_append, List.cons_append, List.length_cons,
      PutUint32_length] at hl
    have hu := Uint32_count r.length hwf.count
      ((r.map (fun f => fieldBytes f.1 f.2.2)).flatten)
    simp only [Decode, Decoder.Decode, Tag.ofByte_toByte, hu, Record.type, GoType.zero,
      zeroFields_map, hl, Decoder.loopResult, Record.value]

/-- Field names that start with an upper-case letter outside ASCII are
exported: `Éa` (U+00C9), `Ωb` (U+03A9) and `𐐀` (U+10400). The names `éa`, `世`
and `_A`, the name `ǅ` (U+01C5, a title-case letter) and a name that is not
valid UTF-8 are not exported. -/
theorem exported_examples :
    exported [0xC3, 0x89, 0x61] = true ∧ exported [0xCE, 0xA9, 0x62] = true ∧
    exported [0xF0, 0x90, 0x90, 0x80] = true ∧ exported [0xC3, 0xA9, 0x61] = false ∧
    exported [0xE4, 0xB8, 0x96] = false ∧ exported [0x5F, 0x41] = false ∧
    exported [0xC7, 0x85] = false ∧ exported [0xC3] = false :=
  ⟨rfl, rfl, rfl, rfl, rfl, rfl, rfl, rfl⟩

/-- The runes of the names above, and two encodings that `DecodeRuneInString`
refuses (a surrogate and an over-long form). -/
theorem DecodeRuneInString_examples :
    DecodeRuneInString [0xC3, 0x89, 0x61] = (0xC9, 2) ∧
    DecodeRuneInString [0xE4, 0xB8, 0x96] = (0x4E16, 3) ∧
    DecodeRuneInString [0xF0, 0x90, 0x90, 0x80] = (0x10400, 4) ∧
    DecodeRuneInString [0xED, 0xA0, 0x80] = (RuneError, 1) ∧
    DecodeRuneInString [0xC0, 0x80] = (RuneError, 1) :=
  ⟨rfl, rfl, rfl, rfl, rfl⟩

/-- The value `struct{ Éa uint8 }{1}`: `Encode` writes the two bytes of `É` in
the field name and `Decode` stores the field. -/
theorem Decode_struct_nonASCII :
    Encode (.struct [([0xC3, 0x89, 0x61], .uint8 1)])
      = .ok [0xE6, 1, 0, 0, 0, 0xE5, 0xC3, 0x89, 0x61, 0, 0xE4, 0xFF, 1] ∧
    Decode [0xE6, 1, 0, 0, 0, 0xE5, 0xC3, 0x89, 0x61, 0, 0xE4, 0xFF, 1]
        (.ptr (.struct [([0xC3, 0x89, 0x61], .uint8)]) (.struct [([0xC3, 0x89, 0x61], .uint8 0)]))
      = .ret 7 none
        (.ptr (.struct [([0xC3, 0x89, 0x61], .uint8)]) (.struct [([0xC3, 0x89, 0x61], .uint8 1)])) :=
  ⟨rfl, rfl⟩

/-- C5, amended. Struct round trip: for every record shape with fewer than
`2^32` fields, all exported and of integer, bool or string kind, and every value
`s` of that shape (strings without a zero byte), `Encode(s)` succeeds and
`Decode` of it into a zero-valued destination of the same shape succeeds and
leaves every field of the destination equal to the field of `s`. -/
theorem struct_round_trip (r : Record) (hwf : r.WellFormed)
    (hexp : ∀ f ∈ r, exported f.1 = true) :
    ∃ enc n, Encode r.value = .ok enc ∧
      Decode enc (.ptr r.type r.type.zero) = .ret n none (.ptr r.type r.value) :=
  ⟨_, _, (Decode_struct r hwf hexp).1, (Decode_struct r hwf hexp).2⟩

/-- The record `{Name: "Go", Off: true, Amount: -5, Éa: 1}`; the name of the
last field starts with the upper-case letter U+00C9. -/
theorem struct_round_trip_witness :
    ∃ enc n,
      Encode (Record.value [([0x4E, 0x61, 0x6D, 0x65], .string, .string [0x47, 0x6F]),
          ([0x4F, 0x66, 0x66], .bool, .bool true),
          ([0x41, 0x6D, 0x6F, 0x75, 0x6E, 0x74], .int, .int (-5)),
          ([0xC3, 0x89, 0x61], .uint8, .uint8 1)]) = .ok enc ∧
      Decode enc (.ptr (Record.type [([0x4E, 0x61, 0x6D, 0x65], .string, .string [0x47, 0x6F]),
          ([0x4F, 0x66, 0x66], .bool, .bool true),
          ([0x41, 0x6D, 0x6F, 0x75, 0x6E, 0x74], .int, .int (-5)),
          ([0xC3, 0x89, 0x61], .uint8, .uint8 1)])
        (Record.type [([0x4E, 0x61, 0x6D, 0x65], .string, .string [0x47, 0x6F]),
          ([0x4F, 0x66, 0x66], .bool, .bool true),
          ([0x41, 0x6D, 0x6F, 0x75, 0x6E, 0x74], .int, .int (-5)),
          ([0xC3, 0x89, 0x61], .uint8, .uint8 1)]).zero)
        = .ret n none (.ptr (Record.type [([0x4E, 0x61, 0x6D, 0x65], .string, .string [0x47, 0x6F]),
          ([0x4F, 0x66, 0x66], .bool, .bool true),
          ([0x41, 0x6D, 0x6F, 0x75, 0x6E, 0x74], .int, .int (-5)),
          ([0xC3, 0x89, 0x61], .uint8, .uint8 1)])
          (Record.value [([0x4E, 0x61, 0x6D, 0x65], .string, .string [0x47, 0x6F]),
          ([0x4F, 0x66, 0x66], .bool, .bool true),
          ([0x41, 0x6D, 0x6F, 0x75, 0x6E, 0x74], .int, .int (-5)),
          ([0xC3, 0x89, 0x61], .uint8, .uint8 1)])) :=
  struct_round_trip _
    { count := by decide
      names := by decide
      ident := by decide
      kinds := by
        intro f hf
        simp only [List.mem_cons, List.mem_singleton, List.not_mem_nil, or_false] at hf
        rcases hf with rfl | rfl | rfl | rfl
        · exact ScalarField.string _ (by decide)
        · exact ScalarField.bool true
        · exact ScalarField.int .int (-5) (by decide)
        · exact ScalarField.int .uint8 1 (by decide) }
    (by decide)

/-- C5, as stated, fails: the record `struct{ a uint8 }{1}` has one field of
integer kind, is well formed, and `Encode` panics on it (`fv.Interface()` on an
unexported field). -/
theorem struct_unexported_field_panics :
    Record.WellFormed [([0x61], .uint8, .uint8 1)] ∧
      Encode (Record.value [([0x61], .uint8, .uint8 1)]) = .panic :=
  ⟨{ count := by decide
     names := by decide
     ident := by decide
     kinds := by
       intro f hf
       rw [List.mem_singleton] at hf
       subst hf
       exact ScalarField.int .uint8 1 (by decide) }, rfl⟩


/-! ## Maps -/

theorem decodeVal_iface {v : GoVal} (h : Holds .string v ∨ Holds .int v) (rest : List Byte) :
    Decoder.decodeVal (encBytes v ++ rest) .iface = .ok ((encBytes v).length, v) := by
  rcases h with h | h
  · cases h with
    | string hs =>
      simp only [encBytes, Encoder.encode, List.cons_append, List.append_assoc,
        List.nil_append, decodeVal_String _ _ _ hs, SetValue, stored, List.length_cons,
        List.length_append, List.length_nil]
  · cases h with
    | @int x lo hi =>
      have e := toSigned_toUnsigned 64 x (by norm_num) (by simpa using lo) (by simpa using hi)
      simp only [encBytes, Encoder.encode, List.cons_append, decodeVal_Int, Decoder.setVal,
        stored, e, List.length_cons, PutUint64_length]

theorem writeEntries_ok (m : List (GoVal × GoVal))
    (h : ∀ e ∈ m, Encoder.encode e.1 = .ok (encBytes e.1)
      ∧ Encoder.encode e.2 = .ok (encBytes e.2))
    (buf : List Byte) :
    Encoder.writeEntries buf m
      = .ok (buf ++ (m.map (fun e => entryBytes e.1 e.2)).flatten) := by
  induction m generalizing buf with
  | nil => simp [Encoder.writeEntries]
  | cons e m ih =>
    obtain ⟨k, v⟩ := e
    obtain ⟨h1, h2⟩ := h (k, v) (List.mem_cons_self _ _)
    simp only at h1 h2
    simp only [Encoder.writeEntries, h1, h2,
      ih (fun g mg => h g (List.mem_cons_of_mem _ mg)), List.map_cons, List.flatten_cons,
      entryBytes, List.append_assoc, List.cons_append, List.nil_append]

theorem insertEntry_append (done : List (GoVal × GoVal)) (k v : GoVal)
    (h : ∀ g ∈ done, keyEq g.1 k = false) :
    insertEntry done k v = done ++ [(k, v)] := by
  induction done with
  | nil => rfl
  | cons g done ih =>
    obtain ⟨gk, gv⟩ := g
    have hg : keyEq gk k = false := h (gk, gv) (List.mem_cons_self _ _)
    simp only [insertEntry, hg, Bool.false_eq_true, if_false, List.cons_append,
      ih (fun g m => h g (List.mem_cons_of_mem _ m))]

theorem keyEq_string_ne {a b : GoVal} (ha : Holds .string a) (hb : Holds .string b)
    (hne : a ≠ b) : keyEq a b = false := by
  cases ha; cases hb
  simp only [keyEq, decide_eq_false_iff_not]
  intro e
  exact hne (by rw [e])

/-- One iteration of the loop of the `Map` case on the bytes of one entry. -/
theorem mapLoop_step (pre tl : List Byte) (kt et : GoType) (key v : GoVal)
    (entries : List (GoVal × GoVal)) (k count : Nat)
    (hk : Holds kt key)
    (hv : Decoder.decodeVal (encBytes v ++ tl) et = .ok ((encBytes v).length, v)) :
    Decoder.mapLoop (pre ++ (entryBytes key v ++ tl)) (.map kt et) (k + 1)
        pre.length count (.map entries)
      = Decoder.mapLoop (pre ++ (entryBytes key v ++ tl)) (.map kt et) k
        ((pre ++ entryBytes key v).length) (count + (encBytes v).length)
        (.map (insertEntry entries key v)) := by
  obtain ⟨e, he, hd⟩ := decode_encode hk (Tag.MapValue.toByte :: (encBytes v ++ tl)) kt.zero
  have hee : encBytes key = e := by simp only [encBytes, he]
  subst hee
  have a1 : (pre ++ (entryBytes key v ++ tl))[pre.length]? = some Tag.MapKey.toByte := by
    simp only [entryBytes, List.cons_append]
    exact getElem?_at _ _ _ _ rfl
  have a2 : sliceFrom (pre ++ (entryBytes key v ++ tl)) (pre.length + 1)
      = some (encBytes key ++ Tag.MapValue.toByte :: (encBytes v ++ tl)) := by
    have := sliceFrom_append_of_eq (pre ++ [Tag.MapKey.toByte])
      (encBytes key ++ Tag.MapValue.toByte :: (encBytes v ++ tl)) (pre.length + 1) (by simp)
    simpa [entryBytes] using this
  have a3 : (pre ++ (entryBytes key v ++ tl))[pre.length + 1 + (encBytes key).length]?
      = some Tag.MapValue.toByte := by
    have := getElem?_at (pre ++ Tag.MapKey.toByte :: encBytes key)
      Tag.MapValue.toByte (encBytes v ++ tl) (pre.length + 1 + (encBytes key).length)
      (by simp +arith)
    simpa [entryBytes] using this
  have a4 : sliceFrom (pre ++ (entryBytes key v ++ tl))
      (pre.length + 1 + (encBytes key).length + 1) = some (encBytes v ++ tl) := by
    have := sliceFrom_append_of_eq
      (pre ++ Tag.MapKey.toByte :: (encBytes key ++ [Tag.MapValue.toByte]))
      (encBytes v ++ tl) (pre.length + 1 + (encBytes key).length + 1) (by simp +arith)
    simpa [entryBytes] using this
  have a5 : (pre ++ entryBytes key v).length
      = pre.length + 1 + (encBytes key).length + 1 + (encBytes v).length := by
    simp +arith [entryBytes]
  rw [Decoder.mapLoop]
  simp only [a1, ne_eq, not_true_eq_false, if_false, a2, hd, a3, a4, hv, SetMapIndex, a5]

/-- The loop of the `Map` case reads back the entries the encoder wrote; with
distinct keys every entry is appended to the map. -/
theorem mapLoop_ok (m : List (GoVal × GoVal)) (hm : StringMap m)
    (pre rest : List Byte) (count : Nat) (done : List (GoVal × GoVal))
    (hdone : ∀ g ∈ done, Holds .string g.1)
    (hdis : ∀ g ∈ done, ∀ e ∈ m, g.1 ≠ e.1) :
    Decoder.mapLoop (pre ++ ((m.map (fun e => entryBytes e.1 e.2)).flatten ++ rest))
        (.map .string .iface) m.length pre.length count (.map done)
      = .done (count + (m.map (fun e => (encBytes e.2).length)).sum) (.map (done ++ m)) := by
  induction m generalizing pre count done with
  | nil => simp [Decoder.mapLoop]
  | cons e m ih =>
    obtain ⟨k, v⟩ := e
    have hk : Holds .string k := hm.keys (k, v) (List.mem_cons_self _ _)
    have hv := hm.values (k, v) (List.mem_cons_self _ _)
    have hnd := hm.distinct
    rw [List.map_cons, List.nodup_cons] at hnd
    have hm' : StringMap m :=
      ⟨fun g mg => hm.keys g (List.mem_cons_of_mem _ mg), hnd.2,
        fun g mg => hm.values g (List.mem_cons_of_mem _ mg)⟩
    have hins : insertEntry done k v = done ++ [(k, v)] :=
      insertEntry_append done k v (fun g mg =>
        keyEq_string_ne (hdone g mg) hk (hdis g mg (k, v) (List.mem_cons_self _ _)))
    have hdone' : ∀ g ∈ done ++ [(k, v)], Holds .string g.1 := by
      intro g mg
      rw [List.mem_append, List.mem_singleton] at mg
      rcases mg with mg | rfl
      · exact hdone g mg
      · exact hk
    have hdis' : ∀ g ∈ done ++ [(k, v)], ∀ e ∈ m, g.1 ≠ e.1 := by
      intro g mg e me
      rw [List.mem_append, List.mem_singleton] at mg
      rcases mg with mg | rfl
      · exact hdis g mg e (List.mem_cons_of_mem _ me)
      · intro eq
        exact hnd.1 (List.mem_map.mpr ⟨e, me, eq.symm⟩)
    have step := mapLoop_step pre ((m.map (fun e => entryBytes e.1 e.2)).flatten ++ rest)
      .string .iface k v done m.length count hk (decodeVal_iface hv _)
    have rec := ih hm' (pre ++ entryBytes k v) (count + (encBytes v).length)
      (done ++ [(k, v)]) hdone' hdis'
    simp only [List.map_cons, List.flatten_cons, List.length_cons, List.append_assoc,
      List.sum_cons, List.singleton_append, hins] at step rec ⊢
    rw [step, rec, Nat.add_assoc]


theorem Encode_map (m : List (GoVal × GoVal)) (hm : StringMap m) :
    Encode (.map m)
      = .ok (Tag.Map.toByte :: (PutUint32 (m.length % 2 ^ 32)
          ++ (m.map (fun e => entryBytes e.1 e.2)).flatten)) := by
  have := writeEntries_ok m
    (fun e me => ⟨encBytes_spec (hm.keys e me), by
      rcases hm.values e me with h | h
      · exact encBytes_spec h
      · exact encBytes_spec h⟩)
    (Tag.Map.toByte :: PutUint32 (m.length % 2 ^ 32))
  simp only [Encode, Encoder.Encode, this, List.cons_append]

/-- The run of `Decode` on an encoded map with string keys into an empty map: the
destination receives the entries, and the count returned is 5 plus the lengths
of the encoded values. -/
theorem Decode_map (m : List (GoVal × GoVal)) (hm : StringMap m) (hlen : m.length < 2 ^ 32) :
    Decode (Tag.Map.toByte :: (PutUint32 (m.length % 2 ^ 32)
          ++ (m.map (fun e => entryBytes e.1 e.2)).flatten))
        (.ptr (.map .string .iface) (.map []))
      = .ret (5 + (m.map (fun e => (encBytes e.2).length)).sum) none
          (.ptr (.map .string .iface) (.map m)) := by
  have hl := mapLoop_ok m hm (Tag.Map.toByte :: PutUint32 (m.length % 2 ^ 32)) [] 5 []
    (fun g mg => by cases mg) (fun g mg => by cases mg)
  simp only [List.append_nil, List.nil_append, List.cons_append, List.length_cons,
    PutUint32_length] at hl
  have hu := Uint32_count m.length hlen ((m.map (fun e => entryBytes e.1 e.2)).flatten)
  simp only [Decode, Decoder.Decode, Tag.ofByte_toByte, hu, hl, Decoder.loopResult]

/-- C6, amended. Map round trip: for every map `m` with fewer than `2^32`
entries whose keys are strings without a zero byte and whose values are each a
string without a zero byte or an `int`, and for every order in which `Encode`
enumerates the entries, `Encode(m)` succeeds and `Decode` of it into an empty
`map[string]interface{}` succeeds and leaves the destination with exactly the
entries of `m`. -/
theorem map_round_trip (m : List (GoVal × GoVal)) (hm : StringMap m)
    (hlen : m.length < 2 ^ 32) :
    ∃ enc n, Encode (.map m) = .ok enc ∧
      Decode enc (.ptr (.map .string .iface) (.map []))
        = .ret n none (.ptr (.map .string .iface) (.map m)) :=
  ⟨_, _, Encode_map m hm, Decode_map m hm hlen⟩

/-- The map `{"k": "v", "n": -1}`, enumerated in this order. -/
theorem map_round_trip_witness :
    ∃ enc n,
      Encode (.map [(.string [0x6B], .string [0x76]), (.string [0x6E], .int (-1))]) = .ok enc ∧
      Decode enc (.ptr (.map .string .iface) (.map []))
        = .ret n none (.ptr (.map .string .iface)
            (.map [(.string [0x6B], .string [0x76]), (.string [0x6E], .int (-1))])) :=
  map_round_trip [(.string [0x6B], .string [0x76]), (.string [0x6E], .int (-1))]
    { keys := by
        intro e he
        simp only [List.mem_cons, List.mem_singleton, List.not_mem_nil, or_false] at he
        rcases he with rfl | rfl <;> exact Holds.string (by decide)
      distinct := by
        simp only [List.map_cons, List.map_nil, List.nodup_cons, List.mem_singleton,
          List.not_mem_nil, not_false_eq_true, List.nodup_nil, and_true,
          GoVal.string.injEq]
        decide
      values := by
        intro e he
        simp only [List.mem_cons, List.mem_singleton, List.not_mem_nil, or_false] at he
        rcases he with rfl | rfl
        · exact Or.inl (Holds.string (by decide))
        · exact Or.inr (Holds.int (by decide) (by decide)) }
    (by decide)

theorem bigMap_length : bigMap.length = 2 ^ 32 := by
  rw [bigMap, List.length_map, List.length_range]

theorem byteOf_inj (a b : Nat) (h : byteOf a = byteOf b) : a % 256 = b % 256 :=
  congrArg Fin.val h

theorem hexKey_no_zero (i : Nat) : (0 : Byte) ∉ hexKey i := by
  intro h
  simp only [hexKey, List.mem_cons, List.mem_singleton, List.not_mem_nil, or_false] at h
  rcases h with h | h | h | h | h | h | h | h <;>
    · have := byteOf_inj 0 _ h
      omega

theorem hexKey_inj (i j : Nat) (hi : i < 2 ^ 32) (hj : j < 2 ^ 32)
    (h : hexKey i = hexKey j) : i = j := by
  simp only [hexKey, List.cons.injEq, and_true] at h
  obtain ⟨h0, h1, h2, h3, h4, h5, h6, h7⟩ := h
  have e0 := byteOf_inj _ _ h0
  have e1 := byteOf_inj _ _ h1
  have e2 := byteOf_inj _ _ h2
  have e3 := byteOf_inj _ _ h3
  have e4 := byteOf_inj _ _ h4
  have e5 := byteOf_inj _ _ h5
  have e6 := byteOf_inj _ _ h6
  have e7 := byteOf_inj _ _ h7
  omega

theorem bigMap_stringMap : StringMap bigMap where
  keys := by
    intro e he
    obtain ⟨i, _, rfl⟩ := List.mem_map.mp he
    exact Holds.string (hexKey_no_zero i)
  distinct := by
    rw [bigMap, List.map_map]
    refine List.Nodup.map_on ?_ (List.nodup_range _)
    intro i hi j hj h
    simp only [Function.comp_apply, GoVal.string.injEq] at h
    exact hexKey_inj i j (List.mem_range.mp hi) (List.mem_range.mp hj) h
  values := by
    intro e he
    obtain ⟨i, _, rfl⟩ := List.mem_map.mp he
    exact Or.inr (Holds.int (by norm_num) (by norm_num))

theorem Decode_map_zero (tl : List Byte) (t : GoType) (cur : GoVal) :
    Decode (Tag.Map.toByte :: (PutUint32 0 ++ tl)) (.ptr t cur) = .ret 5 none (.ptr t cur) := by
  have hu := Uint32_PutUint32 0 tl
  simp only [Nat.zero_mod] at hu
  simp only [Decode, Decoder.Decode, Tag.ofByte_toByte, hu, Decoder.mapLoop,
    Decoder.loopResult]

/-- C6, as stated, fails on a map of `2^32` entries (string keys without a
zero byte, `int` values): `Encode` succeeds and writes the entry count 0, and
`Decode` returns `(5, nil)` leaving the destination empty, not with the
entries of the map. -/
theorem map_round_trip_fails :
    StringMap bigMap ∧
    ∃ enc, Encode (.map bigMap) = .ok enc ∧
      Decode enc (.ptr (.map .string .iface) (.map []))
        = .ret 5 none (.ptr (.map .string .iface) (.map [])) ∧
      ¬ ∃ n, Decode enc (.ptr (.map .string .iface) (.map []))
        = .ret n none (.ptr (.map .string .iface) (.map bigMap)) := by
  have he := Encode_map bigMap bigMap_stringMap
  rw [bigMap_length, Nat.mod_self] at he
  have hd := Decode_map_zero ((bigMap.map (fun e => entryBytes e.1 e.2)).flatten)
    (.map .string .iface) (.map [])
  refine ⟨bigMap_stringMap, _, he, hd, ?_⟩
  rintro ⟨n, hn⟩
  rw [hd] at hn
  simp only [Outcome.ret.injEq, Dest.ptr.injEq, GoVal.map.injEq, true_and] at hn
  have hl := congrArg List.length hn.2
  rw [bigMap_length] at hl
  simp at hl

/-! ## The count returned for a struct and a map -/

/-- C7, at two failing inputs. `Encode(struct{ A uint8 }{1})` has 11 bytes and
`Decode` of it returns 7; `Encode(map[string]interface{}{"k": "v"})` has 13
bytes and `Decode` of it returns 8: the count leaves out the delimiter tags,
the field name or key, so it is not the length of the encoding. -/
theorem aggregate_count_short :
    (∃ enc, Encode (.struct [([0x41], .uint8 1)]) = .ok enc ∧ enc.length = 11 ∧
      Decode enc (.ptr (.struct [([0x41], .uint8)]) (.struct [([0x41], .uint8 0)]))
        = .ret 7 none (.ptr (.struct [([0x41], .uint8)]) (.struct [([0x41], .uint8 1)]))) ∧
    (∃ enc, Encode (.map [(.string [0x6B], .string [0x76])]) = .ok enc ∧ enc.length = 13 ∧
      Decode enc (.ptr (.map .string .iface) (.map []))
        = .ret 8 none
            (.ptr (.map .string .iface) (.map [(.string [0x6B], .string [0x76])]))) :=
  ⟨⟨_, rfl, rfl, rfl⟩, ⟨_, rfl, rfl, rfl⟩⟩

theorem fieldBytes_length (name : List Byte) (v : GoVal) :
    (fieldBytes name v).length = name.length + 3 + (encBytes v).length := by
  simp +arith [fieldBytes]

/-- For every well-formed record with exported scalar fields and at least one
field, the count `Decode` returns is smaller than the length of the encoding. -/
theorem struct_count_lt (r : Record) (hwf : r.WellFormed)
    (hexp : ∀ f ∈ r, exported f.1 = true) (hne : r ≠ []) :
    ∃ enc n cur, Encode r.value = .ok enc ∧
      Decode enc (.ptr r.type r.type.zero) = .ret n none cur ∧ n < enc.length := by
  refine ⟨_, _, _, (Decode_struct r hwf hexp).1, (Decode_struct r hwf hexp).2, ?_⟩
  simp only [List.length_cons, List.length_append, PutUint32_length]
  have : ∀ (l : Record), l ≠ [] → (l.map (fun f => (encBytes f.2.2).length)).sum
      < ((l.map (fun f => fieldBytes f.1 f.2.2)).flatten).length := by
    intro l
    induction l with
    | nil => intro h; exact absurd rfl h
    | cons f l ih =>
      intro _
      simp only [List.map_cons, List.sum_cons, List.flatten_cons, List.length_append,
        fieldBytes_length]
      by_cases hl : l = []
      · subst hl; simp
      · have := ih hl
        omega
  have := this r hne
  omega


/-! ## Tags without a case in `Decode` -/

theorem Tag.ofByte_below (b : Byte) (h : b.val < 0xDF) : Tag.ofByte b = none := by
  obtain ⟨k, hk⟩ : ∃ k, 0xFF - b.val = k + 33 := ⟨0xFF - b.val - 33, by omega⟩
  unfold Tag.ofByte
  rw [hk]
  rfl

/-- C16. Unknown tag rejection: for every non-empty buffer whose first byte is
below `0xDF`, the smallest tag, and every destination, `Decode` returns 0
and the error `invalid codec of decode`, and leaves the destination as it
was. -/
theorem unknown_tag_rejected (b0 : Byte) (tl : List Byte) (val : Dest) (h : b0.val < 0xDF) :
    Decode (b0 :: tl) val = .ret 0 (some .invalidCodec) val := by
  simp only [Decode, Decoder.Decode, Tag.ofByte_below b0 h]

/-- The buffer `[0x00, 0x01]` and a `uint8` destination. -/
theorem unknown_tag_rejected_witness :
    Decode [0x00, 0x01] (.ptr .uint8 (.uint8 7))
      = .ret 0 (some .invalidCodec) (.ptr .uint8 (.uint8 7)) :=
  unknown_tag_rejected 0x00 [0x01] (.ptr .uint8 (.uint8 7)) (by decide)

theorem Encode_sliceBool (a : List Bool) :
    Encode (.sliceBool a)
      = .ok (Tag.ArrayBool.toByte :: (PutUint16 (a.length % 2 ^ 16)
          ++ (a.map (fun x => [Tag.Bool.toByte, if x then (1 : Byte) else 0])).flatten)) := by
  have H : List.Forall₂ (fun v e => Encoder.encode v = .ok e) (a.map GoVal.bool)
      (a.map (fun x => [Tag.Bool.toByte, if x then (1 : Byte) else 0])) :=
    forall₂_map_map _ _ _ a (fun _ _ => rfl)
  have := writeElems_ok _ _ H (Tag.ArrayBool.toByte :: PutUint16 (a.length % 2 ^ 16))
  simp only [Encode, Encoder.Encode, this, List.cons_append]

/-- C11, at every input. For every `[]bool` `a`, `Encode(a)` succeeds and starts
with the tag `ArrayBool`, for which the `switch` of `Decode` has no case:
`Decode` of the encoding, into any destination, returns 0 and the error
`invalid codec of decode` and leaves the destination as it was. -/
theorem bool_array_not_decoded (a : List Bool) (rest : List Byte) (val : Dest) :
    ∃ enc, Encode (.sliceBool a) = .ok enc ∧
      Decode (enc ++ rest) val = .ret 0 (some .invalidCodec) val := by
  refine ⟨_, Encode_sliceBool a, ?_⟩
  simp only [Decode, Decoder.Decode, List.cons_append, Tag.ofByte_toByte]

/-! ## Values `Encode` rejects -/

/-- C19. Unsupported input: for every value whose kind is not a scalar kind, a
byte blob, one of the slice kinds of the encoder, a struct or a map (nil, a
pointer, a slice of an unlisted element type), `Encode` returns no bytes and
the error `invalid type`. -/
theorem unsupported_rejected (v : GoVal) (h : v.supported = false) :
    Encode v = .err .invalidType := by
  cases v <;> simp only [GoVal.supported, reduceCtorEq] at h <;> rfl

/-- The nil interface. -/
theorem unsupported_rejected_witness : Encode .nil = .err .invalidType :=
  unsupported_rejected .nil rfl

/-! ## `DecodeTo` on unsigned integers -/

theorem DecodeTo_of_decodeVal (tg : Tag) (tl : List Byte) (n : Nat) (x : GoVal)
    (htg : tg ∈ [Tag.Uint8, .Uint16, .Uint32, .Uint64, .Uint, .Int8, .Int16, .Int32, .Int64,
      .Int, .Bool, .Float32, .Float64, .Timestamp, .Duration, .String, .Bytes])
    (h : Decoder.decodeVal (tg.toByte :: tl) .iface = .ok (n, x)) :
    DecodeTo (tg.toByte :: tl) = some (x, none) := by
  simp only [DecodeTo, Decode, Decode_scalar tg tl _ htg, Decoder.decode, List.length_cons,
    Nat.add_one_ne_zero, if_false, h]

/-- Through `DecodeTo` every unsigned integer comes back as a `uint64`: `setVal`
stores its `uint64` argument in the interface as it is. -/
theorem DecodeTo_unsigned :
    (∀ x : Nat, x < 2 ^ 8 → ∃ enc, Encode (.uint8 x) = .ok enc ∧
      DecodeTo enc = some (.uint64 x, none)) ∧
    (∀ x : Nat, x < 2 ^ 16 → ∃ enc, Encode (.uint16 x) = .ok enc ∧
      DecodeTo enc = some (.uint64 x, none)) ∧
    (∀ x : Nat, x < 2 ^ 32 → ∃ enc, Encode (.uint32 x) = .ok enc ∧
      DecodeTo enc = some (.uint64 x, none)) ∧
    (∀ x : Nat, x < 2 ^ 64 → ∃ enc, Encode (.uint64 x) = .ok enc ∧
      DecodeTo enc = some (.uint64 x, none)) := by
  refine ⟨fun x h => ⟨_, rfl, ?_⟩, fun x h => ⟨_, rfl, ?_⟩, fun x h => ⟨_, rfl, ?_⟩,
    fun x h => ⟨_, rfl, ?_⟩⟩
  · refine DecodeTo_of_decodeVal .Uint8 _ 2 _ (by simp) ?_
    rw [decodeVal_Uint8, byteOf_val, Nat.mod_eq_of_lt (by omega)]; rfl
  · refine DecodeTo_of_decodeVal .Uint16 _ 3 _ (by simp) ?_
    have := decodeVal_Uint16 x [] .iface
    rw [List.append_nil, Nat.mod_eq_of_lt h] at this
    rw [this]; rfl
  · refine DecodeTo_of_decodeVal .Uint32 _ 5 _ (by simp) ?_
    have := decodeVal_Uint32 x [] .iface
    rw [List.append_nil, Nat.mod_eq_of_lt h] at this
    rw [this]; rfl
  · refine DecodeTo_of_decodeVal .Uint64 _ 9 _ (by simp) ?_
    have := decodeVal_Uint64 x [] .iface
    rw [List.append_nil, Nat.mod_eq_of_lt h] at this
    rw [this]; rfl

/-- C20, at the inputs of `TestDecodeTo`. `DecodeTo` of the encodings of
`uint8(1)`, `uint16(2)` and `uint32(4)` returns `uint64(1)`, `uint64(2)` and
`uint64(4)`: values of kind `uint64`, not of the kind that was encoded. -/
theorem dynamic_decode_widens :
    DecodeTo [Tag.Uint8.toByte, 1] = some (.uint64 1, none) ∧
    DecodeTo [Tag.Uint16.toByte, 2, 0] = some (.uint64 2, none) ∧
    DecodeTo [Tag.Uint32.toByte, 4, 0, 0, 0] = some (.uint64 4, none) ∧
    Encode (.uint8 1) = .ok [Tag.Uint8.toByte, 1] ∧
    Encode (.uint16 2) = .ok [Tag.Uint16.toByte, 2, 0] ∧
    Encode (.uint32 4) = .ok [Tag.Uint32.toByte, 4, 0, 0, 0] :=
  ⟨rfl, rfl, rfl, rfl, rfl, rfl⟩
/-! ## Truncated scalars -/

theorem decodeVal_short (tg : Tag) (w : Nat) (tl : List Byte) (t : GoType)
    (h : (tg, w) ∈ [(Tag.Uint8, 1), (Tag.Uint16, 2), (Tag.Uint32, 4), (Tag.Uint64, 8),
      (Tag.Uint, 8), (Tag.Int8, 1), (Tag.Int16, 2), (Tag.Int32, 4), (Tag.Int64, 8),
      (Tag.Int, 8), (Tag.Float32, 4), (Tag.Float64, 8), (Tag.Bool, 1)])
    (hl : tl.length < w) :
    Decoder.decodeVal (tg.toByte :: tl) t = .err .ErrBufTooSmall := by
  simp only [List.mem_cons, List.mem_singleton, Prod.mk.injEq, List.not_mem_nil,
    or_false] at h
  rcases h with h | h | h | h | h | h | h | h | h | h | h | h | h <;>
    obtain ⟨rfl, rfl⟩ := h <;>
    simp only [Decoder.decodeVal, Tag.ofByte_toByte, List.length_cons] <;>
    rw [if_pos (by omega)]

theorem encode_numeric_head {t : GoType} {v : GoVal} (h : Holds t v)
    (hn : numericType t = true) :
    ∃ tg w payload, Encoder.encode v = .ok (Tag.toByte tg :: payload) ∧
      payload.length = w ∧
      (tg, w) ∈ [(Tag.Uint8, 1), (Tag.Uint16, 2), (Tag.Uint32, 4), (Tag.Uint64, 8),
        (Tag.Uint, 8), (Tag.Int8, 1), (Tag.Int16, 2), (Tag.Int32, 4), (Tag.Int64, 8),
        (Tag.Int, 8), (Tag.Float32, 4), (Tag.Float64, 8), (Tag.Bool, 1)] ∧
      tg ∈ [Tag.Uint8, .Uint16, .Uint32, .Uint64, .Uint, .Int8, .Int16, .Int32, .Int64,
        .Int, .Bool, .Float32, .Float64, .Timestamp, .Duration, .String, .Bytes] := by
  cases h <;> simp only [numericType, Bool.false_eq_true] at hn <;>
    exact ⟨_, _, _, rfl, rfl, by simp, by simp⟩

theorem decode_err (b : List Byte) (t : GoType) (cur : GoVal) (e : Err)
    (hb : b.length ≠ 0) (h : Decoder.decodeVal b t = .err e) :
    Decoder.decode b (.ptr t cur) = .ret 0 (some e) (.ptr t cur) := by
  simp only [Decoder.decode, hb, if_false, h]

theorem decode_panic (b : List Byte) (t : GoType) (cur : GoVal)
    (hb : b.length ≠ 0) (h : Decoder.decodeVal b t = .panic) :
    Decoder.decode b (.ptr t cur) = .panic := by
  simp only [Decoder.decode, hb, if_false, h]

theorem prefix_cons_cases (p : List Byte) (c : Byte) (tl : List Byte)
    (hp : p <+: c :: tl) (hne : p ≠ c :: tl) :
    p = [] ∨ ∃ p', p = c :: p' ∧ p'.length < tl.length := by
  cases p with
  | nil => exact Or.inl rfl
  | cons d p' =>
    right
    obtain ⟨s, hs⟩ := hp
    simp only [List.cons_append, List.cons.injEq] at hs
    obtain ⟨rfl, hs⟩ := hs
    refine ⟨p', rfl, ?_⟩
    have hl : tl.length = p'.length + s.length := by rw [← hs, List.length_append]
    cases s with
    | nil => rw [List.append_nil] at hs; exact absurd (by rw [hs]) hne
    | cons x s => rw [hl, List.length_cons]; omega

/-- C12. Truncation of numeric scalars: for every integer, float or bool
scalar `v`, `Encode(v)` succeeds, and for every proper prefix `p` of the
encoding (the empty one included) `Decode` of `p` into a destination of the
type of `v` returns 0 and `ErrBufTooSmall` and leaves the destination as it
was. -/
theorem numeric_truncation (t : GoType) (v : GoVal) (h : Holds t v)
    (hn : numericType t = true) (cur : GoVal) :
    ∃ enc, Encode v = .ok enc ∧
      ∀ p : List Byte, p <+: enc → p ≠ enc →
        Decode p (.ptr t cur) = .ret 0 (some .ErrBufTooSmall) (.ptr t cur) := by
  obtain ⟨tg, w, payload, he, hw, hmem, htg⟩ := encode_numeric_head h hn
  refine ⟨_, by rw [Encode, Encode_eq_encode h, he], ?_⟩
  intro p hp hne
  rcases prefix_cons_cases p _ _ hp hne with rfl | ⟨p', rfl, hl⟩
  · rfl
  · rw [Decode, Decode_scalar tg p' _ htg]
    exact decode_err _ _ _ _ (by simp)
      (decodeVal_short tg w p' t hmem (by omega))

/-- The first two of the three bytes of `int16(-2)`. -/
theorem numeric_truncation_witness :
    ∃ enc, Encode (.int16 (-2)) = .ok enc ∧
      ∀ p : List Byte, p <+: enc → p ≠ enc →
        Decode p (.ptr .int16 (.int16 5))
          = .ret 0 (some .ErrBufTooSmall) (.ptr .int16 (.int16 5)) :=
  numeric_truncation .int16 (.int16 (-2)) (Holds.int16 (by decide) (by decide)) rfl
    (.int16 5)

/-! ## Truncated timestamps and durations -/

theorem decodeVal_Timestamp_short (tl : List Byte) (t : GoType) (h : tl.length < 8) :
    Decoder.decodeVal (Tag.Timestamp.toByte :: tl) t
      = .err (if tl.length = 0 then .EOF else .ErrUnexpectedEOF) := by
  by_cases h0 : tl.length = 0
  · simp only [Decoder.decodeVal, Tag.ofByte_toByte, binaryRead, h0, if_true]
    rfl
  · simp only [Decoder.decodeVal, Tag.ofByte_toByte, binaryRead, h0, if_false]
    rw [if_neg (by omega)]

theorem decodeVal_Duration_short (tl : List Byte) (t : GoType) (h : tl.length < 8) :
    Decoder.decodeVal (Tag.Duration.toByte :: tl) t
      = .err (if tl.length = 0 then .EOF else .ErrUnexpectedEOF) := by
  by_cases h0 : tl.length = 0
  · simp only [Decoder.decodeVal, Tag.ofByte_toByte, binaryRead, h0, if_true]
    rfl
  · simp only [Decoder.decodeVal, Tag.ofByte_toByte, binaryRead, h0, if_false]
    rw [if_neg (by omega)]

/-- A timestamp or a duration cut after its tag or inside its payload: `Decode`
returns the error of `binary.Read`, `io.EOF` when only the tag is left and
`io.ErrUnexpectedEOF` otherwise. -/
theorem Decode_time_short (tg : Tag) (htg : tg = .Timestamp ∨ tg = .Duration)
    (tl : List Byte) (h : tl.length < 8) (t : GoType) (cur : GoVal) :
    Decode (tg.toByte :: tl) (.ptr t cur)
      = .ret 0 (some (if tl.length = 0 then .EOF else .ErrUnexpectedEOF)) (.ptr t cur) := by
  rcases htg with rfl | rfl
  · rw [Decode, Decode_scalar _ tl _ (by simp)]
    exact decode_err _ _ _ _ (by simp) (decodeVal_Timestamp_short tl t h)
  · rw [Decode, Decode_scalar _ tl _ (by simp)]
    exact decode_err _ _ _ _ (by simp) (decodeVal_Duration_short tl t h)

/-- C15, at four failing inputs. Of the nine bytes of the timestamp
2020-01-01 12:59:59.000001234 UTC and of the duration of three seconds, the
first byte alone makes `Decode` return `io.EOF`, and the first five bytes make
it return `io.ErrUnexpectedEOF`: neither is `ErrBufTooSmall`. -/
theorem time_truncation_errors :
    (∃ enc, Encode (.time ⟨1577883599, 1234⟩) = .ok enc ∧ enc.length = 9 ∧
      Decode (enc.take 1) (.ptr .time (.time ⟨0, 0⟩))
        = .ret 0 (some .EOF) (.ptr .time (.time ⟨0, 0⟩)) ∧
      Decode (enc.take 5) (.ptr .time (.time ⟨0, 0⟩))
        = .ret 0 (some .ErrUnexpectedEOF) (.ptr .time (.time ⟨0, 0⟩))) ∧
    (∃ enc, Encode (.duration 3000000000) = .ok enc ∧ enc.length = 9 ∧
      Decode (enc.take 1) (.ptr .duration (.duration 0))
        = .ret 0 (some .EOF) (.ptr .duration (.duration 0)) ∧
      Decode (enc.take 5) (.ptr .duration (.duration 0))
        = .ret 0 (some .ErrUnexpectedEOF) (.ptr .duration (.duration 0))) :=
  ⟨⟨_, rfl, rfl, rfl, rfl⟩, ⟨_, rfl, rfl, rfl, rfl⟩⟩

/-! ## Byte blobs shorter than they say -/

theorem Uint32_lt (b : List Byte) (l : Nat) (h : Uint32 b = some l) : l < 2 ^ 32 := by
  unfold Uint32 at h
  split at h
  · rename_i b0 b1 b2 b3 _
    simp only [Option.some.injEq] at h
    have h0 := b0.isLt
    have h1 := b1.isLt
    have h2 := b2.isLt
    have h3 := b3.isLt
    omega
  · cases h

theorem Uint32_none (b : List Byte) (h : b.length < 4) : Uint32 b = none := by
  match b, h with
  | [], _ => rfl
  | [_], _ => rfl
  | [_, _], _ => rfl
  | [_, _, _], _ => rfl
  | _ :: _ :: _ :: _ :: _, h => simp at h; omega

/-- A buffer that starts with the tag `Bytes` and is shorter than its header,
or shorter than the length it carries: `Decode` into a pointer destination
panics, in `ByteOrder.Uint32` or in the slice expression `b[5:l+5]`. -/
theorem Decode_Bytes_short (tl : List Byte) (t : GoType) (cur : GoVal)
    (h : tl.length < 4 ∨ ∃ l, Uint32 tl = some l ∧ tl.length < 4 + l) :
    Decode (Tag.Bytes.toByte :: tl) (.ptr t cur) = .panic := by
  rw [Decode, Decode_scalar _ tl _ (by simp)]
  refine decode_panic _ _ _ (by simp) ?_
  rcases h with h | ⟨l, hl, hlen⟩
  · simp only [Decoder.decodeVal, Tag.ofByte_toByte, Uint32_none tl h]
  · have hlt := Uint32_lt tl l hl
    have hs : slice (Tag.Bytes.toByte :: tl) 5 ((l + 5) % 2 ^ 32) = none := by
      unfold slice
      rw [if_neg]
      simp only [List.length_cons]
      omega
    simp only [Decoder.decodeVal, Tag.ofByte_toByte, hl, hs]

/-- C13, at three failing inputs. On the buffer `[Bytes]`, on `[Bytes, 1, 0]`
and on `[Bytes, 5, 0, 0, 0, 1, 2]`, which carries the length 5 before two
bytes, `Decode` into a byte-blob destination panics; it does not return
`ErrBufTooSmall`. -/
theorem bytes_bounds_panic :
    Decode [Tag.Bytes.toByte] (.ptr .bytes (.bytes [])) = .panic ∧
    Decode [Tag.Bytes.toByte, 1, 0] (.ptr .bytes (.bytes [])) = .panic ∧
    Decode [Tag.Bytes.toByte, 5, 0, 0, 0, 1, 2] (.ptr .bytes (.bytes [])) = .panic :=
  ⟨rfl, rfl, rfl⟩
/-! ## Arrays of `interface{}` -/

theorem Encode_of_isScalar (v : GoVal) (h : v.isScalar = true) :
    ∃ e, Encoder.encode v = .ok e ∧ Encode v = .ok e := by
  cases v <;> simp only [GoVal.isScalar, Bool.false_eq_true] at h <;> exact ⟨_, rfl, rfl⟩

theorem encode_of_not_isScalar (v : GoVal) (h : v.isScalar = false) :
    Encoder.encode v = .err .invalidType := by
  cases v <;> simp only [GoVal.isScalar, reduceCtorEq] at h <;> rfl

theorem forall₂_of_isScalar (xs : List GoVal) (hs : ∀ x ∈ xs, x.isScalar = true) :
    ∃ encs : List (List Byte),
      List.Forall₂ (fun x e => Encoder.encode x = .ok e ∧ Encode x = .ok e) xs encs := by
  induction xs with
  | nil => exact ⟨[], List.Forall₂.nil⟩
  | cons x xs ih =>
    obtain ⟨encs, H⟩ := ih (fun y m => hs y (List.mem_cons_of_mem _ m))
    obtain ⟨e, he⟩ := Encode_of_isScalar x (hs x (List.mem_cons_self _ _))
    exact ⟨e :: encs, List.Forall₂.cons he H⟩

/-- C18, amended. Any-array layout: for every array-of-any `xs` with fewer than
65536 elements, all of them scalars, `Encode(xs)` succeeds and equals the tag
`Array`, the element count as two little-endian bytes, then the
concatenation, in order, of `Encode` of every element. -/
theorem any_array_layout (xs : List GoVal) (hlen : xs.length < 65536)
    (hs : ∀ x ∈ xs, x.isScalar = true) :
    ∃ encs : List (List Byte),
      List.Forall₂ (fun x e => Encode x = .ok e) xs encs ∧
      Encode (.sliceAny xs) = .ok (Tag.Array.toByte :: byteOf xs.length
        :: byteOf (xs.length / 256) :: encs.flatten) := by
  obtain ⟨encs, H⟩ := forall₂_of_isScalar xs hs
  refine ⟨encs, H.imp (fun _ _ h => h.2), ?_⟩
  have hw := writeElems_ok xs encs (H.imp (fun _ _ h => h.1))
    (Tag.Array.toByte :: PutUint16 (xs.length % 2 ^ 16))
  rw [PutUint16_small _ hlen] at hw
  simp only [Encode, Encoder.Encode, PutUint16_small _ hlen]
  rw [hw]
  rfl

/-- The array `[]interface{}{uint8(1), "a"}`. -/
theorem any_array_layout_witness :
    ∃ encs : List (List Byte),
      List.Forall₂ (fun x e => Encode x = .ok e) [.uint8 1, .string [0x61]] encs ∧
      Encode (.sliceAny [.uint8 1, .string [0x61]]) = .ok (Tag.Array.toByte :: byteOf 2
        :: byteOf (2 / 256) :: encs.flatten) :=
  any_array_layout [.uint8 1, .string [0x61]] (by decide) (by decide)

theorem writeElems_err (xs : List GoVal) (h : ∃ x ∈ xs, x.isScalar = false)
    (buf : List Byte) : Encoder.writeElems buf xs = .err .invalidType := by
  induction xs generalizing buf with
  | nil => obtain ⟨x, hx, _⟩ := h; cases hx
  | cons y xs ih =>
    by_cases hy : y.isScalar = true
    · obtain ⟨e, he, _⟩ := Encode_of_isScalar y hy
      obtain ⟨x, hx, hxs⟩ := h
      rcases List.mem_cons.mp hx with rfl | hx'
      · rw [hy] at hxs; cases hxs
      · simp only [Encoder.writeElems, he, ih ⟨x, hx', hxs⟩]
    · simp only [Encoder.writeElems, encode_of_not_isScalar y (by simpa using hy)]

/-- An array-of-any with an element that is not a scalar: `Encode` returns the
error `invalid type`, whatever `Encode` does on that element alone. -/
theorem Encode_any_array_nonscalar (xs : List GoVal) (h : ∃ x ∈ xs, x.isScalar = false) :
    Encode (.sliceAny xs) = .err .invalidType := by
  simp only [Encode, Encoder.Encode, writeElems_err xs h]

/-- C18, as stated, fails: `Encode` succeeds on the byte blob `[]byte{1}`, on
the array `[]int{1}`, on the struct `struct{ A uint8 }{1}` and on the map
`{"k": "v"}`, and `Encode` of the array-of-any holding any one of them returns
the error `invalid type`. -/
theorem any_array_nested_fails :
    (Encode (.bytes [1]) = .ok [0xEE, 1, 0, 0, 0, 1] ∧
      Encode (.sliceAny [.bytes [1]]) = .err .invalidType) ∧
    ((∃ enc, Encode (.sliceInt [1]) = .ok enc) ∧
      Encode (.sliceAny [.sliceInt [1]]) = .err .invalidType) ∧
    ((∃ enc, Encode (.struct [([0x41], .uint8 1)]) = .ok enc) ∧
      Encode (.sliceAny [.struct [([0x41], .uint8 1)]]) = .err .invalidType) ∧
    ((∃ enc, Encode (.map [(.string [0x6B], .string [0x76])]) = .ok enc) ∧
      Encode (.sliceAny [.map [(.string [0x6B], .string [0x76])]]) = .err .invalidType) :=
  ⟨⟨rfl, rfl⟩, ⟨⟨_, rfl⟩, rfl⟩, ⟨⟨_, rfl⟩, rfl⟩, ⟨⟨_, rfl⟩, rfl⟩⟩

/-! ## Truncated arrays -/

theorem Encode_sliceInt (a : List Int) :
    Encode (.sliceInt a)
      = .ok (Tag.ArrayInt.toByte :: (PutUint16 (a.length % 2 ^ 16)
          ++ (a.map (fun x => Tag.Int.toByte :: PutUint64 (toUnsigned 64 x))).flatten)) := by
  have H : List.Forall₂ (fun v e => Encoder.encode v = .ok e) (a.map GoVal.int)
      (a.map (fun x => Tag.Int.toByte :: PutUint64 (toUnsigned 64 x))) :=
    forall₂_map_map _ _ _ a (fun _ _ => rfl)
  have := writeElems_ok _ _ H (Tag.ArrayInt.toByte :: PutUint16 (a.length % 2 ^ 16))
  simp only [Encode, Encoder.Encode, this, List.cons_append]

theorem ints_flatten_length (a : List Int) :
    ((a.map (fun x => Tag.Int.toByte :: PutUint64 (toUnsigned 64 x))).flatten).length
      = 9 * a.length := by
  induction a with
  | nil => rfl
  | cons x a ih =>
    simp only [List.map_cons, List.flatten_cons, List.length_append, List.length_cons,
      PutUint64_length, ih]
    omega

/-- The loop of the `ArrayInt` case on a payload cut inside or right before an
element: the element that is not whole makes `decode` return
`ErrBufTooSmall`. -/
theorem elemLoop_truncated (vs : List Int) (hr : ∀ x ∈ vs, -2 ^ 63 ≤ x ∧ x < 2 ^ 63)
    (m : Nat) (hm : m < 9 * vs.length) (pre : List Byte) (i count : Nat)
    (nv : List GoVal) (hpre : pre.length = 3 + i * 9) :
    Decoder.elemLoop
        (pre ++ ((vs.map (fun x => Tag.Int.toByte :: PutUint64 (toUnsigned 64 x))).flatten).take m)
        .int 9 vs.length i count nv
      = .err .ErrBufTooSmall := by
  induction vs generalizing m pre i count nv with
  | nil => simp at hm
  | cons x vs ih =>
    simp only [List.map_cons, List.flatten_cons, List.length_cons, Decoder.elemLoop]
    rw [sliceFrom_append_of_eq pre _ _ hpre]
    by_cases h9 : m < 9
    · rw [List.take_append_of_le_length (by simp; omega)]
      cases m with
      | zero => simp [Decoder.decode]
      | succ m' =>
        have hd := decode_err (Tag.Int.toByte :: (PutUint64 (toUnsigned 64 x)).take m') .int
          (GoType.int.zero) .ErrBufTooSmall (by simp)
          (decodeVal_short .Int 8 _ .int (by simp) (by simp; omega))
        simp only [List.take_succ_cons, hd]
    · have hx := hr x (List.mem_cons_self _ _)
      obtain ⟨e, he, hd⟩ := decode_encode (Holds.int hx.1 hx.2)
        (((vs.map (fun x => Tag.Int.toByte :: PutUint64 (toUnsigned 64 x))).flatten).take (m - 9))
        (GoType.int.zero)
      simp only [Encoder.encode, Res.ok.injEq] at he
      subst he
      have ht : (Tag.Int.toByte :: PutUint64 (toUnsigned 64 x)
            ++ (vs.map (fun x => Tag.Int.toByte :: PutUint64 (toUnsigned 64 x))).flatten).take m
          = (Tag.Int.toByte :: PutUint64 (toUnsigned 64 x))
            ++ ((vs.map (fun x => Tag.Int.toByte :: PutUint64 (toUnsigned 64 x))).flatten).take
              (m - 9) := by
        rw [List.take_append_eq_append_take, List.take_of_length_le (by simp; omega)]
        rfl
      simp only [ht, hd]
      have := ih (fun y my => hr y (List.mem_cons_of_mem _ my)) (m - 9)
        (by simp only [List.length_cons] at hm; omega)
        (pre ++ (Tag.Int.toByte :: PutUint64 (toUnsigned 64 x))) (i + 1)
        (count + (Tag.Int.toByte :: PutUint64 (toUnsigned 64 x)).length) (nv ++ [.int x])
        (by simp only [List.length_append, List.length_cons, PutUint64_length, hpre]; ring)
      rw [List.append_assoc] at this
      exact this
theorem prefix_eq_take (p enc : List Byte) (hp : p <+: enc) (hne : p ≠ enc) :
    p = enc.take p.length ∧ p.length < enc.length := by
  obtain ⟨s, rfl⟩ := hp
  refine ⟨by rw [List.take_left], ?_⟩
  cases s with
  | nil => exact absurd (List.append_nil p).symm hne
  | cons x s => simp

/-- C14, amended. Truncation of arrays: for every `[]int` `a` with fewer than
65536 elements and every proper prefix `p` of `Encode(a)` that is empty or has
at least 3 bytes, `Decode` of `p` into a `[]int` destination returns 0 and
`ErrBufTooSmall` and leaves the destination as it was. -/
theorem array_truncation (a : List Int) (hlen : a.length < 65536)
    (hr : ∀ x ∈ a, -2 ^ 63 ≤ x ∧ x < 2 ^ 63) (cur : GoVal) :
    ∃ enc, Encode (.sliceInt a) = .ok enc ∧
      ∀ p : List Byte, p <+: enc → p ≠ enc → p = [] ∨ 3 ≤ p.length →
        Decode p (.ptr .sliceInt cur)
          = .ret 0 (some .ErrBufTooSmall) (.ptr .sliceInt cur) := by
  refine ⟨_, Encode_sliceInt a, ?_⟩
  intro p hp hne h3
  rcases h3 with rfl | h3
  · rfl
  · obtain ⟨hpt, hpl⟩ := prefix_eq_take p _ hp hne
    simp only [List.length_cons, List.length_append, PutUint16_length,
      ints_flatten_length] at hpl
    obtain ⟨m, hm⟩ : ∃ m, p.length = 3 + m := ⟨p.length - 3, by omega⟩
    have htake : p = Tag.ArrayInt.toByte :: (PutUint16 (a.length % 2 ^ 16)
        ++ ((a.map (fun x => Tag.Int.toByte :: PutUint64 (toUnsigned 64 x))).flatten).take m) := by
      rw [hpt, hm, show 3 + m = m + 1 + 1 + 1 by omega]
      simp only [PutUint16, List.cons_append, List.nil_append, List.take_succ_cons]
    have hu : Uint16 (PutUint16 (a.length % 2 ^ 16)
        ++ ((a.map (fun x => Tag.Int.toByte :: PutUint64 (toUnsigned 64 x))).flatten).take m)
        = some a.length := by
      rw [Uint16_PutUint16]; congr 1; omega
    have hl := elemLoop_truncated a hr m (by omega)
      (Tag.ArrayInt.toByte :: PutUint16 (a.length % 2 ^ 16)) 0 3 [] (by simp)
    simp only [List.cons_append] at hl
    rw [htake]
    simp only [Decode, Decoder.Decode, Tag.ofByte_toByte, hu, hl, Decoder.arrayResult]

/-- The array `[]int{1, 2}`: its 21 bytes cut after 10 bytes, or after any other
number of bytes but 1 and 2. -/
theorem array_truncation_witness :
    ∃ enc, Encode (.sliceInt [1, 2]) = .ok enc ∧
      ∀ p : List Byte, p <+: enc → p ≠ enc → p = [] ∨ 3 ≤ p.length →
        Decode p (.ptr .sliceInt (.sliceInt []))
          = .ret 0 (some .ErrBufTooSmall) (.ptr .sliceInt (.sliceInt [])) :=
  array_truncation [1, 2] (by decide) (by decide) (.sliceInt [])

theorem Decode_ints_wrapped (a : List Int) (h : a.length % 2 ^ 16 = 0) (cur : GoVal) :
    ∃ enc, Encode (.sliceInt a) = .ok enc ∧ enc.length = 3 + 9 * a.length ∧
      Decode (enc.take 3) (.ptr .sliceInt cur)
        = .ret 3 none (.ptr .sliceInt (.sliceInt [])) := by
  refine ⟨_, Encode_sliceInt a, ?_, ?_⟩
  · simp only [List.length_cons, List.length_append, PutUint16_length, ints_flatten_length]
    omega
  · rw [h]
    rfl

/-- C14, as stated, fails twice. The encoding of a `[]int` of 65536 zeros has
589827 bytes and starts with the count 0, so `Decode` of its first 3 bytes
succeeds with an empty array; and of the 21 bytes of `Encode([]int{1, 2})` the
first byte alone, and the first two, make `Decode` panic in
`ByteOrder.Uint16`. -/
theorem array_truncation_fails :
    (∃ enc, Encode (.sliceInt (List.replicate 65536 0)) = .ok enc ∧ enc.length = 589827 ∧
      Decode (enc.take 3) (.ptr .sliceInt (.sliceInt [7]))
        = .ret 3 none (.ptr .sliceInt (.sliceInt []))) ∧
    (∃ enc, Encode (.sliceInt [1, 2]) = .ok enc ∧ enc.length = 21 ∧
      Decode (enc.take 1) (.ptr .sliceInt (.sliceInt [])) = .panic ∧
      Decode (enc.take 2) (.ptr .sliceInt (.sliceInt [])) = .panic) := by
  have hl : (List.replicate 65536 (0 : Int)).length = 65536 := List.length_replicate _ _
  obtain ⟨enc, he, hn, hd⟩ := Decode_ints_wrapped (List.replicate 65536 0)
    (by rw [hl]; norm_num) (.sliceInt [7])
  rw [hl] at hn
  exact ⟨⟨enc, he, hn, hd⟩, ⟨_, rfl, rfl, rfl, rfl⟩⟩
/-! ## A struct field the destination does not have -/

theorem FieldByName_none (D : List (List Byte × GoType)) (name : List Byte)
    (h : name ∉ D.map Prod.fst) : FieldByName D name = none := by
  induction D with
  | nil => rfl
  | cons g D ih =>
    obtain ⟨gn, gt⟩ := g
    simp only [List.map_cons, List.mem_cons, not_or] at h
    have hg : gn ≠ name := fun e => h.1 e.symm
    simp only [FieldByName, hg, if_false, ih h.2]

theorem FieldByName_mem (D : List (List Byte × GoType)) (name : List Byte) (t : GoType)
    (h : FieldByName D name = some t) : name ∈ D.map Prod.fst := by
  by_contra hn
  rw [FieldByName_none D name hn] at h
  cases h

theorem zeroFields_names (D : List (List Byte × GoType)) :
    (GoType.zero.zeroFields D).map Prod.fst = D.map Prod.fst := by
  induction D with
  | nil => rfl
  | cons g D ih =>
    obtain ⟨gn, gt⟩ := g
    simp only [GoType.zero.zeroFields, List.map_cons, ih]

theorem setField_of_mem (vals : List (List Byte × GoVal)) (name : List Byte) (x : GoVal)
    (hex : exported name = true) (hmem : name ∈ vals.map Prod.fst) :
    ∃ vals', setField vals name x = some vals' ∧ vals'.map Prod.fst = vals.map Prod.fst := by
  induction vals with
  | nil => cases hmem
  | cons g vals ih =>
    obtain ⟨gn, gv⟩ := g
    by_cases hg : gn = name
    · subst hg
      exact ⟨(gn, x) :: vals, by simp only [setField, hex, if_true], rfl⟩
    · simp only [List.map_cons, List.mem_cons] at hmem
      rcases hmem with e | hmem
      · exact absurd e.symm hg
      · obtain ⟨vals', h1, h2⟩ := ih hmem
        exact ⟨(gn, gv) :: vals', by simp only [setField, hg, if_false, h1, Option.map_some'],
          by simp only [List.map_cons, h2]⟩

/-- One iteration of the loop of the `Struct` case on a field whose name the
destination type does not have. -/
theorem structLoop_missing (pre tl : List Byte) (D : List (List Byte × GoType))
    (name : List Byte) (v cur : GoVal) (k count : Nat) (hne : name ≠ [])
    (hz : (0 : Byte) ∉ name) (habs : FieldByName D name = none) :
    Decoder.structLoop (pre ++ (fieldBytes name v ++ tl)) (.struct D) true (k + 1)
        pre.length count cur
      = .fail (.missingStructField name) cur := by
  obtain ⟨c, name', rfl⟩ : ∃ c name', name = c :: name' := by
    cases name with
    | nil => exact absurd rfl hne
    | cons c n => exact ⟨c, n, rfl⟩
  have a1 : (pre ++ (fieldBytes (c :: name') v ++ tl))[pre.length]?
      = some Tag.StructField.toByte := by
    simp only [fieldBytes, List.cons_append]
    exact getElem?_at _ _ _ _ rfl
  have a2 : sliceFrom (pre ++ (fieldBytes (c :: name') v ++ tl)) (pre.length + 1)
      = some ((c :: name') ++ 0 :: (Tag.StructValue.toByte :: (encBytes v ++ tl))) := by
    have := sliceFrom_append_of_eq (pre ++ [Tag.StructField.toByte])
      ((c :: name') ++ 0 :: (Tag.StructValue.toByte :: (encBytes v ++ tl)))
      (pre.length + 1) (by simp)
    simpa [fieldBytes] using this
  have a3 : indexZero ((c :: name') ++ 0 :: (Tag.StructValue.toByte :: (encBytes v ++ tl)))
      = some (name'.length + 1) := by
    rw [indexZero_append _ _ hz]; rfl
  have a4 : slice (pre ++ (fieldBytes (c :: name') v ++ tl)) (pre.length + 1)
      (pre.length + 1 + (name'.length + 1)) = some (c :: name') := by
    have := slice_blob (pre ++ [Tag.StructField.toByte]) (c :: name')
      (0 :: (Tag.StructValue.toByte :: (encBytes v ++ tl))) (pre.length + 1) (by simp)
    simpa [fieldBytes] using this
  have a5 : (pre ++ (fieldBytes (c :: name') v ++ tl))[pre.length + 1
      + (name'.length + 1 + 1)]? = some Tag.StructValue.toByte := by
    have := getElem?_at (pre ++ Tag.StructField.toByte :: ((c :: name') ++ [0]))
      Tag.StructValue.toByte (encBytes v ++ tl) (pre.length + 1 + (name'.length + 1 + 1))
      (by simp +arith)
    simpa [fieldBytes] using this
  rw [Decoder.structLoop]
  simp only [a1, ne_eq, not_true_eq_false, if_false, a2, a3, a4, a5, habs]

/-- The loop of the `Struct` case over fields that the destination type has
with the same types: it reaches the next field with a struct of the same
field names. -/
theorem structLoop_present (D : List (List Byte × GoType)) (fs : Record)
    (hfs : ∀ f ∈ fs, f.1 ≠ [] ∧ (0 : Byte) ∉ f.1 ∧ exported f.1 = true ∧ Holds f.2.1 f.2.2
      ∧ FieldByName D f.1 = some f.2.1)
    (pre tl : List Byte) (k count : Nat) (vals : List (List Byte × GoVal))
    (hvals : vals.map Prod.fst = D.map Prod.fst) :
    ∃ vals' count',
      Decoder.structLoop (pre ++ ((fs.map (fun f => fieldBytes f.1 f.2.2)).flatten ++ tl))
          (.struct D) true (fs.length + k) pre.length count (.struct vals)
        = Decoder.structLoop
          (pre ++ ((fs.map (fun f => fieldBytes f.1 f.2.2)).flatten ++ tl))
          (.struct D) true k
          ((pre ++ (fs.map (fun f => fieldBytes f.1 f.2.2)).flatten).length) count'
          (.struct vals') := by
  induction fs generalizing pre count vals with
  | nil => exact ⟨vals, count, by simp⟩
  | cons f fs ih =>
    obtain ⟨name, ft, v⟩ := f
    obtain ⟨hne, hz, hex, hv, hft⟩ := hfs (name, ft, v) (List.mem_cons_self _ _)
    simp only at hne hz hex hv hft
    obtain ⟨vals1, hset, hnames⟩ := setField_of_mem vals name v hex
      (by rw [hvals]; exact FieldByName_mem D name ft hft)
    have step := structLoop_step pre
      ((fs.map (fun f => fieldBytes f.1 f.2.2)).flatten ++ tl) D name ft v vals vals1
      (fs.length + k) count hne hz hft hv hset
    obtain ⟨vals', count', rec⟩ := ih (fun f m => hfs f (List.mem_cons_of_mem _ m))
      (pre ++ fieldBytes name v) (count + (encBytes v).length) vals1 (hnames.trans hvals)
    refine ⟨vals', count', ?_⟩
    simp only [List.map_cons, List.flatten_cons, List.length_cons, List.append_assoc]
      at step rec ⊢
    rw [show fs.length + 1 + k = fs.length + k + 1 by omega, step, rec]

/-- C17, amended. Struct field mismatch: for every struct value `s` of fewer
than `2^32` fields, all exported and scalar, and every destination shape `D`
such that the name of one field of `s` is absent from `D` while every field of
`s` declared before it is in `D` with the same type, `Encode(s)` succeeds and
`Decode` of it into a destination of shape `D` returns 0 and the error
`missing struct field` for that name. -/
theorem struct_unknown_field (before after : Record) (name : List Byte) (ft : GoType)
    (v : GoVal) (D : List (List Byte × GoType))
    (hs : Record.Scalars (before ++ (name, ft, v) :: after))
    (hexp : ∀ f ∈ before ++ (name, ft, v) :: after, exported f.1 = true)
    (hD : ∀ f ∈ before, FieldByName D f.1 = some f.2.1)
    (habs : name ∉ D.map Prod.fst)
    (cur : List (List Byte × GoVal)) (hcur : cur.map Prod.fst = D.map Prod.fst) :
    ∃ enc dst, Encode (Record.value (before ++ (name, ft, v) :: after)) = .ok enc ∧
      Decode enc (.ptr (.struct D) (.struct cur))
        = .ret 0 (some (.missingStructField name)) dst := by
  have hw := writeFields_ok ((before ++ (name, ft, v) :: after).map (fun f => (f.1, f.2.2)))
    (by
      intro f hf
      obtain ⟨g, hg, rfl⟩ := List.mem_map.mp hf
      exact ⟨hexp g hg, encBytes_spec (hs.kinds g hg)⟩)
    (Tag.Struct.toByte :: PutUint32 ((before ++ (name, ft, v) :: after).length % 2 ^ 32))
  simp only [List.map_map, Function.comp_def, List.cons_append] at hw
  have hmid := hs.ident (name, ft, v) (List.mem_append_right _ (List.mem_cons_self _ _))
  obtain ⟨vals', count', hpre⟩ := structLoop_present D before
    (fun f hf => ⟨(hs.ident f (List.mem_append_left _ hf)).1,
      (hs.ident f (List.mem_append_left _ hf)).2, hexp f (List.mem_append_left _ hf),
      hs.kinds f (List.mem_append_left _ hf), hD f hf⟩)
    (Tag.Struct.toByte :: PutUint32 ((before ++ (name, ft, v) :: after).length % 2 ^ 32))
    (fieldBytes name v ++ (after.map (fun f => fieldBytes f.1 f.2.2)).flatten)
    (after.length + 1) 5 cur hcur
  have hmiss := structLoop_missing
    (Tag.Struct.toByte :: PutUint32 ((before ++ (name, ft, v) :: after).length % 2 ^ 32)
      ++ (before.map (fun f => fieldBytes f.1 f.2.2)).flatten)
    ((after.map (fun f => fieldBytes f.1 f.2.2)).flatten) D name v (.struct vals')
    after.length count' hmid.1 hmid.2 (FieldByName_none D name habs)
  have hu := Uint32_count (before ++ (name, ft, v) :: after).length hs.count
    ((((before ++ (name, ft, v) :: after)).map (fun f => fieldBytes f.1 f.2.2)).flatten)
  refine ⟨Tag.Struct.toByte ::
      (PutUint32 ((before ++ (name, ft, v) :: after).length % 2 ^ 32) ++
        ((before ++ (name, ft, v) :: after).map (fun f => fieldBytes f.1 f.2.2)).flatten),
    .ptr (.struct D) (.struct vals'), ?_, ?_⟩
  · simp only [Encode, Encoder.Encode, Record.value, List.length_map, hw]
  · simp only [List.map_append, List.map_cons, List.flatten_append, List.flatten_cons,
      List.append_assoc, List.cons_append, List.length_cons, PutUint32_length,
      List.length_append] at hpre hmiss hu ⊢
    simp only [Decode, Decoder.Decode, Tag.ofByte_toByte, hu]
    rw [show before.length + (after.length + 1) = before.length + (after.length + 1) from rfl,
      hpre, hmiss]
    rfl

/-- The value `struct{ Éa uint8; B bool }{1, true}` and the destination shape
`struct{ Éa uint8; C string }`: the field `B` is missing. The name `Éa` starts
with the upper-case letter U+00C9. -/
theorem struct_unknown_field_witness :
    ∃ enc dst,
      Encode (Record.value ([([0xC3, 0x89, 0x61], .uint8, .uint8 1)]
          ++ ([0x42], .bool, .bool true) :: []))
        = .ok enc ∧
      Decode enc (.ptr (.struct [([0xC3, 0x89, 0x61], .uint8), ([0x43], .string)])
          (.struct [([0xC3, 0x89, 0x61], .uint8 9), ([0x43], .string [0x78])]))
        = .ret 0 (some (.missingStructField [0x42])) dst :=
  struct_unknown_field [([0xC3, 0x89, 0x61], .uint8, .uint8 1)] [] [0x42] .bool (.bool true)
    [([0xC3, 0x89, 0x61], .uint8), ([0x43], .string)]
    { count := by decide
      ident := by decide
      kinds := by
        intro f hf
        simp only [List.cons_append, List.nil_append, List.mem_cons, List.mem_singleton,
          List.not_mem_nil, or_false] at hf
        rcases hf with rfl | rfl
        · exact Holds.uint8 (by decide)
        · exact Holds.bool true }
    (by decide)
    (by
      intro f hf
      rw [List.mem_singleton] at hf
      subst hf
      rfl)
    (by decide)
    [([0xC3, 0x89, 0x61], .uint8 9), ([0x43], .string [0x78])] rfl

/-- C17, as stated, fails: `struct{ b uint8 }{1}` is a struct value with one
scalar field, its field `b` is absent from the empty destination shape
`struct{}`, and `Encode` panics on it (`fv.Interface()` on an unexported
field), so no error of `Decode` is reached. -/
theorem struct_unknown_field_unexported :
    Record.Scalars [([0x62], .uint8, .uint8 1)] ∧
      [0x62] ∉ ([] : List (List Byte × GoType)).map Prod.fst ∧
      Encode (Record.value [([0x62], .uint8, .uint8 1)]) = .panic :=
  ⟨{ count := by decide
     ident := by decide
     kinds := by
       intro f hf
       rw [List.mem_singleton] at hf
       subst hf
       exact Holds.uint8 (by decide) }, by decide, rfl⟩


/-! ## `DecodeTo` on signed integers -/

theorem SetInt_iface (x : Int) : SetInt .iface x = none := rfl

theorem DecodeTo_of_panic (tg : Tag) (tl : List Byte)
    (htg : tg ∈ [Tag.Uint8, .Uint16, .Uint32, .Uint64, .Uint, .Int8, .Int16, .Int32, .Int64,
      .Int, .Bool, .Float32, .Float64, .Timestamp, .Duration, .String, .Bytes])
    (h : Decoder.decodeVal (tg.toByte :: tl) .iface = .panic) :
    DecodeTo (tg.toByte :: tl) = none := by
  simp only [DecodeTo, Decode, Decode_scalar tg tl _ htg, Decoder.decode, List.length_cons,
    Nat.add_one_ne_zero, if_false, h]

/-- C21, at every input. Dynamic decode of signed integers: for every `x` and each of
the widths 8, 16, 32 and 64, `Encode` of the `intN` value `x` succeeds and
`DecodeTo` of the encoding panics, so it returns no value at all. The cases
`Int8` to `Int64` of `decodeVal` call `v.SetInt` on the destination, which
`DecodeTo` makes of interface kind; the unsigned cases and the case `Int` call
`dec.setVal` instead. -/
theorem dynamic_decode_signed_panics (x : Int) :
    (∃ enc, Encode (.int8 x) = .ok enc ∧ DecodeTo enc = none) ∧
    (∃ enc, Encode (.int16 x) = .ok enc ∧ DecodeTo enc = none) ∧
    (∃ enc, Encode (.int32 x) = .ok enc ∧ DecodeTo enc = none) ∧
    (∃ enc, Encode (.int64 x) = .ok enc ∧ DecodeTo enc = none) := by
  refine ⟨⟨_, rfl, ?_⟩, ⟨_, rfl, ?_⟩, ⟨_, rfl, ?_⟩, ⟨_, rfl, ?_⟩⟩
  · refine DecodeTo_of_panic .Int8 _ (by simp) ?_
    rw [decodeVal_Int8, SetInt_iface]; rfl
  · refine DecodeTo_of_panic .Int16 _ (by simp) ?_
    have := decodeVal_Int16 (toUnsigned 16 x) [] .iface
    rw [List.append_nil, SetInt_iface] at this
    exact this
  · refine DecodeTo_of_panic .Int32 _ (by simp) ?_
    have := decodeVal_Int32 (toUnsigned 32 x) [] .iface
    rw [List.append_nil, SetInt_iface] at this
    exact this
  · refine DecodeTo_of_panic .Int64 _ (by simp) ?_
    have := decodeVal_Int64 (toUnsigned 64 x) [] .iface
    rw [List.append_nil, SetInt_iface] at this
    exact this

/-- Four inputs on which `DecodeTo` panics: the encodings of `int8(-1)`,
`int16(-2)`, `int32(-3)` and `int64(-4)`. The same call on the encoding of
`int(-4)` returns the value. -/
theorem DecodeTo_signed_examples :
    (Encode (.int8 (-1)) = .ok [0xFB, 0xFF] ∧ DecodeTo [0xFB, 0xFF] = none) ∧
    (Encode (.int16 (-2)) = .ok [0xFA, 0xFE, 0xFF] ∧ DecodeTo [0xFA, 0xFE, 0xFF] = none) ∧
    (Encode (.int32 (-3)) = .ok [0xF9, 0xFD, 0xFF, 0xFF, 0xFF] ∧
      DecodeTo [0xF9, 0xFD, 0xFF, 0xFF, 0xFF] = none) ∧
    (Encode (.int64 (-4)) = .ok [0xF8, 0xFC, 0xFF, 0xFF, 0xFF, 0xFF, 0xFF, 0xFF, 0xFF] ∧
      DecodeTo [0xF8, 0xFC, 0xFF, 0xFF, 0xFF, 0xFF, 0xFF, 0xFF, 0xFF] = none) ∧
    (Encode (.int (-4)) = .ok [0xF7, 0xFC, 0xFF, 0xFF, 0xFF, 0xFF, 0xFF, 0xFF, 0xFF] ∧
      DecodeTo [0xF7, 0xFC, 0xFF, 0xFF, 0xFF, 0xFF, 0xFF, 0xFF, 0xFF]
        = some (.int (-4), none)) :=
  ⟨⟨rfl, rfl⟩, ⟨rfl, rfl⟩, ⟨rfl, rfl⟩, ⟨rfl, rfl⟩, ⟨rfl, rfl⟩⟩

/-! ## The element wrappers -/

theorem Holds.isScalar {t : GoType} {v : GoVal} (h : Holds t v) : v.isScalar = true := by
  cases h <;> rfl

theorem EncodeIndex_of_isScalar (i : Int) (v : GoVal) (e : List Byte)
    (h : v.isScalar = true) (he : Encoder.encode v = .ok e) :
    EncodeIndex i v = .ok (Tag.ElementValue.toByte :: e) := by
  cases v <;> simp only [GoVal.isScalar, Bool.false_eq_true] at h <;>
    simp only [EncodeIndex, Encoder.EncodeIndex, he, concat]

theorem EncodeIndex_of_not_isScalar (i : Int) (v : GoVal) (h : v.isScalar = false) :
    EncodeIndex i v = .err .ErrMustScalarType := by
  cases v <;> simp only [GoVal.isScalar, reduceCtorEq] at h <;> rfl

/-- C22. Element-wrapper round trip: for every index `i` and every scalar `v`
within the range of its type (an integer of any of the ten kinds or a string
without a zero byte, and the other scalar kinds as well), `EncodeIndex(i, v)`
succeeds and `DecodeElement` of it into a destination of the type of `v`
returns `false` and no error and leaves the destination equal to `v`; for
every index `j` and every identifier `id` without a zero byte,
`EncodeRef(j, id)` succeeds and `DecodeElement` of it into a string
destination returns `true` and no error and leaves the destination equal to
`id`. -/
theorem element_round_trip (i j : Int) (t : GoType) (v : GoVal) (h : Holds t v)
    (id : List Byte) (hid : (0 : Byte) ∉ id) (cur cur' : GoVal) :
    (∃ enc, EncodeIndex i v = .ok enc ∧
      DecodeElement enc (.ptr t cur) = .ret false none (.ptr t v)) ∧
    (∃ enc, EncodeRef j id = .ok enc ∧
      DecodeElement enc (.ptr .string cur') = .ret true none (.ptr .string (.string id))) := by
  constructor
  · obtain ⟨e, he, hd⟩ := decode_encode h [] cur
    rw [List.append_nil] at hd
    refine ⟨_, EncodeIndex_of_isScalar i v e h.isScalar he, ?_⟩
    simp only [DecodeElement, Decoder.DecodeElement, if_true, hd]
  · obtain ⟨e, he, hd⟩ := decode_encode (Holds.string hid) [] cur'
    rw [List.append_nil] at hd
    refine ⟨Tag.ElementRef.toByte :: e, ?_, ?_⟩
    · simp only [EncodeRef, Encoder.EncodeRef, he, concat]
    · have hne : Tag.ElementRef.toByte ≠ Tag.ElementValue.toByte := by decide
      simp only [DecodeElement, Decoder.DecodeElement, hne, if_false, if_true, hd]

/-- The value `int16(-2)` at index 3 and the identifier "id" at index 4. -/
theorem element_round_trip_witness :
    (∃ enc, EncodeIndex 3 (.int16 (-2)) = .ok enc ∧
      DecodeElement enc (.ptr .int16 (.int16 0)) = .ret false none (.ptr .int16 (.int16 (-2)))) ∧
    (∃ enc, EncodeRef 4 [0x69, 0x64] = .ok enc ∧
      DecodeElement enc (.ptr .string (.string []))
        = .ret true none (.ptr .string (.string [0x69, 0x64]))) :=
  element_round_trip 3 4 .int16 (.int16 (-2)) (Holds.int16 (by decide) (by decide))
    [0x69, 0x64] (by decide) (.int16 0) (.string [])

/-- C23. Indexed encode accepts scalars only: for every index `i` and every
value `v`, `EncodeIndex(i, v)` succeeds exactly when `v` is a scalar (an
integer, a float, a bool, a string, a timestamp or a duration); then `Encode(v)`
succeeds and, for every index, the result is the tag `ElementValue` followed
by `Encode(v)`; for every other `v` (a byte blob, an array, a map, a struct) it
returns the error `ErrMustScalarType`. -/
theorem indexed_encode_scalars_only (i : Int) (v : GoVal) :
    ((∃ enc, EncodeIndex i v = .ok enc) ↔ v.isScalar = true) ∧
    (v.isScalar = true → ∃ e, Encode v = .ok e ∧
      ∀ j : Int, EncodeIndex j v = .ok (Tag.ElementValue.toByte :: e)) ∧
    (v.isScalar = false → EncodeIndex i v = .err .ErrMustScalarType) ∧
    Tag.ElementValue.toByte = 0xE0 := by
  have hyes : v.isScalar = true → ∃ e, Encode v = .ok e ∧
      ∀ j : Int, EncodeIndex j v = .ok (Tag.ElementValue.toByte :: e) := by
    intro h
    obtain ⟨e, he, hE⟩ := Encode_of_isScalar v h
    exact ⟨e, hE, fun j => EncodeIndex_of_isScalar j v e h he⟩
  refine ⟨⟨?_, ?_⟩, hyes, EncodeIndex_of_not_isScalar i v, rfl⟩
  · rintro ⟨enc, henc⟩
    by_contra hn
    rw [EncodeIndex_of_not_isScalar i v (by simpa using hn)] at henc
    cases henc
  · intro h
    obtain ⟨e, _, he⟩ := hyes h
    exact ⟨_, he i⟩
/-! ## The delimiters of a map entry -/

theorem getElem?_after (pre tl : List Byte) (n : Nat) :
    (pre ++ tl)[pre.length + n]? = tl[n]? := by
  rw [List.getElem?_append_right (Nat.le_add_right _ _), Nat.add_sub_cancel_left]

/-- The first iteration of the loop of the `Map` case when the byte after the
key is not the tag `MapValue`. -/
theorem mapLoop_bad_value_tag (pre tl : List Byte) (kt et : GoType) (key cur : GoVal)
    (n k count : Nat) (c : Byte)
    (hk : Decoder.decode tl (.ptr kt kt.zero) = .ret n none (.ptr kt key))
    (hc : tl[n]? = some c) (hne : c ≠ Tag.MapValue.toByte) :
    Decoder.mapLoop (pre ++ Tag.MapKey.toByte :: tl) (.map kt et) (k + 1) pre.length count cur
      = .fail .ErrInvalidMapKey cur := by
  have a1 : (pre ++ Tag.MapKey.toByte :: tl)[pre.length]? = some Tag.MapKey.toByte :=
    getElem?_at _ _ _ _ rfl
  have a2 : sliceFrom (pre ++ Tag.MapKey.toByte :: tl) (pre.length + 1) = some tl := by
    have := sliceFrom_append_of_eq (pre ++ [Tag.MapKey.toByte]) tl (pre.length + 1) (by simp)
    simpa using this
  have a3 : (pre ++ Tag.MapKey.toByte :: tl)[pre.length + 1 + n]? = some c := by
    have := getElem?_after (pre ++ [Tag.MapKey.toByte]) tl n
    simp only [List.append_assoc, List.singleton_append, List.length_append,
      List.length_singleton] at this
    rw [this, hc]
  rw [Decoder.mapLoop]
  simp only [a1, ne_eq, not_true_eq_false, if_false, a2, hk, a3, hne, not_false_eq_true,
    if_true]

/-- The first iteration of the loop of the `Map` case when the entry does not
start with the tag `MapKey`. -/
theorem mapLoop_bad_key_tag (pre tl : List Byte) (t : GoType) (cur : GoVal)
    (k count : Nat) (c : Byte) (hne : c ≠ Tag.MapKey.toByte) :
    Decoder.mapLoop (pre ++ c :: tl) t (k + 1) pre.length count cur
      = .fail .ErrInvalidMapKey cur := by
  have a1 : (pre ++ c :: tl)[pre.length]? = some c := getElem?_at _ _ _ _ rfl
  rw [Decoder.mapLoop]
  simp only [a1, ne_eq, hne, not_false_eq_true, if_true]

/-- C24. Map value-delimiter mismatch: for every `Map` payload with an entry
count `l` of at least 1 whose first entry starts with the tag `MapKey`, has a
key that `decode` reads without error in `n` bytes, and has after the key a
byte that is not the tag `MapValue`, `Decode` into a map destination returns 0
and `ErrInvalidMapKey` and leaves the map as it was; this is the error it
returns when the first entry does not start with the tag `MapKey`. -/
theorem map_value_tag_mismatch (l : Nat) (h1 : 1 ≤ l) (h2 : l < 2 ^ 32) (tl : List Byte)
    (kt et : GoType) (key cur : GoVal) (n : Nat) (c : Byte)
    (hk : Decoder.decode tl (.ptr kt kt.zero) = .ret n none (.ptr kt key))
    (hc : tl[n]? = some c) (hne : c ≠ Tag.MapValue.toByte) :
    Decode (Tag.Map.toByte :: (PutUint32 l ++ Tag.MapKey.toByte :: tl))
        (.ptr (.map kt et) cur)
      = .ret 0 (some .ErrInvalidMapKey) (.ptr (.map kt et) cur) ∧
    ∀ (c' : Byte) (tl' : List Byte), c' ≠ Tag.MapKey.toByte →
      Decode (Tag.Map.toByte :: (PutUint32 l ++ c' :: tl')) (.ptr (.map kt et) cur)
        = .ret 0 (some .ErrInvalidMapKey) (.ptr (.map kt et) cur) := by
  obtain ⟨k, rfl⟩ : ∃ k, l = k + 1 := ⟨l - 1, by omega⟩
  have hu : ∀ rest : List Byte, Uint32 (PutUint32 (k + 1) ++ rest) = some (k + 1) := by
    intro rest
    rw [Uint32_PutUint32, Nat.mod_eq_of_lt h2]
  constructor
  · have hl := mapLoop_bad_value_tag (Tag.Map.toByte :: PutUint32 (k + 1)) tl kt et key cur
      n k 5 c hk hc hne
    simp only [List.cons_append, List.length_cons, PutUint32_length] at hl
    simp only [Decode, Decoder.Decode, Tag.ofByte_toByte, hu, hl, Decoder.loopResult]
  · intro c' tl' hc'
    have hl := mapLoop_bad_key_tag (Tag.Map.toByte :: PutUint32 (k + 1)) tl' (.map kt et) cur
      k 5 c' hc'
    simp only [List.cons_append, List.length_cons, PutUint32_length] at hl
    simp only [Decode, Decoder.Decode, Tag.ofByte_toByte, hu, hl, Decoder.loopResult]

/-- The map `{"k": "v"}` with the tag `MapValue` replaced by the byte `0x00`. -/
theorem map_value_tag_mismatch_witness :
    Decode (Tag.Map.toByte :: (PutUint32 1 ++ Tag.MapKey.toByte
          :: [0xF3, 0x6B, 0x00, 0x00, 0xF3, 0x76, 0x00]))
        (.ptr (.map .string .iface) (.map []))
      = .ret 0 (some .ErrInvalidMapKey) (.ptr (.map .string .iface) (.map [])) ∧
    ∀ (c' : Byte) (tl' : List Byte), c' ≠ Tag.MapKey.toByte →
      Decode (Tag.Map.toByte :: (PutUint32 1 ++ c' :: tl'))
          (.ptr (.map .string .iface) (.map []))
        = .ret 0 (some .ErrInvalidMapKey) (.ptr (.map .string .iface) (.map [])) :=
  map_value_tag_mismatch 1 (by decide) (by decide) [0xF3, 0x6B, 0x00, 0x00, 0xF3, 0x76, 0x00]
    .string .iface (.string [0x6B]) (.map []) 3 0x00 rfl rfl (by decide)

/-! ## The array count beyond 65535 -/

theorem ints_flatten_append (a b : List Int) :
    ((a ++ b).map (fun x => Tag.Int.toByte :: PutUint64 (toUnsigned 64 x))).flatten
      = (a.map (fun x => Tag.Int.toByte :: PutUint64 (toUnsigned 64 x))).flatten
        ++ (b.map (fun x => Tag.Int.toByte :: PutUint64 (toUnsigned 64 x))).flatten := by
  rw [List.map_append, List.flatten_append]

/-- C25. Array count wrap-around: for every `[]int` `a` with at least 65536
elements, `Encode(a)` succeeds and writes `len(a) mod 65536` in its two count
bytes, and `Decode` of the encoding into a `[]int` destination succeeds,
returns `3 + 9 * (len(a) mod 65536)` and leaves the first `len(a) mod 65536`
elements of `a`, which are not all of `a`. -/
theorem array_count_wraps (a : List Int) (hlen : 65536 ≤ a.length)
    (hr : ∀ x ∈ a, -2 ^ 63 ≤ x ∧ x < 2 ^ 63) (cur : GoVal) :
    ∃ payload,
      Encode (.sliceInt a)
        = .ok (Tag.ArrayInt.toByte :: byteOf (a.length % 65536)
            :: byteOf (a.length % 65536 / 256) :: payload) ∧
      Decode (Tag.ArrayInt.toByte :: byteOf (a.length % 65536)
            :: byteOf (a.length % 65536 / 256) :: payload) (.ptr .sliceInt cur)
        = .ret (3 + 9 * (a.length % 65536)) none
            (.ptr .sliceInt (.sliceInt (a.take (a.length % 65536)))) ∧
      a.take (a.length % 65536) ≠ a := by
  have hm : a.length % 65536 < 65536 := Nat.mod_lt _ (by norm_num)
  have htl : (a.take (a.length % 65536)).length = a.length % 65536 := by
    rw [List.length_take]; omega
  refine ⟨(a.map (fun x => Tag.Int.toByte :: PutUint64 (toUnsigned 64 x))).flatten,
    ?_, ?_, ?_⟩
  · rw [Encode_sliceInt a]
    rfl
  · have H : List.Forall₂
        (fun v e => Encoder.encode v = .ok e ∧ Holds .int v ∧ e.length = 9)
        ((a.take (a.length % 65536)).map .int)
        ((a.take (a.length % 65536)).map
          (fun x => Tag.Int.toByte :: PutUint64 (toUnsigned 64 x))) :=
      forall₂_map_map _ _ _ _ (fun x m =>
        ⟨rfl, Holds.int (hr x (List.mem_of_mem_take m)).1 (hr x (List.mem_of_mem_take m)).2,
          rfl⟩)
    obtain ⟨hu, hl⟩ := Decode_fixed_array .int 9 _ _ H (by rw [List.length_map, htl]; exact hm)
      .ArrayInt
      ((a.drop (a.length % 65536)).map
        (fun x => Tag.Int.toByte :: PutUint64 (toUnsigned 64 x))).flatten
    rw [← ints_flatten_append, List.take_append_drop] at hu hl
    simp only [List.length_map, htl, show (2 : Nat) ^ 16 = 65536 by norm_num, Nat.mod_mod,
      List.length_cons, List.length_append, PutUint16_length, ints_flatten_length] at hu hl
    have hp : PutUint16 (a.length % 65536)
        = [byteOf (a.length % 65536), byteOf (a.length % 65536 / 256)] := rfl
    rw [hp] at hu hl
    simp only [List.cons_append, List.nil_append] at hu hl
    simp only [Decode, Decoder.Decode, Tag.ofByte_toByte, hu, hl, Decoder.arrayResult,
      Decoder.setResult, SetValue, GoType.id, GoVal.id, map_asInt, if_true]
  · intro h
    have := congrArg List.length h
    rw [htl] at this
    omega

/-- The array of 65537 elements `5`: the count written is 1. -/
theorem array_count_wraps_witness :
    ∃ payload,
      Encode (.sliceInt (List.replicate 65537 5))
        = .ok (Tag.ArrayInt.toByte :: byteOf ((List.replicate 65537 (5 : Int)).length % 65536)
            :: byteOf ((List.replicate 65537 (5 : Int)).length % 65536 / 256) :: payload) ∧
      Decode (Tag.ArrayInt.toByte :: byteOf ((List.replicate 65537 (5 : Int)).length % 65536)
            :: byteOf ((List.replicate 65537 (5 : Int)).length % 65536 / 256) :: payload)
          (.ptr .sliceInt (.sliceInt []))
        = .ret (3 + 9 * ((List.replicate 65537 (5 : Int)).length % 65536)) none
            (.ptr .sliceInt (.sliceInt ((List.replicate 65537 (5 : Int)).take
              ((List.replicate 65537 (5 : Int)).length % 65536)))) ∧
      (List.replicate 65537 (5 : Int)).take ((List.replicate 65537 (5 : Int)).length % 65536)
        ≠ List.replicate 65537 5 :=
  array_count_wraps (List.replicate 65537 5)
    (by rw [List.length_replicate]; norm_num)
    (fun x hx => by rw [List.eq_of_mem_replicate hx]; norm_num)
    (.sliceInt [])

end Binary
